import Mathlib

/-!
# Directed weighted graph (triple-map representation)

Shallow embedding of `DirectedGraph.cpp` / `DirectedGraph.h`
(Assignment 1, "Lab 1 Assignment - C++ Bonus Implementation").

* `std::set<int>` is a strictly ascending `List Int`;
* `std::map<K, V>` is an association list with strictly ascending keys;
* `std::pair<int, int>` with its lexicographic `operator<` is `Lex (Int × Int)`;
* a member function that may throw returns the pair
  `(outcome, graph after the call)`, so that the state left behind by a call that
  throws is part of the model;
* `int` values (vertex ids, costs) are unbounded `Int`: the class performs no arithmetic
  on them.

The container functions do not require their inputs to be ascending; separate lemmas show
that ascending inputs give ascending outputs.
-/

set_option linter.unusedSectionVars false
set_option linter.unusedVariables false

/-! ## Containers -/

namespace StdSet

variable {κ : Type} [LinearOrder κ]

/-- The call `s.insert(x)` on a `std::set`. -/
def insert (x : κ) : List κ → List κ
  | [] => [x]
  | y :: ys =>
    if x < y then x :: y :: ys
    else if x = y then y :: ys
    else y :: insert x ys

/-- The call `s.erase(x)` on a `std::set`. -/
def erase (x : κ) (s : List κ) : List κ :=
  s.filter (fun y => decide (y ≠ x))

end StdSet

namespace StdMap

variable {κ : Type} {α : Type} [LinearOrder κ]

/-- The keys of a map, in iteration order. -/
def keys (m : List (κ × α)) : List κ :=
  m.map Prod.fst

/-- The call `m.find(k)`: `none` stands for `m.end()`. -/
def find? (k : κ) : List (κ × α) → Option α
  | [] => none
  | p :: m => if k = p.1 then some p.2 else find? k m

/-- The statement `m[k] = v`. -/
def assign (k : κ) (v : α) : List (κ × α) → List (κ × α)
  | [] => [(k, v)]
  | p :: m =>
    if k < p.1 then (k, v) :: p :: m
    else if k = p.1 then (k, v) :: m
    else p :: assign k v m

/-- The call `m.erase(k)`. -/
def erase (k : κ) (m : List (κ × α)) : List (κ × α) :=
  m.filter (fun p => decide (p.1 ≠ k))

/-- The expression `m[k]` used as a value: the mapped value and the map afterwards; an
absent key is first inserted with the value-initialised `dflt`. -/
def index (dflt : α) (k : κ) (m : List (κ × α)) : α × List (κ × α) :=
  match find? k m with
  | some v => (v, m)
  | none => (dflt, assign k dflt m)

/-- The statement `m[k].op(...)`, where `op` updates the mapped value in place. -/
def modify (dflt : α) (k : κ) (op : α → α) (m : List (κ × α)) : List (κ × α) :=
  assign k (op (index dflt k m).1) (index dflt k m).2

end StdMap

/-! ## Exceptions -/

/-- The `GraphException` values thrown in the sources, one constructor per message. -/
inductive GraphException
  | edge_not_in_graph
  | vertex_not_in_graph
  | vertex_already_in_graph
  | both_vertices_must_be_in_graph
  | edge_already_in_graph
  | nr_must_be_positive
  | too_many_edges
deriving DecidableEq, Repr

/-- The method `GraphException::what`. -/
def GraphException.what : GraphException → String
  | .edge_not_in_graph => "\nError! The edge is not in the graph.\n"
  | .vertex_not_in_graph => "\nError! The vertex is not in the graph.\n"
  | .vertex_already_in_graph => "\nError! The vertex is already in the graph.\n"
  | .both_vertices_must_be_in_graph => "\nError! Both vertices must be in the graph.\n"
  | .edge_already_in_graph => "\nError! The edge is already in the graph.\n"
  | .nr_must_be_positive => "\nError! Nr. of edges/vertices must be positive.\n"
  | .too_many_edges => "\nError! Too many edges given.\n"

/-! ## The class `DirectedGraph` -/

/-- The three private members of `DirectedGraph`. -/
structure DirectedGraph where
  dict_out : List (Int × List Int)
  dict_in : List (Int × List Int)
  costs : List (Lex (Int × Int) × Int)
deriving DecidableEq

namespace DirectedGraph

/-- The key `std::make_pair(_from, _to)` of the cost map. -/
def edge_key (_from _to : Int) : Lex (Int × Int) :=
  toLex (_from, _to)

/-- The constructor `DirectedGraph::DirectedGraph(int nr_vertices)`. -/
def new (nr_vertices : Int) : DirectedGraph :=
  (List.range nr_vertices.toNat).foldl
    (fun (g : DirectedGraph) (i : Nat) =>
      { g with
        dict_out := StdMap.assign (i : Int) [] g.dict_out
        dict_in := StdMap.assign (i : Int) [] g.dict_in })
    { dict_out := [], dict_in := [], costs := [] }

def get_nr_vertices (g : DirectedGraph) : Int :=
  g.dict_out.length

def get_nr_edges (g : DirectedGraph) : Int :=
  g.costs.length

/-- The range `[dict_out.begin(), dict_out.end())`. -/
def out_relations (g : DirectedGraph) : List (Int × List Int) :=
  g.dict_out

/-- The range `[costs.begin(), costs.end())`. -/
def get_all_edges (g : DirectedGraph) : List (Lex (Int × Int) × Int) :=
  g.costs

def is_edge_in_graph (g : DirectedGraph) (_from _to : Int) : Bool :=
  (StdMap.find? (edge_key _from _to) g.costs).isSome

def get_cost_of_edge (g : DirectedGraph) (_from _to : Int) :
    Except GraphException Int × DirectedGraph :=
  if !g.is_edge_in_graph _from _to then (.error .edge_not_in_graph, g)
  else
    let r := StdMap.index 0 (edge_key _from _to) g.costs
    (.ok r.1, { g with costs := r.2 })

def is_vertex_in_graph (g : DirectedGraph) (vertex : Int) : Bool :=
  (StdMap.find? vertex g.dict_out).isSome

def get_in_degree (g : DirectedGraph) (vertex : Int) :
    Except GraphException Int × DirectedGraph :=
  if !g.is_vertex_in_graph vertex then (.error .vertex_not_in_graph, g)
  else
    let r := StdMap.index [] vertex g.dict_in
    (.ok r.1.length, { g with dict_in := r.2 })

def get_out_degree (g : DirectedGraph) (vertex : Int) :
    Except GraphException Int × DirectedGraph :=
  if !g.is_vertex_in_graph vertex then (.error .vertex_not_in_graph, g)
  else
    let r := StdMap.index [] vertex g.dict_out
    (.ok r.1.length, { g with dict_out := r.2 })

/-- The result is the range `[dict_out[vertex].begin(), dict_out[vertex].end())`. -/
def get_outbound_neighbours (g : DirectedGraph) (vertex : Int) :
    Except GraphException (List Int) × DirectedGraph :=
  if !g.is_vertex_in_graph vertex then (.error .vertex_not_in_graph, g)
  else
    let r₁ := StdMap.index [] vertex g.dict_out
    let r₂ := StdMap.index [] vertex r₁.2
    (.ok r₂.1, { g with dict_out := r₂.2 })

def get_nr_outbound_neighbours (g : DirectedGraph) (vertex : Int) :
    Except GraphException Int × DirectedGraph :=
  if !g.is_vertex_in_graph vertex then (.error .vertex_not_in_graph, g)
  else
    let r := StdMap.index [] vertex g.dict_out
    (.ok r.1.length, { g with dict_out := r.2 })

/-- The result is the range `[dict_in[vertex].begin(), dict_in[vertex].end())`. -/
def get_inbound_neighbours (g : DirectedGraph) (vertex : Int) :
    Except GraphException (List Int) × DirectedGraph :=
  if !g.is_vertex_in_graph vertex then (.error .vertex_not_in_graph, g)
  else
    let r₁ := StdMap.index [] vertex g.dict_in
    let r₂ := StdMap.index [] vertex r₁.2
    (.ok r₂.1, { g with dict_in := r₂.2 })

def get_nr_inbound_neighbours (g : DirectedGraph) (vertex : Int) :
    Except GraphException Int × DirectedGraph :=
  if !g.is_vertex_in_graph vertex then (.error .vertex_not_in_graph, g)
  else
    let r := StdMap.index [] vertex g.dict_in
    (.ok r.1.length, { g with dict_in := r.2 })

def add_vertex (g : DirectedGraph) (vertex : Int) : Except GraphException Unit × DirectedGraph :=
  if g.is_vertex_in_graph vertex then (.error .vertex_already_in_graph, g)
  else
    (.ok (),
      { g with
        dict_out := StdMap.assign vertex [] g.dict_out
        dict_in := StdMap.assign vertex [] g.dict_in })

/-- The loops `for (auto &it : dict) it.second.erase(vertex);` of `remove_vertex`. -/
def erase_from_all (vertex : Int) (dict : List (Int × List Int)) : List (Int × List Int) :=
  dict.map (fun it => (it.1, StdSet.erase vertex it.2))

/-- The `while (it != costs.end())` loop of `remove_vertex`. -/
def erase_touching (vertex : Int) : List (Lex (Int × Int) × Int) → List (Lex (Int × Int) × Int)
  | [] => []
  | it :: rest =>
    if (ofLex it.1).1 = vertex ∨ (ofLex it.1).2 = vertex then erase_touching vertex rest
    else it :: erase_touching vertex rest

def remove_vertex (g : DirectedGraph) (vertex : Int) : Except GraphException Unit × DirectedGraph :=
  if !g.is_vertex_in_graph vertex then (.error .vertex_not_in_graph, g)
  else
    (.ok (),
      { dict_out := erase_from_all vertex (StdMap.erase vertex g.dict_out)
        dict_in := erase_from_all vertex (StdMap.erase vertex g.dict_in)
        costs := erase_touching vertex g.costs })

def add_edge (g : DirectedGraph) (_from _to _cost : Int) :
    Except GraphException Unit × DirectedGraph :=
  if !g.is_vertex_in_graph _from || !g.is_vertex_in_graph _to then
    (.error .both_vertices_must_be_in_graph, g)
  else if g.is_edge_in_graph _from _to then (.error .edge_already_in_graph, g)
  else
    (.ok (),
      { dict_in := StdMap.modify [] _to (StdSet.insert _from) g.dict_in
        dict_out := StdMap.modify [] _from (StdSet.insert _to) g.dict_out
        costs := StdMap.assign (edge_key _from _to) _cost g.costs })

def remove_edge (g : DirectedGraph) (_from _to : Int) :
    Except GraphException Unit × DirectedGraph :=
  if !g.is_vertex_in_graph _from || !g.is_vertex_in_graph _to then
    (.error .both_vertices_must_be_in_graph, g)
  else if !g.is_edge_in_graph _from _to then (.error .edge_not_in_graph, g)
  else
    (.ok (),
      { dict_in := StdMap.modify [] _to (StdSet.erase _from) g.dict_in
        dict_out := StdMap.modify [] _from (StdSet.erase _to) g.dict_out
        costs := StdMap.erase (edge_key _from _to) g.costs })

def change_cost (g : DirectedGraph) (_from _to _new_cost : Int) :
    Except GraphException Unit × DirectedGraph :=
  if !g.is_vertex_in_graph _from || !g.is_vertex_in_graph _to then
    (.error .both_vertices_must_be_in_graph, g)
  else if !g.is_edge_in_graph _from _to then (.error .edge_not_in_graph, g)
  else (.ok (), { g with costs := StdMap.assign (edge_key _from _to) _new_cost g.costs })

/-- The nested loops of `copy_graph` that copy one neighbour map into `dst`:
`for (map_it : src) for (x : map_it.second) dst[map_it.first].insert(x);`. -/
def copy_sets (src dst : List (Int × List Int)) : List (Int × List Int) :=
  src.foldl
    (fun acc map_it =>
      map_it.2.foldl (fun acc x => StdMap.modify [] map_it.1 (StdSet.insert x) acc) acc)
    dst

/-- The first loop of `copy_graph`: `for (cost : src) dst[make_pair(...)] = cost.second;`. -/
def copy_costs (src dst : List (Lex (Int × Int) × Int)) : List (Lex (Int × Int) × Int) :=
  src.foldl
    (fun acc cost => StdMap.assign (edge_key (ofLex cost.1).1 (ofLex cost.1).2) cost.2 acc)
    dst

def copy_graph (g : DirectedGraph) : DirectedGraph :=
  let new_graph := new g.get_nr_vertices
  { costs := copy_costs g.costs new_graph.costs
    dict_in := copy_sets g.dict_in new_graph.dict_in
    dict_out := copy_sets g.dict_out new_graph.dict_out }

end DirectedGraph

deriving instance DecidableEq for Except

namespace DirectedGraph

/-- The reachable graphs: the constructor followed by successful calls of the public member
functions on the object. The queries are listed too, because they read the maps with the
inserting `operator[]`. The member function `copy_graph` does not change the object it is
called on; the graph it returns is studied separately, where a claim speaks of it. -/
inductive Reachable : DirectedGraph → Prop
  | new (nr_vertices : Int) : Reachable (new nr_vertices)
  | add_vertex {g : DirectedGraph} (vertex : Int) :
      Reachable g → (g.add_vertex vertex).1 = .ok () → Reachable (g.add_vertex vertex).2
  | remove_vertex {g : DirectedGraph} (vertex : Int) :
      Reachable g → (g.remove_vertex vertex).1 = .ok () → Reachable (g.remove_vertex vertex).2
  | add_edge {g : DirectedGraph} (_from _to _cost : Int) :
      Reachable g → (g.add_edge _from _to _cost).1 = .ok () →
      Reachable (g.add_edge _from _to _cost).2
  | remove_edge {g : DirectedGraph} (_from _to : Int) :
      Reachable g → (g.remove_edge _from _to).1 = .ok () → Reachable (g.remove_edge _from _to).2
  | change_cost {g : DirectedGraph} (_from _to _new_cost : Int) :
      Reachable g → (g.change_cost _from _to _new_cost).1 = .ok () →
      Reachable (g.change_cost _from _to _new_cost).2
  | get_cost_of_edge {g : DirectedGraph} (_from _to : Int) :
      Reachable g → Reachable (g.get_cost_of_edge _from _to).2
  | get_in_degree {g : DirectedGraph} (vertex : Int) :
      Reachable g → Reachable (g.get_in_degree vertex).2
  | get_out_degree {g : DirectedGraph} (vertex : Int) :
      Reachable g → Reachable (g.get_out_degree vertex).2
  | get_outbound_neighbours {g : DirectedGraph} (vertex : Int) :
      Reachable g → Reachable (g.get_outbound_neighbours vertex).2
  | get_nr_outbound_neighbours {g : DirectedGraph} (vertex : Int) :
      Reachable g → Reachable (g.get_nr_outbound_neighbours vertex).2
  | get_inbound_neighbours {g : DirectedGraph} (vertex : Int) :
      Reachable g → Reachable (g.get_inbound_neighbours vertex).2
  | get_nr_inbound_neighbours {g : DirectedGraph} (vertex : Int) :
      Reachable g → Reachable (g.get_nr_inbound_neighbours vertex).2

/-- The members are well-formed containers: ascending keys, ascending neighbour sets. -/
structure WellFormed (g : DirectedGraph) : Prop where
  out_keys : (StdMap.keys g.dict_out).Sorted (· < ·)
  in_keys : (StdMap.keys g.dict_in).Sorted (· < ·)
  cost_keys : (StdMap.keys g.costs).Sorted (· < ·)
  out_sets : ∀ k s, StdMap.find? k g.dict_out = some s → s.Sorted (· < ·)
  in_sets : ∀ k s, StdMap.find? k g.dict_in = some s → s.Sorted (· < ·)

/-- The structural invariants of the data model. -/
structure Invariant (g : DirectedGraph) : Prop where
  same_keys : ∀ v, v ∈ StdMap.keys g.dict_out ↔ v ∈ StdMap.keys g.dict_in
  edge_out : ∀ u v, edge_key u v ∈ StdMap.keys g.costs ↔
    ∃ s, StdMap.find? u g.dict_out = some s ∧ v ∈ s
  edge_in : ∀ u v, edge_key u v ∈ StdMap.keys g.costs ↔
    ∃ s, StdMap.find? v g.dict_in = some s ∧ u ∈ s
  endpoints : ∀ u v, edge_key u v ∈ StdMap.keys g.costs →
    u ∈ StdMap.keys g.dict_out ∧ v ∈ StdMap.keys g.dict_out

/-- The maps built by the constructor, in closed form. -/
def new_dict (n : Nat) : List (Int × List Int) :=
  (List.range n).map (fun (i : Nat) => ((i : Int), []))

/-- A small graph: vertices 0, 1, 2 and the edges (0,1), (1,2), (1,1), (2,0). -/
def sample_graph : DirectedGraph :=
  ((((new 3).add_edge 0 1 7).2.add_edge 1 2 (-4)).2.add_edge 1 1 3).2.add_edge 2 0 5 |>.2

/-- The graph with the two vertices 5, 6 and the edge (5,6), built on an empty graph. -/
def graph_5_6 : DirectedGraph :=
  ((((new 0).add_vertex 5).2.add_vertex 6).2.add_edge 5 6 1).2

/-! ### Sequences of calls -/

/-- A call of a public member function of `DirectedGraph`, with its arguments. -/
inductive Op
  | get_nr_vertices
  | get_nr_edges
  | out_relations
  | get_all_edges
  | is_edge_in_graph (_from _to : Int)
  | get_cost_of_edge (_from _to : Int)
  | is_vertex_in_graph (vertex : Int)
  | get_in_degree (vertex : Int)
  | get_out_degree (vertex : Int)
  | get_outbound_neighbours (vertex : Int)
  | get_nr_outbound_neighbours (vertex : Int)
  | get_inbound_neighbours (vertex : Int)
  | get_nr_inbound_neighbours (vertex : Int)
  | add_vertex (vertex : Int)
  | remove_vertex (vertex : Int)
  | add_edge (_from _to _cost : Int)
  | remove_edge (_from _to : Int)
  | change_cost (_from _to _new_cost : Int)
  | copy_graph
deriving DecidableEq

/-- One call on the graph `g`: whether it returned normally (`false`: it threw), and the
graph `g` has become. The member functions that cannot throw and only read (`find`, `size`,
`begin`, `end`, and `copy_graph`, which writes to the new graph only) leave `g` as it is. -/
def call (g : DirectedGraph) : Op → Bool × DirectedGraph
  | .get_nr_vertices => (true, g)
  | .get_nr_edges => (true, g)
  | .out_relations => (true, g)
  | .get_all_edges => (true, g)
  | .is_edge_in_graph _ _ => (true, g)
  | .get_cost_of_edge _from _to =>
    ((g.get_cost_of_edge _from _to).1.toBool, (g.get_cost_of_edge _from _to).2)
  | .is_vertex_in_graph _ => (true, g)
  | .get_in_degree vertex => ((g.get_in_degree vertex).1.toBool, (g.get_in_degree vertex).2)
  | .get_out_degree vertex => ((g.get_out_degree vertex).1.toBool, (g.get_out_degree vertex).2)
  | .get_outbound_neighbours vertex =>
    ((g.get_outbound_neighbours vertex).1.toBool, (g.get_outbound_neighbours vertex).2)
  | .get_nr_outbound_neighbours vertex =>
    ((g.get_nr_outbound_neighbours vertex).1.toBool, (g.get_nr_outbound_neighbours vertex).2)
  | .get_inbound_neighbours vertex =>
    ((g.get_inbound_neighbours vertex).1.toBool, (g.get_inbound_neighbours vertex).2)
  | .get_nr_inbound_neighbours vertex =>
    ((g.get_nr_inbound_neighbours vertex).1.toBool, (g.get_nr_inbound_neighbours vertex).2)
  | .add_vertex vertex => ((g.add_vertex vertex).1.toBool, (g.add_vertex vertex).2)
  | .remove_vertex vertex => ((g.remove_vertex vertex).1.toBool, (g.remove_vertex vertex).2)
  | .add_edge _from _to _cost =>
    ((g.add_edge _from _to _cost).1.toBool, (g.add_edge _from _to _cost).2)
  | .remove_edge _from _to => ((g.remove_edge _from _to).1.toBool, (g.remove_edge _from _to).2)
  | .change_cost _from _to _new_cost =>
    ((g.change_cost _from _to _new_cost).1.toBool, (g.change_cost _from _to _new_cost).2)
  | .copy_graph => (true, g)

/-- The graph after a sequence of calls, whether they throw or not (a caller that catches
the exception goes on with the same object, as the menu does). -/
def run (g : DirectedGraph) : List Op → DirectedGraph
  | [] => g
  | op :: rest => run (call g op).2 rest

def Op.is_add_vertex : Op → Bool
  | .add_vertex _ => true
  | _ => false

def Op.is_remove_vertex : Op → Bool
  | .remove_vertex _ => true
  | _ => false

def Op.is_add_edge : Op → Bool
  | .add_edge _ _ _ => true
  | _ => false

def Op.is_remove_edge : Op → Bool
  | .remove_edge _ _ => true
  | _ => false

def Op.is_change_cost : Op → Bool
  | .change_cost _ _ _ => true
  | _ => false

/-- The number of calls of the given kind that returned normally in a run from `g`. -/
def count_succeeded (kind : Op → Bool) : DirectedGraph → List Op → Nat
  | _, [] => 0
  | g, op :: rest =>
    (if kind op && (call g op).1 then 1 else 0) + count_succeeded kind (call g op).2 rest

/-- The number of times the `while` loop of `remove_vertex` takes the branch
`it = this->costs.erase(it)`. -/
def cascade_erasures (vertex : Int) : List (Lex (Int × Int) × Int) → Nat
  | [] => 0
  | it :: rest =>
    if (ofLex it.1).1 = vertex ∨ (ofLex it.1).2 = vertex then cascade_erasures vertex rest + 1
    else cascade_erasures vertex rest

/-- The number of cost entries erased by the cascades of the successful `remove_vertex`
calls in a run from `g`. -/
def count_cascaded : DirectedGraph → List Op → Nat
  | _, [] => 0
  | g, op :: rest =>
    (match op with
      | .remove_vertex vertex =>
        if (call g op).1 then cascade_erasures vertex g.costs else 0
      | _ => 0) + count_cascaded (call g op).2 rest

/-- The claim's "cost most recently stored for (u,v) by add_edge or change_cost": the cost
argument of the last call `add_edge(u, v, c)` or `change_cost(u, v, c)` that returned
normally in a run from `g`; `earlier` is the value before the run. -/
def last_stored_cost (u v : Int) : DirectedGraph → List Op → Option Int → Option Int
  | _, [], earlier => earlier
  | g, op :: rest, earlier =>
    last_stored_cost u v (call g op).2 rest
      (match op with
        | .add_edge _from _to _cost =>
          if _from = u ∧ _to = v ∧ (call g op).1 = true then some _cost else earlier
        | .change_cost _from _to _new_cost =>
          if _from = u ∧ _to = v ∧ (call g op).1 = true then some _new_cost else earlier
        | _ => earlier)

/-- A run on an empty graph that exercises every kind of call. -/
def sample_run : List Op :=
  [.add_vertex 3, .add_vertex 1, .add_vertex 3, .add_edge 1 3 10, .add_edge 3 3 2,
    .add_edge 1 3 11, .change_cost 1 3 12, .get_in_degree 3, .get_cost_of_edge 3 1,
    .add_vertex 2, .add_edge 2 1 4, .remove_edge 3 3, .copy_graph, .remove_vertex 1,
    .remove_vertex 7, .get_outbound_neighbours 2]

/-- The graph of the tests: the vertices 0..4 and the edges (0,0), (0,1), (1,2), (1,3), (2,1),
(2,3). The tests fix the costs of (0,0), (1,2) and (1,3); the other three are chosen here. -/
def test_graph : DirectedGraph :=
  ((((((new 5).add_edge 0 0 1).2.add_edge 0 1 7).2.add_edge 1 2 2).2.add_edge 1 3 8).2.add_edge
    2 1 5).2.add_edge 2 3 6 |>.2

end DirectedGraph

/-! ## `utils.cpp`: the random graph generator -/

/-- An `int` product that overflows, read as wrap-around modulo 2^32 into
`[-2^31, 2^31)`. -/
def wrap_int32 (x : Int) : Int :=
  (x + 2147483648) % 4294967296 - 2147483648

/-- The `while (nr_edges)` loop of `generate_random_graph`. `rand i` is the value the `i`-th
call of `rand()` returns and `next` counts the calls made so far; `fuel` bounds the number of
iterations, and `none` means the loop is still running when the fuel is used up. The result
is the outcome together with the number of calls of `rand()` made. -/
def sampling_loop (rand : Nat → Nat) (nr_vertices : Int) :
    Nat → Nat → Int → DirectedGraph → Option (Except GraphException DirectedGraph × Nat)
  | 0, next, nr_edges, random_graph =>
    if nr_edges = 0 then some (.ok random_graph, next) else none
  | fuel + 1, next, nr_edges, random_graph =>
    if nr_edges = 0 then some (.ok random_graph, next)
    else
      let _from := Int.tmod (rand next) nr_vertices
      let _to := Int.tmod (rand (next + 1)) nr_vertices
      let _cost := Int.tmod (rand (next + 2)) 200 - 100
      if !random_graph.is_edge_in_graph _from _to then
        match random_graph.add_edge _from _to _cost with
        | (.error e, _) => some (.error e, next + 3)
        | (.ok _, random_graph) =>
          sampling_loop rand nr_vertices fuel (next + 3) (nr_edges - 1) random_graph
      else sampling_loop rand nr_vertices fuel (next + 3) nr_edges random_graph

/-- The function `generate_random_graph(int nr_vertices, int nr_edges)`; see `sampling_loop`
for `rand` and `fuel`. The product of the bound test is an `int` product. -/
def generate_random_graph (rand : Nat → Nat) (fuel : Nat) (nr_vertices nr_edges : Int) :
    Option (Except GraphException DirectedGraph × Nat) :=
  if nr_vertices < 0 ∨ nr_edges < 0 then some (.error .nr_must_be_positive, 0)
  else if nr_edges > wrap_int32 (nr_vertices * (nr_vertices - 1)) then
    some (.error .too_many_edges, 0)
  else sampling_loop rand nr_vertices fuel 0 nr_edges (DirectedGraph.new nr_vertices)

/-- One run of the body of the `while (nr_edges)` loop of `generate_random_graph`, from the
state `(next, nr_edges, random_graph)` (see `sampling_loop`): the state after it, or the
exception of `add_edge`. The body takes two remainders by `nr_vertices`. -/
def sampling_body (rand : Nat → Nat) (nr_vertices : Int) (next : Nat) (nr_edges : Int)
    (random_graph : DirectedGraph) : Except GraphException (Nat × Int × DirectedGraph) :=
  let _from := Int.tmod (rand next) nr_vertices
  let _to := Int.tmod (rand (next + 1)) nr_vertices
  let _cost := Int.tmod (rand (next + 2)) 200 - 100
  if !random_graph.is_edge_in_graph _from _to then
    match random_graph.add_edge _from _to _cost with
    | (.error e, _) => .error e
    | (.ok _, random_graph) => .ok (next + 3, nr_edges - 1, random_graph)
  else .ok (next + 3, nr_edges, random_graph)

/-- The state of the `while (nr_edges)` loop after `runs` runs of the body, or at its end if
the loop ends earlier. -/
def sampling_states (rand : Nat → Nat) (nr_vertices : Int) :
    Nat → Nat × Int × DirectedGraph → Except GraphException (Nat × Int × DirectedGraph)
  | 0, state => .ok state
  | runs + 1, state =>
    if state.2.1 = 0 then .ok state
    else
      match sampling_body rand nr_vertices state.1 state.2.1 state.2.2 with
      | .error e => .error e
      | .ok state => sampling_states rand nr_vertices runs state

/-- A sequence of `rand()` values: the pair (0,1), the pair (0,1) again, the pair (2,2). -/
def sample_rand (i : Nat) : Nat :=
  [0, 1, 250, 0, 1, 3, 2, 2, 199].getD i 0

/-! ## `utils.cpp`: reading and writing the text form of a graph

A `std::string` is a `List Char`; the contents of the file stand for the file. -/

namespace Cpp

/-- The function `isspace` of `<cctype>` (in the "C" locale): space, `\t`, `\n`, `\v`, `\f`,
`\r`. -/
def isspace (c : Char) : Bool :=
  c = ' ' || c = '\t' || c = '\n' || c = Char.ofNat 11 || c = Char.ofNat 12 || c = '\r'

/-- The function `isdigit` of `<cctype>`. -/
def isdigit (c : Char) : Bool :=
  decide (48 ≤ c.toNat) && decide (c.toNat ≤ 57)

def digit_char (d : Nat) : Char :=
  Char.ofNat (48 + d)

/-- The decimal digits of `n`, most significant first; `fuel` bounds their number. -/
def nat_to_chars_fuel : Nat → Nat → List Char
  | 0, _ => []
  | fuel + 1, n =>
    if n < 10 then [digit_char n] else nat_to_chars_fuel fuel (n / 10) ++ [digit_char (n % 10)]

def nat_to_chars (n : Nat) : List Char :=
  nat_to_chars_fuel (n + 1) n

/-- The function `std::to_string(int)`. -/
def to_string (x : Int) : List Char :=
  if x < 0 then '-' :: nat_to_chars x.natAbs else nat_to_chars x.natAbs

/-- What `strtol` reads in base 10: leading white space, an optional sign, then as many
digits as there are; `none` when there is no digit. -/
def parse_int (str : List Char) : Option Int :=
  match str.dropWhile isspace with
  | [] => none
  | c :: rest =>
    let negative := decide (c = '-')
    let body := if c = '-' ∨ c = '+' then rest else c :: rest
    let digits := body.takeWhile isdigit
    if digits.isEmpty then none
    else
      let value := digits.foldl (fun acc d => 10 * acc + ((d.toNat : Int) - 48)) 0
      some (if negative then -value else value)

/-- The lines `std::getline` returns one after the other until it fails; `current` holds
the characters of the line being read. A last line without `\n` is returned if it is not
empty. -/
def getlines_aux : List Char → List Char → List (List Char)
  | [], current => if current.isEmpty then [] else [current]
  | c :: cs, current =>
    if c = '\n' then current :: getlines_aux cs [] else getlines_aux cs (current ++ [c])

def getlines (text : List Char) : List (List Char) :=
  getlines_aux text []

/-- The extraction `stream >> word` from the unread part `stream` of a string stream: white
space is skipped, then characters are taken up to the next white space. The result is the
word (`none`: nothing left, the extraction fails and leaves `word` as it was) and the
unread rest. -/
def extract (stream : List Char) : Option (List Char) × List Char :=
  match stream.dropWhile isspace with
  | [] => (none, [])
  | c :: rest =>
    (some ((c :: rest).takeWhile (fun x => !isspace x)),
      (c :: rest).dropWhile (fun x => !isspace x))

end Cpp

namespace Cpp

/-- The words of a line, as the description of the text form reads them: the maximal runs of
characters that are not white space, from left to right; `current` holds the characters of
the word being read. -/
def words_aux : List Char → List Char → List (List Char)
  | [], current => if current.isEmpty then [] else [current]
  | c :: rest, current =>
    if isspace c then
      if current.isEmpty then words_aux rest [] else current :: words_aux rest []
    else words_aux rest (current ++ [c])

def words (line : List Char) : List (List Char) :=
  words_aux line []

end Cpp

/-- The words of the header line of a text: of its first line, up to the first `\n`. -/
def header_words (text : List Char) : List (List Char) :=
  Cpp.words ((Cpp.getlines text).headD [])

/-- How a call of `read_graph_from_file` can end other than by returning a graph. -/
inductive ReadFailure
  | graph_exception (e : GraphException)
  | invalid_argument
  | out_of_range
  | assertion_failed
deriving DecidableEq

namespace Cpp

/-- The function `std::stoi`: `std::invalid_argument` without a digit, `std::out_of_range`
outside of `int`. -/
def stoi (str : List Char) : Except ReadFailure Int :=
  match parse_int str with
  | none => .error .invalid_argument
  | some value =>
    if value < -2147483648 ∨ 2147483647 < value then .error .out_of_range else .ok value

end Cpp

/-- The statements `stream >> word` and `stoi(word)`: the number (or the exception of
`stoi`), the new value of `word`, and the unread rest of the stream. -/
def read_int (stream word : List Char) : Except ReadFailure Int × List Char × List Char :=
  let word := (Cpp.extract stream).1.getD word
  (Cpp.stoi word, word, (Cpp.extract stream).2)

/-- The statement `if (!graph.is_vertex_in_graph(v)) graph.add_vertex(v);`. -/
def add_vertex_if_absent (graph : DirectedGraph) (vertex : Int) :
    Except ReadFailure DirectedGraph :=
  if !graph.is_vertex_in_graph vertex then
    match graph.add_vertex vertex with
    | (.error e, _) => .error (.graph_exception e)
    | (.ok _, graph) => .ok graph
  else .ok graph

/-- The body of the `while (getline(fin, current_line))` loop of `read_graph_from_file`, on
the graph and the variable `word` as the previous lines left them. -/
def read_line (graph : DirectedGraph) (word current_line : List Char) :
    Except ReadFailure (DirectedGraph × List Char) :=
  let nr_spaces := (current_line.filter Cpp.isspace).length
  if nr_spaces = 0 then
    let r := read_int current_line word
    match r.1 with
    | .error f => .error f
    | .ok vertex =>
      match add_vertex_if_absent graph vertex with
      | .error f => .error f
      | .ok graph => .ok (graph, r.2.1)
  else if nr_spaces = 2 then
    let r₁ := read_int current_line word
    match r₁.1 with
    | .error f => .error f
    | .ok _from =>
      let r₂ := read_int r₁.2.2 r₁.2.1
      match r₂.1 with
      | .error f => .error f
      | .ok _to =>
        let r₃ := read_int r₂.2.2 r₂.2.1
        match r₃.1 with
        | .error f => .error f
        | .ok _cost =>
          match add_vertex_if_absent graph _from with
          | .error f => .error f
          | .ok graph =>
            match add_vertex_if_absent graph _to with
            | .error f => .error f
            | .ok graph =>
              match graph.add_edge _from _to _cost with
              | (.error e, _) => .error (.graph_exception e)
              | (.ok _, graph) => .ok (graph, r₃.2.1)
  else .ok (graph, word)

/-- The `while (getline(fin, current_line))` loop of `read_graph_from_file`. -/
def read_lines (graph : DirectedGraph) (word : List Char) :
    List (List Char) → Except ReadFailure DirectedGraph
  | [] => .ok graph
  | current_line :: rest =>
    match read_line graph word current_line with
    | .error f => .error f
    | .ok r => read_lines r.1 r.2 rest

/-- The function `read_graph_from_file`, on the contents `text` of the file. The two
`assert`s are active (no `NDEBUG`). -/
def read_graph_from_file (text : List Char) : Except ReadFailure DirectedGraph :=
  let current_line := (Cpp.getlines text).headD []
  let r₁ := read_int current_line []
  match r₁.1 with
  | .error f => .error f
  | .ok nr_vertices =>
    let r₂ := read_int r₁.2.2 r₁.2.1
    match r₂.1 with
    | .error f => .error f
    | .ok nr_edges =>
      match read_lines (DirectedGraph.new 0) r₂.2.1 (Cpp.getlines text).tail with
      | .error f => .error f
      | .ok graph =>
        if graph.get_nr_vertices ≠ nr_vertices then .error .assertion_failed
        else if graph.get_nr_edges ≠ nr_edges then .error .assertion_failed
        else .ok graph

/-- The inner `for` loop of `write_graph_to_file`, over the outbound neighbours of
`current_vertex`. -/
def write_neighbours (graph : DirectedGraph) (current_vertex : Int) :
    List Int → List Char → Except GraphException (List Char)
  | [], graph_str => .ok graph_str
  | neighbour :: rest, graph_str =>
    match (graph.get_cost_of_edge current_vertex neighbour).1 with
    | .error e => .error e
    | .ok cost =>
      write_neighbours graph current_vertex rest
        (graph_str ++
          (Cpp.to_string current_vertex ++ [' '] ++ Cpp.to_string neighbour ++ [' '] ++
            Cpp.to_string cost ++ ['\n']))

/-- The outer `for` loop of `write_graph_to_file`, over the range of `out_relations()`. -/
def write_vertices (graph : DirectedGraph) :
    List (Int × List Int) → List Char → Except GraphException (List Char)
  | [], graph_str => .ok graph_str
  | it :: rest, graph_str =>
    match (graph.get_out_degree it.1).1 with
    | .error e => .error e
    | .ok degree =>
      if degree = 0 then
        write_vertices graph rest (graph_str ++ (Cpp.to_string it.1 ++ ['\n']))
      else
        match (graph.get_outbound_neighbours it.1).1 with
        | .error e => .error e
        | .ok neighbours =>
          match write_neighbours graph it.1 neighbours graph_str with
          | .error e => .error e
          | .ok graph_str => write_vertices graph rest graph_str

/-- The function `write_graph_to_file`: the string `graph_str` it sends to the file. The
calls of `get_out_degree`, `get_outbound_neighbours` and `get_cost_of_edge` it makes leave
the graph as it is (`get_out_degree_state`, `get_outbound_neighbours_state`,
`get_cost_of_edge_state`), so the graph is not passed on from call to call. -/
def write_graph_to_file (graph : DirectedGraph) : Except GraphException (List Char) :=
  write_vertices graph graph.out_relations
    (Cpp.to_string graph.get_nr_vertices ++ [' '] ++ Cpp.to_string graph.get_nr_edges ++ ['\n'])

/-- A line of the text form: the id of a vertex, or an edge with its cost. -/
inductive TextLine
  | vertex (id : Int)
  | edge (_from _to _cost : Int)
deriving DecidableEq

/-- The characters of a line: `"<id>"` or `"<from> <to> <cost>"`. -/
def TextLine.render : TextLine → List Char
  | .vertex id => Cpp.to_string id
  | .edge _from _to _cost =>
    Cpp.to_string _from ++ [' '] ++ Cpp.to_string _to ++ [' '] ++ Cpp.to_string _cost

/-- The numbers written on a line. -/
def TextLine.numbers : TextLine → List Int
  | .vertex id => [id]
  | .edge _from _to _cost => [_from, _to, _cost]

/-- The vertex ids a line names. -/
def TextLine.ids : TextLine → List Int
  | .vertex id => [id]
  | .edge _from _to _ => [_from, _to]

/-- The lines the description of the writer gives for one vertex: its id if its out-degree
is 0, else one line for each outbound neighbour, in the order of the set. -/
def described_vertex_lines (g : DirectedGraph) (it : Int × List Int) : List TextLine :=
  if it.2.length = 0 then [.vertex it.1]
  else it.2.map (fun n => .edge it.1 n ((StdMap.find? (DirectedGraph.edge_key it.1 n) g.costs).getD 0))

/-- The body lines the description of the writer gives: the lines of the vertices in the
order of the outbound map. -/
def described_lines (g : DirectedGraph) : List TextLine :=
  g.dict_out.flatMap (described_vertex_lines g)

/-- The text of a header and body lines, each line followed by `\n`. -/
def text_of (nr_vertices nr_edges : Int) (lines : List TextLine) : List Char :=
  (Cpp.to_string nr_vertices ++ [' '] ++ Cpp.to_string nr_edges ++ ['\n']) ++
    (lines.map (fun l => l.render ++ ['\n'])).flatten

/-- All ids, costs and the two counts of the graph are values of the type `int`. -/
def fits_int (g : DirectedGraph) : Prop :=
  (∀ k ∈ StdMap.keys g.dict_out, -2147483648 ≤ k ∧ k ≤ 2147483647) ∧
  (∀ p ∈ g.costs, -2147483648 ≤ p.2 ∧ p.2 ≤ 2147483647) ∧
  g.get_nr_vertices ≤ 2147483647 ∧ g.get_nr_edges ≤ 2147483647

/-- A graph with negative ids, a negative cost, a self-loop and an isolated vertex: the
vertices -3, 0, 4 and the edges (-3,-3) of cost -7 and (4,-3) of cost 12. -/
def signed_graph : DirectedGraph :=
  ((((((DirectedGraph.new 0).add_vertex (-3)).2.add_vertex 4).2.add_vertex 0).2.add_edge
    (-3) (-3) (-7)).2.add_edge 4 (-3) 12).2

/-! ## Container lemmas -/

namespace StdSet

variable {κ : Type} [LinearOrder κ]

theorem mem_insert (x y : κ) (s : List κ) : y ∈ insert x s ↔ y = x ∨ y ∈ s := by
  induction s with
  | nil => simp [insert]
  | cons z zs ih =>
    unfold insert
    split_ifs with h1 h2
    · simp
    · subst h2; simp
    · simp [ih]; tauto

theorem sorted_insert (x : κ) (s : List κ) (hs : s.Sorted (· < ·)) :
    (insert x s).Sorted (· < ·) := by
  induction s with
  | nil => simp [insert]
  | cons z zs ih =>
    have hz := List.sorted_cons.mp hs
    unfold insert
    split_ifs with h1 h2
    · refine List.sorted_cons.mpr ⟨?_, hs⟩
      intro b hb
      rcases List.mem_cons.mp hb with rfl | hb
      · exact h1
      · exact lt_trans h1 (hz.1 b hb)
    · exact hs
    · refine List.sorted_cons.mpr ⟨?_, ih hz.2⟩
      intro b hb
      rcases (mem_insert x b zs).mp hb with rfl | hb
      · exact lt_of_le_of_ne (not_lt.mp h1) (Ne.symm h2)
      · exact hz.1 b hb

theorem mem_erase (x y : κ) (s : List κ) : y ∈ erase x s ↔ y ≠ x ∧ y ∈ s := by
  simp [erase, List.mem_filter, and_comm]

theorem sorted_erase (x : κ) (s : List κ) (hs : s.Sorted (· < ·)) :
    (erase x s).Sorted (· < ·) :=
  List.Pairwise.filter _ hs

theorem set_erase_cons (x y : κ) (s : List κ) :
    erase x (y :: s) = if y = x then erase x s else y :: erase x s := by
  by_cases h : y = x <;> simp [erase, List.filter_cons, h]

theorem set_erase_of_not_mem (x : κ) (s : List κ) (hx : x ∉ s) : erase x s = s := by
  induction s with
  | nil => rfl
  | cons z zs ih =>
    have hne : z ≠ x := fun h => hx (h ▸ List.mem_cons_self _ _)
    rw [set_erase_cons, if_neg hne, ih (fun h => hx (List.mem_cons_of_mem _ h))]

theorem erase_insert (x : κ) (s : List κ) (hx : x ∉ s) : erase x (insert x s) = s := by
  induction s with
  | nil => simp [insert, erase]
  | cons z zs ih =>
    have hne : z ≠ x := fun h => hx (h ▸ List.mem_cons_self _ _)
    have hzs : x ∉ zs := fun h => hx (List.mem_cons_of_mem _ h)
    unfold insert
    split_ifs with h1 h2
    · rw [set_erase_cons, if_pos rfl, set_erase_of_not_mem x _ hx]
    · exact absurd h2.symm hne
    · rw [set_erase_cons, if_neg hne, ih hzs]

end StdSet

namespace StdMap

variable {κ : Type} {α : Type} [LinearOrder κ]

theorem find?_cons (j : κ) (p : κ × α) (m : List (κ × α)) :
    find? j (p :: m) = if j = p.1 then some p.2 else find? j m := rfl

theorem keys_cons (p : κ × α) (m : List (κ × α)) : keys (p :: m) = p.1 :: keys m := rfl

theorem mem_keys_iff (j : κ) (m : List (κ × α)) : j ∈ keys m ↔ ∃ v, find? j m = some v := by
  induction m with
  | nil => simp [keys, find?]
  | cons p m ih =>
    rw [keys_cons, find?_cons, List.mem_cons]
    by_cases h : j = p.1
    · simp [h]
    · simp [h, ih]

theorem find?_eq_none_iff (j : κ) (m : List (κ × α)) : find? j m = none ↔ j ∉ keys m := by
  rw [mem_keys_iff]
  cases find? j m <;> simp

theorem isSome_find?_iff (j : κ) (m : List (κ × α)) :
    (find? j m).isSome = true ↔ j ∈ keys m := by
  rw [mem_keys_iff, Option.isSome_iff_exists]

theorem mem_of_find? (j : κ) (v : α) (m : List (κ × α)) (h : find? j m = some v) :
    (j, v) ∈ m := by
  induction m with
  | nil => simp [find?] at h
  | cons p m ih =>
    rw [find?_cons] at h
    split_ifs at h with hj
    · cases p
      simp only [Option.some.injEq] at h
      simp only at hj
      subst hj; subst h
      exact List.mem_cons_self _ _
    · exact List.mem_cons_of_mem _ (ih h)

theorem find?_of_mem (j : κ) (v : α) (m : List (κ × α)) (hm : (keys m).Sorted (· < ·))
    (h : (j, v) ∈ m) : find? j m = some v := by
  induction m with
  | nil => simp at h
  | cons p m ih =>
    rw [keys_cons] at hm
    have hp := List.sorted_cons.mp hm
    rw [find?_cons]
    rcases List.mem_cons.mp h with rfl | h
    · simp
    · have hj : j ∈ keys m := List.mem_map.mpr ⟨(j, v), h, rfl⟩
      have hne : j ≠ p.1 := ne_of_gt (hp.1 j hj)
      rw [if_neg hne]
      exact ih hp.2 h

theorem find?_assign (k j : κ) (v : α) (m : List (κ × α)) :
    find? j (assign k v m) = if j = k then some v else find? j m := by
  induction m with
  | nil => simp [assign, find?]
  | cons p m ih =>
    unfold assign
    by_cases hjk : j = k
    · rw [if_pos hjk] at ih ⊢
      subst hjk
      by_cases h1 : j < p.1
      · simp [h1, find?_cons]
      · by_cases h2 : j = p.1
        · simp [h1, h2, find?_cons]
        · simp [h1, h2, find?_cons, ih]
    · rw [if_neg hjk] at ih ⊢
      by_cases h1 : k < p.1
      · simp [h1, find?_cons, hjk]
      · by_cases h2 : k = p.1
        · have hjp : j ≠ p.1 := h2 ▸ hjk
          simp [h1, h2, find?_cons, hjp]
        · simp [h1, h2, find?_cons, ih]

theorem mem_keys_assign (k j : κ) (v : α) (m : List (κ × α)) :
    j ∈ keys (assign k v m) ↔ j = k ∨ j ∈ keys m := by
  rw [mem_keys_iff, mem_keys_iff, find?_assign]
  by_cases h : j = k <;> simp [h]

theorem sorted_keys_assign (k : κ) (v : α) (m : List (κ × α))
    (hm : (keys m).Sorted (· < ·)) : (keys (assign k v m)).Sorted (· < ·) := by
  induction m with
  | nil => simp [assign, keys]
  | cons p m ih =>
    rw [keys_cons] at hm
    have hp := List.sorted_cons.mp hm
    unfold assign
    split_ifs with h1 h2
    · rw [keys_cons, keys_cons]
      refine List.sorted_cons.mpr ⟨?_, hm⟩
      intro b hb
      rcases List.mem_cons.mp hb with rfl | hb
      · exact h1
      · exact lt_trans h1 (hp.1 b hb)
    · rw [keys_cons]
      exact List.sorted_cons.mpr ⟨fun b hb => h2 ▸ hp.1 b hb, hp.2⟩
    · rw [keys_cons]
      refine List.sorted_cons.mpr ⟨?_, ih hp.2⟩
      intro b hb
      rcases (mem_keys_assign k b v m).mp hb with rfl | hb
      · exact lt_of_le_of_ne (not_lt.mp h1) (Ne.symm h2)
      · exact hp.1 b hb

theorem keys_assign_of_mem (k : κ) (v : α) (m : List (κ × α))
    (hm : (keys m).Sorted (· < ·)) (hk : k ∈ keys m) : keys (assign k v m) = keys m := by
  induction m with
  | nil => simp [keys] at hk
  | cons p m ih =>
    rw [keys_cons] at hm hk
    have hp := List.sorted_cons.mp hm
    unfold assign
    split_ifs with h1 h2
    · rcases List.mem_cons.mp hk with rfl | hk
      · exact absurd h1 (lt_irrefl _)
      · exact absurd (lt_trans h1 (hp.1 k hk)) (lt_irrefl _)
    · rw [keys_cons, keys_cons, h2]
    · rcases List.mem_cons.mp hk with rfl | hk
      · exact absurd rfl h2
      · rw [keys_cons, keys_cons, ih hp.2 hk]

theorem assign_of_find? (k : κ) (v : α) (m : List (κ × α))
    (hm : (keys m).Sorted (· < ·)) (hk : find? k m = some v) : assign k v m = m := by
  induction m with
  | nil => simp [find?] at hk
  | cons p m ih =>
    rw [keys_cons] at hm
    have hp := List.sorted_cons.mp hm
    rw [find?_cons] at hk
    unfold assign
    split_ifs at hk with hkp
    · simp only [Option.some.injEq] at hk
      rw [if_neg (by rw [hkp]; exact lt_irrefl _), if_pos hkp]
      cases p
      simp only at hkp hk
      rw [hkp, hk]
    · have hmem : k ∈ keys m := (mem_keys_iff k m).mpr ⟨v, hk⟩
      rw [if_neg (not_lt.mpr (le_of_lt (hp.1 k hmem))), if_neg hkp, ih hp.2 hk]

theorem find?_filter (P : κ → Bool) (j : κ) (m : List (κ × α)) :
    find? j (m.filter (fun p => P p.1)) = if P j = true then find? j m else none := by
  induction m with
  | nil => simp [find?]
  | cons p m ih =>
    rw [List.filter_cons]
    by_cases hp : P p.1 = true
    · rw [if_pos hp, find?_cons, find?_cons, ih]
      by_cases hj : j = p.1
      · simp [hj, hp]
      · simp [hj]
    · rw [if_neg hp, ih, find?_cons]
      by_cases hj : j = p.1
      · subst hj; simp [hp]
      · simp [hj]

theorem find?_erase (k j : κ) (m : List (κ × α)) :
    find? j (erase k m) = if j = k then none else find? j m := by
  unfold erase
  rw [find?_filter (fun x => decide (x ≠ k)) j m]
  by_cases h : j = k <;> simp [h]

theorem keys_erase (k : κ) (m : List (κ × α)) :
    keys (erase k m) = (keys m).filter (fun x => decide (x ≠ k)) := by
  simp only [erase, keys, List.filter_map]
  rfl

theorem mem_keys_erase (k j : κ) (m : List (κ × α)) :
    j ∈ keys (erase k m) ↔ j ≠ k ∧ j ∈ keys m := by
  rw [mem_keys_iff, mem_keys_iff, find?_erase]
  by_cases h : j = k <;> simp [h]

theorem sorted_keys_filter (P : κ × α → Bool) (m : List (κ × α))
    (hm : (keys m).Sorted (· < ·)) : (keys (m.filter P)).Sorted (· < ·) := by
  unfold keys at *
  exact List.Pairwise.sublist ((List.filter_sublist m).map Prod.fst) hm

theorem sorted_keys_erase (k : κ) (m : List (κ × α))
    (hm : (keys m).Sorted (· < ·)) : (keys (erase k m)).Sorted (· < ·) :=
  sorted_keys_filter _ m hm

theorem erase_cons (k : κ) (p : κ × α) (m : List (κ × α)) :
    erase k (p :: m) = if p.1 = k then erase k m else p :: erase k m := by
  by_cases h : p.1 = k <;> simp [erase, List.filter_cons, h]

theorem erase_of_not_mem (k : κ) (m : List (κ × α)) (hk : k ∉ keys m) : erase k m = m := by
  induction m with
  | nil => rfl
  | cons p m ih =>
    rw [keys_cons] at hk
    have hne : p.1 ≠ k := fun h => hk (h ▸ List.mem_cons_self _ _)
    rw [erase_cons, if_neg hne, ih (fun h => hk (List.mem_cons_of_mem _ h))]

theorem erase_assign (k : κ) (v : α) (m : List (κ × α)) (hk : k ∉ keys m) :
    erase k (assign k v m) = m := by
  induction m with
  | nil => simp [assign, erase]
  | cons p m ih =>
    have hk2 := hk
    rw [keys_cons] at hk2
    have hne : p.1 ≠ k := fun h => hk2 (h ▸ List.mem_cons_self _ _)
    have hm : k ∉ keys m := fun h => hk2 (List.mem_cons_of_mem _ h)
    unfold assign
    split_ifs with h1 h2
    · rw [erase_cons, if_pos rfl, erase_of_not_mem k _ hk]
    · exact absurd h2.symm hne
    · rw [erase_cons, if_neg hne, ih hm]

theorem index_fst (dflt : α) (k : κ) (m : List (κ × α)) :
    (index dflt k m).1 = (find? k m).getD dflt := by
  unfold index
  cases find? k m <;> rfl

theorem index_snd_of_mem (dflt : α) (k : κ) (m : List (κ × α)) (hk : k ∈ keys m) :
    (index dflt k m).2 = m := by
  obtain ⟨v, hv⟩ := (mem_keys_iff k m).mp hk
  unfold index
  rw [hv]

theorem find?_index_snd (dflt : α) (k j : κ) (m : List (κ × α)) :
    find? j (index dflt k m).2 = if j = k then some ((find? k m).getD dflt) else find? j m := by
  unfold index
  cases h : find? k m with
  | none => simp [find?_assign]
  | some v =>
    by_cases hj : j = k
    · subst hj; simp [h]
    · simp [hj]

theorem sorted_keys_index (dflt : α) (k : κ) (m : List (κ × α))
    (hm : (keys m).Sorted (· < ·)) : (keys (index dflt k m).2).Sorted (· < ·) := by
  unfold index
  cases find? k m with
  | none => exact sorted_keys_assign k dflt m hm
  | some v => exact hm

theorem mem_keys_index (dflt : α) (k j : κ) (m : List (κ × α)) :
    j ∈ keys (index dflt k m).2 ↔ j = k ∨ j ∈ keys m := by
  rw [mem_keys_iff, mem_keys_iff, find?_index_snd]
  by_cases h : j = k
  · subst h; simp
  · simp [h]

theorem find?_modify (dflt : α) (k j : κ) (op : α → α) (m : List (κ × α)) :
    find? j (modify dflt k op m) =
      if j = k then some (op ((find? k m).getD dflt)) else find? j m := by
  unfold modify
  rw [find?_assign, index_fst, find?_index_snd]
  by_cases h : j = k <;> simp [h]

theorem mem_keys_modify (dflt : α) (k j : κ) (op : α → α) (m : List (κ × α)) :
    j ∈ keys (modify dflt k op m) ↔ j = k ∨ j ∈ keys m := by
  rw [mem_keys_iff, mem_keys_iff, find?_modify]
  by_cases h : j = k <;> simp [h]

theorem sorted_keys_modify (dflt : α) (k : κ) (op : α → α) (m : List (κ × α))
    (hm : (keys m).Sorted (· < ·)) : (keys (modify dflt k op m)).Sorted (· < ·) :=
  sorted_keys_assign _ _ _ (sorted_keys_index dflt k m hm)

theorem keys_modify_of_mem (dflt : α) (k : κ) (op : α → α) (m : List (κ × α))
    (hm : (keys m).Sorted (· < ·)) (hk : k ∈ keys m) : keys (modify dflt k op m) = keys m := by
  unfold modify
  rw [index_snd_of_mem dflt k m hk]
  exact keys_assign_of_mem k _ m hm hk

end StdMap

namespace StdMap

variable {κ : Type} {α : Type} [LinearOrder κ]

theorem assign_append (k : κ) (v : α) (m : List (κ × α)) (hm : ∀ j ∈ keys m, j < k) :
    assign k v m = m ++ [(k, v)] := by
  induction m with
  | nil => rfl
  | cons p m ih =>
    have hp : p.1 < k := hm p.1 (List.mem_cons_self _ _)
    have hrest : ∀ j ∈ keys m, j < k := fun j hj => hm j (List.mem_cons_of_mem _ hj)
    unfold assign
    rw [if_neg (not_lt.mpr (le_of_lt hp)), if_neg (ne_of_gt hp), ih hrest]
    rfl

theorem find?_map_values (f : α → α) (j : κ) (m : List (κ × α)) :
    find? j (m.map (fun it => (it.1, f it.2))) = (find? j m).map f := by
  induction m with
  | nil => rfl
  | cons p m ih =>
    rw [List.map_cons, find?_cons, find?_cons, ih]
    by_cases h : j = p.1 <;> simp [h]

theorem keys_map_values (f : α → α) (m : List (κ × α)) :
    keys (m.map (fun it => (it.1, f it.2))) = keys m := by
  simp [keys, List.map_map, Function.comp_def]

end StdMap

/-! ## Lemmas on the member functions -/

namespace DirectedGraph

theorem edge_key_inj (a b u v : Int) : edge_key a b = edge_key u v ↔ a = u ∧ b = v := by
  unfold edge_key
  constructor
  · intro h
    have h2 := congrArg ofLex h
    simpa using h2
  · rintro ⟨rfl, rfl⟩
    rfl

theorem edge_key_eta (k : Lex (Int × Int)) : edge_key (ofLex k).1 (ofLex k).2 = k := rfl

theorem is_vertex_iff (g : DirectedGraph) (v : Int) :
    g.is_vertex_in_graph v = true ↔ v ∈ StdMap.keys g.dict_out :=
  StdMap.isSome_find?_iff v g.dict_out

theorem is_vertex_false_iff (g : DirectedGraph) (v : Int) :
    g.is_vertex_in_graph v = false ↔ v ∉ StdMap.keys g.dict_out := by
  rw [← is_vertex_iff]
  cases g.is_vertex_in_graph v <;> simp

theorem is_edge_iff (g : DirectedGraph) (u v : Int) :
    g.is_edge_in_graph u v = true ↔ edge_key u v ∈ StdMap.keys g.costs :=
  StdMap.isSome_find?_iff _ g.costs

theorem is_edge_false_iff (g : DirectedGraph) (u v : Int) :
    g.is_edge_in_graph u v = false ↔ edge_key u v ∉ StdMap.keys g.costs := by
  rw [← is_edge_iff]
  cases g.is_edge_in_graph u v <;> simp

theorem find?_erase_from_all (vertex j : Int) (dict : List (Int × List Int)) :
    StdMap.find? j (erase_from_all vertex dict) =
      (StdMap.find? j dict).map (StdSet.erase vertex) :=
  StdMap.find?_map_values (StdSet.erase vertex) j dict

theorem keys_erase_from_all (vertex : Int) (dict : List (Int × List Int)) :
    StdMap.keys (erase_from_all vertex dict) = StdMap.keys dict :=
  StdMap.keys_map_values (StdSet.erase vertex) dict

theorem erase_touching_eq_filter (vertex : Int) (costs : List (Lex (Int × Int) × Int)) :
    erase_touching vertex costs =
      costs.filter (fun it => (fun k : Lex (Int × Int) =>
        decide (¬((ofLex k).1 = vertex ∨ (ofLex k).2 = vertex))) it.1) := by
  induction costs with
  | nil => rfl
  | cons it rest ih =>
    unfold erase_touching
    rw [List.filter_cons, ih]
    by_cases h : (ofLex it.1).1 = vertex ∨ (ofLex it.1).2 = vertex
    · simp [h]
    · simp [h]

theorem find?_erase_touching (vertex u w : Int) (costs : List (Lex (Int × Int) × Int)) :
    StdMap.find? (edge_key u w) (erase_touching vertex costs) =
      if u = vertex ∨ w = vertex then none else StdMap.find? (edge_key u w) costs := by
  rw [erase_touching_eq_filter, StdMap.find?_filter (fun k : Lex (Int × Int) =>
        decide (¬((ofLex k).1 = vertex ∨ (ofLex k).2 = vertex)))]
  by_cases h : u = vertex ∨ w = vertex
  · simp [h, edge_key]
  · simp [h, edge_key]

theorem sorted_erase_touching (vertex : Int) (costs : List (Lex (Int × Int) × Int))
    (h : (StdMap.keys costs).Sorted (· < ·)) :
    (StdMap.keys (erase_touching vertex costs)).Sorted (· < ·) := by
  rw [erase_touching_eq_filter]
  exact StdMap.sorted_keys_filter _ costs h

theorem keys_new_dict (n : Nat) : StdMap.keys (new_dict n) = (List.range n).map Nat.cast := by
  simp [new_dict, StdMap.keys, List.map_map, Function.comp_def]

theorem new_eq (nr_vertices : Int) :
    new nr_vertices =
      { dict_out := new_dict nr_vertices.toNat
        dict_in := new_dict nr_vertices.toNat
        costs := [] } := by
  unfold new
  generalize nr_vertices.toNat = n
  induction n with
  | zero => rfl
  | succ n ih =>
    rw [List.range_succ, List.foldl_append, ih]
    simp only [List.foldl_cons, List.foldl_nil]
    have h : StdMap.assign (n : Int) [] (new_dict n) = new_dict (n + 1) := by
      rw [StdMap.assign_append]
      · simp [new_dict, List.range_succ]
      · intro j hj
        rw [keys_new_dict] at hj
        obtain ⟨i, hi, rfl⟩ := List.mem_map.mp hj
        exact_mod_cast List.mem_range.mp hi
    rw [h]

theorem mem_keys_new_dict (n : Nat) (v : Int) :
    v ∈ StdMap.keys (new_dict n) ↔ 0 ≤ v ∧ v < n := by
  rw [keys_new_dict, List.mem_map]
  constructor
  · rintro ⟨i, hi, rfl⟩
    exact ⟨Int.natCast_nonneg i, by exact_mod_cast List.mem_range.mp hi⟩
  · rintro ⟨h0, hn⟩
    refine ⟨v.toNat, List.mem_range.mpr ?_, Int.toNat_of_nonneg h0⟩
    omega

theorem sorted_keys_new_dict (n : Nat) : (StdMap.keys (new_dict n)).Sorted (· < ·) := by
  rw [keys_new_dict]
  exact (List.pairwise_map).mpr
    ((List.pairwise_lt_range n).imp (fun h => by exact_mod_cast h))

theorem find?_new_dict (n : Nat) (v : Int) (s : List Int)
    (h : StdMap.find? v (new_dict n) = some s) : s = [] := by
  have hm := StdMap.mem_of_find? v s _ h
  obtain ⟨i, _, hi⟩ := List.mem_map.mp hm
  exact (Prod.mk.inj hi).2.symm

end DirectedGraph

namespace DirectedGraph

/-! ### Case analysis of the mutating member functions -/

theorem add_vertex_cases (g : DirectedGraph) (vertex : Int) :
    (g.is_vertex_in_graph vertex = true ∧
        g.add_vertex vertex = (.error .vertex_already_in_graph, g)) ∨
    (g.is_vertex_in_graph vertex = false ∧
        g.add_vertex vertex =
          (.ok (),
            { g with
              dict_out := StdMap.assign vertex [] g.dict_out
              dict_in := StdMap.assign vertex [] g.dict_in })) := by
  unfold add_vertex
  cases h : g.is_vertex_in_graph vertex <;> simp

theorem remove_vertex_cases (g : DirectedGraph) (vertex : Int) :
    (g.is_vertex_in_graph vertex = false ∧
        g.remove_vertex vertex = (.error .vertex_not_in_graph, g)) ∨
    (g.is_vertex_in_graph vertex = true ∧
        g.remove_vertex vertex =
          (.ok (),
            { dict_out := erase_from_all vertex (StdMap.erase vertex g.dict_out)
              dict_in := erase_from_all vertex (StdMap.erase vertex g.dict_in)
              costs := erase_touching vertex g.costs })) := by
  unfold remove_vertex
  cases h : g.is_vertex_in_graph vertex <;> simp

theorem add_edge_cases (g : DirectedGraph) (_from _to _cost : Int) :
    ((g.is_vertex_in_graph _from = false ∨ g.is_vertex_in_graph _to = false) ∧
        g.add_edge _from _to _cost = (.error .both_vertices_must_be_in_graph, g)) ∨
    (g.is_vertex_in_graph _from = true ∧ g.is_vertex_in_graph _to = true ∧
        g.is_edge_in_graph _from _to = true ∧
        g.add_edge _from _to _cost = (.error .edge_already_in_graph, g)) ∨
    (g.is_vertex_in_graph _from = true ∧ g.is_vertex_in_graph _to = true ∧
        g.is_edge_in_graph _from _to = false ∧
        g.add_edge _from _to _cost =
          (.ok (),
            { dict_in := StdMap.modify [] _to (StdSet.insert _from) g.dict_in
              dict_out := StdMap.modify [] _from (StdSet.insert _to) g.dict_out
              costs := StdMap.assign (edge_key _from _to) _cost g.costs })) := by
  unfold add_edge
  cases h1 : g.is_vertex_in_graph _from <;> cases h2 : g.is_vertex_in_graph _to <;>
    cases h3 : g.is_edge_in_graph _from _to <;> simp

theorem remove_edge_cases (g : DirectedGraph) (_from _to : Int) :
    ((g.is_vertex_in_graph _from = false ∨ g.is_vertex_in_graph _to = false) ∧
        g.remove_edge _from _to = (.error .both_vertices_must_be_in_graph, g)) ∨
    (g.is_vertex_in_graph _from = true ∧ g.is_vertex_in_graph _to = true ∧
        g.is_edge_in_graph _from _to = false ∧
        g.remove_edge _from _to = (.error .edge_not_in_graph, g)) ∨
    (g.is_vertex_in_graph _from = true ∧ g.is_vertex_in_graph _to = true ∧
        g.is_edge_in_graph _from _to = true ∧
        g.remove_edge _from _to =
          (.ok (),
            { dict_in := StdMap.modify [] _to (StdSet.erase _from) g.dict_in
              dict_out := StdMap.modify [] _from (StdSet.erase _to) g.dict_out
              costs := StdMap.erase (edge_key _from _to) g.costs })) := by
  unfold remove_edge
  cases h1 : g.is_vertex_in_graph _from <;> cases h2 : g.is_vertex_in_graph _to <;>
    cases h3 : g.is_edge_in_graph _from _to <;> simp

theorem change_cost_cases (g : DirectedGraph) (_from _to _new_cost : Int) :
    ((g.is_vertex_in_graph _from = false ∨ g.is_vertex_in_graph _to = false) ∧
        g.change_cost _from _to _new_cost = (.error .both_vertices_must_be_in_graph, g)) ∨
    (g.is_vertex_in_graph _from = true ∧ g.is_vertex_in_graph _to = true ∧
        g.is_edge_in_graph _from _to = false ∧
        g.change_cost _from _to _new_cost = (.error .edge_not_in_graph, g)) ∨
    (g.is_vertex_in_graph _from = true ∧ g.is_vertex_in_graph _to = true ∧
        g.is_edge_in_graph _from _to = true ∧
        g.change_cost _from _to _new_cost =
          (.ok (),
            { g with costs := StdMap.assign (edge_key _from _to) _new_cost g.costs })) := by
  unfold change_cost
  cases h1 : g.is_vertex_in_graph _from <;> cases h2 : g.is_vertex_in_graph _to <;>
    cases h3 : g.is_edge_in_graph _from _to <;> simp

/-! ### The constructor establishes the invariants -/

theorem wf_new (nr_vertices : Int) : WellFormed (new nr_vertices) := by
  rw [new_eq]
  refine ⟨sorted_keys_new_dict _, sorted_keys_new_dict _, ?_, ?_, ?_⟩
  · simp [StdMap.keys]
  · intro k s h
    rw [find?_new_dict _ k s h]
    exact List.sorted_nil
  · intro k s h
    rw [find?_new_dict _ k s h]
    exact List.sorted_nil

theorem inv_new (nr_vertices : Int) : Invariant (new nr_vertices) := by
  rw [new_eq]
  refine ⟨fun v => Iff.rfl, ?_, ?_, ?_⟩
  · intro u v
    constructor
    · intro h
      simp [StdMap.keys] at h
    · rintro ⟨s, hs, hv⟩
      rw [find?_new_dict _ u s hs] at hv
      simp at hv
  · intro u v
    constructor
    · intro h
      simp [StdMap.keys] at h
    · rintro ⟨s, hs, hv⟩
      rw [find?_new_dict _ v s hs] at hv
      simp at hv
  · intro u v h
    simp [StdMap.keys] at h

/-! ### The mutations preserve the invariants -/

theorem wf_add_vertex (g : DirectedGraph) (vertex : Int) (hw : WellFormed g) :
    WellFormed (g.add_vertex vertex).2 := by
  rcases add_vertex_cases g vertex with ⟨_, h⟩ | ⟨_, h⟩
  · rw [h]; exact hw
  · rw [h]
    refine ⟨StdMap.sorted_keys_assign _ _ _ hw.out_keys,
      StdMap.sorted_keys_assign _ _ _ hw.in_keys, hw.cost_keys, ?_, ?_⟩
    · intro k s hs
      simp only [StdMap.find?_assign] at hs
      split_ifs at hs with hk
      · cases hs; exact List.sorted_nil
      · exact hw.out_sets k s hs
    · intro k s hs
      simp only [StdMap.find?_assign] at hs
      split_ifs at hs with hk
      · cases hs; exact List.sorted_nil
      · exact hw.in_sets k s hs

theorem inv_add_vertex (g : DirectedGraph) (vertex : Int) (hi : Invariant g) :
    Invariant (g.add_vertex vertex).2 := by
  rcases add_vertex_cases g vertex with ⟨_, h⟩ | ⟨hv, h⟩
  · rw [h]; exact hi
  · rw [h]
    have hout : vertex ∉ StdMap.keys g.dict_out := (is_vertex_false_iff g vertex).mp hv
    have hin : vertex ∉ StdMap.keys g.dict_in := fun hc => hout ((hi.same_keys vertex).mpr hc)
    have hout_none := (StdMap.find?_eq_none_iff vertex g.dict_out).mpr hout
    have hin_none := (StdMap.find?_eq_none_iff vertex g.dict_in).mpr hin
    refine ⟨?_, ?_, ?_, ?_⟩
    · intro v
      simp only [StdMap.mem_keys_assign, hi.same_keys v]
    · intro u v
      simp only [StdMap.find?_assign]
      rw [hi.edge_out u v]
      by_cases hu : u = vertex
      · subst hu
        simp [hout_none]
      · simp [hu]
    · intro u v
      simp only [StdMap.find?_assign]
      rw [hi.edge_in u v]
      by_cases hu : v = vertex
      · subst hu
        simp [hin_none]
      · simp [hu]
    · intro u v huv
      have := hi.endpoints u v huv
      simp only [StdMap.mem_keys_assign]
      exact ⟨Or.inr this.1, Or.inr this.2⟩

end DirectedGraph

namespace DirectedGraph

theorem mem_keys_erase_touching (vertex u w : Int) (costs : List (Lex (Int × Int) × Int)) :
    edge_key u w ∈ StdMap.keys (erase_touching vertex costs) ↔
      ¬(u = vertex ∨ w = vertex) ∧ edge_key u w ∈ StdMap.keys costs := by
  rw [StdMap.mem_keys_iff, StdMap.mem_keys_iff, find?_erase_touching]
  by_cases h : u = vertex ∨ w = vertex <;> simp [h]

theorem find?_removed_dict (vertex u : Int) (dict : List (Int × List Int)) :
    StdMap.find? u (erase_from_all vertex (StdMap.erase vertex dict)) =
      if u = vertex then none else (StdMap.find? u dict).map (StdSet.erase vertex) := by
  rw [find?_erase_from_all, StdMap.find?_erase]
  by_cases h : u = vertex <;> simp [h]

theorem mem_removed_dict (vertex u w : Int) (dict : List (Int × List Int)) :
    (∃ s, StdMap.find? u (erase_from_all vertex (StdMap.erase vertex dict)) = some s ∧ w ∈ s) ↔
      (u ≠ vertex ∧ w ≠ vertex) ∧ ∃ s, StdMap.find? u dict = some s ∧ w ∈ s := by
  rw [find?_removed_dict]
  by_cases h : u = vertex
  · simp [h]
  · rw [if_neg h]
    constructor
    · rintro ⟨s, hs, hw⟩
      obtain ⟨s0, hs0, rfl⟩ := Option.map_eq_some'.mp hs
      have := (StdSet.mem_erase vertex w s0).mp hw
      exact ⟨⟨h, this.1⟩, s0, hs0, this.2⟩
    · rintro ⟨⟨_, hwv⟩, s, hs, hw⟩
      exact ⟨StdSet.erase vertex s, by rw [hs]; rfl, (StdSet.mem_erase vertex w s).mpr ⟨hwv, hw⟩⟩

theorem mem_keys_removed_dict (vertex u : Int) (dict : List (Int × List Int)) :
    u ∈ StdMap.keys (erase_from_all vertex (StdMap.erase vertex dict)) ↔
      u ≠ vertex ∧ u ∈ StdMap.keys dict := by
  rw [keys_erase_from_all, StdMap.mem_keys_erase]

theorem sorted_sets_removed_dict (vertex : Int) (dict : List (Int × List Int))
    (h : ∀ k s, StdMap.find? k dict = some s → s.Sorted (· < ·)) :
    ∀ k s, StdMap.find? k (erase_from_all vertex (StdMap.erase vertex dict)) = some s →
      s.Sorted (· < ·) := by
  intro k s hs
  rw [find?_removed_dict] at hs
  split_ifs at hs with hk
  obtain ⟨s0, hs0, rfl⟩ := Option.map_eq_some'.mp hs
  exact StdSet.sorted_erase vertex s0 (h k s0 hs0)

theorem wf_remove_vertex (g : DirectedGraph) (vertex : Int) (hw : WellFormed g) :
    WellFormed (g.remove_vertex vertex).2 := by
  rcases remove_vertex_cases g vertex with ⟨_, h⟩ | ⟨_, h⟩
  · rw [h]; exact hw
  · rw [h]
    refine ⟨?_, ?_, sorted_erase_touching _ _ hw.cost_keys,
      sorted_sets_removed_dict _ _ hw.out_sets, sorted_sets_removed_dict _ _ hw.in_sets⟩
    · show (StdMap.keys (erase_from_all vertex (StdMap.erase vertex g.dict_out))).Sorted (· < ·)
      rw [keys_erase_from_all]
      exact StdMap.sorted_keys_erase _ _ hw.out_keys
    · show (StdMap.keys (erase_from_all vertex (StdMap.erase vertex g.dict_in))).Sorted (· < ·)
      rw [keys_erase_from_all]
      exact StdMap.sorted_keys_erase _ _ hw.in_keys

theorem inv_remove_vertex (g : DirectedGraph) (vertex : Int) (hi : Invariant g) :
    Invariant (g.remove_vertex vertex).2 := by
  rcases remove_vertex_cases g vertex with ⟨_, h⟩ | ⟨hv, h⟩
  · rw [h]; exact hi
  · rw [h]
    refine ⟨?_, ?_, ?_, ?_⟩
    · intro v
      show v ∈ StdMap.keys (erase_from_all vertex (StdMap.erase vertex g.dict_out)) ↔
        v ∈ StdMap.keys (erase_from_all vertex (StdMap.erase vertex g.dict_in))
      rw [mem_keys_removed_dict, mem_keys_removed_dict, hi.same_keys v]
    · intro u v
      show edge_key u v ∈ StdMap.keys (erase_touching vertex g.costs) ↔
        ∃ s, StdMap.find? u (erase_from_all vertex (StdMap.erase vertex g.dict_out)) = some s ∧
          v ∈ s
      rw [mem_keys_erase_touching, mem_removed_dict, hi.edge_out u v, not_or]
    · intro u v
      show edge_key u v ∈ StdMap.keys (erase_touching vertex g.costs) ↔
        ∃ s, StdMap.find? v (erase_from_all vertex (StdMap.erase vertex g.dict_in)) = some s ∧
          u ∈ s
      rw [mem_keys_erase_touching, mem_removed_dict, hi.edge_in u v, not_or, and_comm (a := ¬u = vertex)]
    · intro u v
      show edge_key u v ∈ StdMap.keys (erase_touching vertex g.costs) →
        u ∈ StdMap.keys (erase_from_all vertex (StdMap.erase vertex g.dict_out)) ∧
        v ∈ StdMap.keys (erase_from_all vertex (StdMap.erase vertex g.dict_out))
      rw [mem_keys_erase_touching, mem_keys_removed_dict, mem_keys_removed_dict, not_or]
      rintro ⟨⟨hu, hv⟩, hk⟩
      have := hi.endpoints u v hk
      exact ⟨⟨hu, this.1⟩, ⟨hv, this.2⟩⟩

/-! Membership in the neighbour set of a key after `dict[k].op(x)`. -/

theorem mem_modify_insert (k x j y : Int) (dict : List (Int × List Int)) :
    (∃ s, StdMap.find? j (StdMap.modify [] k (StdSet.insert x) dict) = some s ∧ y ∈ s) ↔
      (j = k ∧ y = x) ∨ ∃ s, StdMap.find? j dict = some s ∧ y ∈ s := by
  rw [StdMap.find?_modify]
  by_cases h : j = k
  · subst h
    cases hs0 : StdMap.find? j dict <;> simp [StdSet.mem_insert, StdSet.insert]
  · simp [h]

theorem mem_modify_erase (k x j y : Int) (dict : List (Int × List Int)) :
    (∃ s, StdMap.find? j (StdMap.modify [] k (StdSet.erase x) dict) = some s ∧ y ∈ s) ↔
      ¬(j = k ∧ y = x) ∧ ∃ s, StdMap.find? j dict = some s ∧ y ∈ s := by
  rw [StdMap.find?_modify]
  by_cases h : j = k
  · subst h
    cases hs0 : StdMap.find? j dict <;> simp [StdSet.mem_erase, StdSet.erase, and_comm]
  · simp [h]

theorem sorted_sets_modify (k : Int) (op : List Int → List Int) (dict : List (Int × List Int))
    (hop : ∀ s : List Int, s.Sorted (· < ·) → (op s).Sorted (· < ·))
    (h : ∀ j s, StdMap.find? j dict = some s → s.Sorted (· < ·)) :
    ∀ j s, StdMap.find? j (StdMap.modify [] k op dict) = some s → s.Sorted (· < ·) := by
  intro j s hs
  rw [StdMap.find?_modify] at hs
  split_ifs at hs with hj
  · cases hs
    apply hop
    cases hf : StdMap.find? k dict with
    | none => exact List.sorted_nil
    | some s0 => exact h k s0 hf
  · exact h j s hs

end DirectedGraph

namespace DirectedGraph

theorem wf_add_edge (g : DirectedGraph) (_from _to _cost : Int) (hw : WellFormed g) :
    WellFormed (g.add_edge _from _to _cost).2 := by
  rcases add_edge_cases g _from _to _cost with ⟨_, h⟩ | ⟨_, _, _, h⟩ | ⟨_, _, _, h⟩
  · rw [h]; exact hw
  · rw [h]; exact hw
  · rw [h]
    exact ⟨StdMap.sorted_keys_modify _ _ _ _ hw.out_keys,
      StdMap.sorted_keys_modify _ _ _ _ hw.in_keys,
      StdMap.sorted_keys_assign _ _ _ hw.cost_keys,
      sorted_sets_modify _ _ _ (StdSet.sorted_insert _to) hw.out_sets,
      sorted_sets_modify _ _ _ (StdSet.sorted_insert _from) hw.in_sets⟩

theorem inv_add_edge (g : DirectedGraph) (_from _to _cost : Int) (hi : Invariant g) :
    Invariant (g.add_edge _from _to _cost).2 := by
  rcases add_edge_cases g _from _to _cost with ⟨_, h⟩ | ⟨_, _, _, h⟩ | ⟨hf, ht, _, h⟩
  · rw [h]; exact hi
  · rw [h]; exact hi
  · rw [h]
    have hfo : _from ∈ StdMap.keys g.dict_out := (is_vertex_iff g _from).mp hf
    have hto : _to ∈ StdMap.keys g.dict_out := (is_vertex_iff g _to).mp ht
    have hti : _to ∈ StdMap.keys g.dict_in := (hi.same_keys _to).mp hto
    refine ⟨?_, ?_, ?_, ?_⟩
    · intro v
      simp only [StdMap.mem_keys_modify, hi.same_keys v]
      constructor
      · rintro (rfl | hv)
        · exact Or.inr ((hi.same_keys _).mp hfo)
        · exact Or.inr hv
      · rintro (rfl | hv)
        · exact Or.inr hti
        · exact Or.inr hv
    · intro u v
      simp only [StdMap.mem_keys_assign, edge_key_inj]
      rw [mem_modify_insert, hi.edge_out u v]
    · intro u v
      simp only [StdMap.mem_keys_assign, edge_key_inj]
      rw [mem_modify_insert, hi.edge_in u v, and_comm (a := u = _from)]
    · intro u v
      simp only [StdMap.mem_keys_assign, edge_key_inj, StdMap.mem_keys_modify]
      rintro (⟨rfl, rfl⟩ | huv)
      · exact ⟨Or.inl rfl, Or.inr hto⟩
      · have := hi.endpoints u v huv
        exact ⟨Or.inr this.1, Or.inr this.2⟩

theorem wf_remove_edge (g : DirectedGraph) (_from _to : Int) (hw : WellFormed g) :
    WellFormed (g.remove_edge _from _to).2 := by
  rcases remove_edge_cases g _from _to with ⟨_, h⟩ | ⟨_, _, _, h⟩ | ⟨_, _, _, h⟩
  · rw [h]; exact hw
  · rw [h]; exact hw
  · rw [h]
    exact ⟨StdMap.sorted_keys_modify _ _ _ _ hw.out_keys,
      StdMap.sorted_keys_modify _ _ _ _ hw.in_keys,
      StdMap.sorted_keys_erase _ _ hw.cost_keys,
      sorted_sets_modify _ _ _ (StdSet.sorted_erase _to) hw.out_sets,
      sorted_sets_modify _ _ _ (StdSet.sorted_erase _from) hw.in_sets⟩

theorem inv_remove_edge (g : DirectedGraph) (_from _to : Int) (hi : Invariant g) :
    Invariant (g.remove_edge _from _to).2 := by
  rcases remove_edge_cases g _from _to with ⟨_, h⟩ | ⟨_, _, _, h⟩ | ⟨hf, ht, _, h⟩
  · rw [h]; exact hi
  · rw [h]; exact hi
  · rw [h]
    have hfo : _from ∈ StdMap.keys g.dict_out := (is_vertex_iff g _from).mp hf
    have hto : _to ∈ StdMap.keys g.dict_out := (is_vertex_iff g _to).mp ht
    have hti : _to ∈ StdMap.keys g.dict_in := (hi.same_keys _to).mp hto
    refine ⟨?_, ?_, ?_, ?_⟩
    · intro v
      simp only [StdMap.mem_keys_modify, hi.same_keys v]
      constructor
      · rintro (rfl | hv)
        · exact Or.inr ((hi.same_keys _).mp hfo)
        · exact Or.inr hv
      · rintro (rfl | hv)
        · exact Or.inr hti
        · exact Or.inr hv
    · intro u v
      simp only [StdMap.mem_keys_erase, ne_eq, edge_key_inj]
      rw [mem_modify_erase, hi.edge_out u v]
    · intro u v
      simp only [StdMap.mem_keys_erase, ne_eq, edge_key_inj]
      rw [mem_modify_erase, hi.edge_in u v, and_comm (a := u = _from)]
    · intro u v
      simp only [StdMap.mem_keys_erase, ne_eq, edge_key_inj, StdMap.mem_keys_modify]
      rintro ⟨_, huv⟩
      have := hi.endpoints u v huv
      exact ⟨Or.inr this.1, Or.inr this.2⟩

theorem wf_change_cost (g : DirectedGraph) (_from _to _new_cost : Int) (hw : WellFormed g) :
    WellFormed (g.change_cost _from _to _new_cost).2 := by
  rcases change_cost_cases g _from _to _new_cost with ⟨_, h⟩ | ⟨_, _, _, h⟩ | ⟨_, _, _, h⟩
  · rw [h]; exact hw
  · rw [h]; exact hw
  · rw [h]
    exact ⟨hw.out_keys, hw.in_keys, StdMap.sorted_keys_assign _ _ _ hw.cost_keys,
      hw.out_sets, hw.in_sets⟩

theorem inv_change_cost (g : DirectedGraph) (_from _to _new_cost : Int) (hi : Invariant g) :
    Invariant (g.change_cost _from _to _new_cost).2 := by
  rcases change_cost_cases g _from _to _new_cost with ⟨_, h⟩ | ⟨_, _, _, h⟩ | ⟨_, _, he, h⟩
  · rw [h]; exact hi
  · rw [h]; exact hi
  · rw [h]
    have hk : edge_key _from _to ∈ StdMap.keys g.costs := (is_edge_iff g _from _to).mp he
    have hmem : ∀ u v, edge_key u v ∈
        StdMap.keys (StdMap.assign (edge_key _from _to) _new_cost g.costs) ↔
        edge_key u v ∈ StdMap.keys g.costs := by
      intro u v
      rw [StdMap.mem_keys_assign]
      constructor
      · rintro (h | h)
        · rw [h]; exact hk
        · exact h
      · exact Or.inr
    refine ⟨hi.same_keys, ?_, ?_, ?_⟩
    · intro u v
      exact (hmem u v).trans (hi.edge_out u v)
    · intro u v
      exact (hmem u v).trans (hi.edge_in u v)
    · intro u v huv
      exact hi.endpoints u v ((hmem u v).mp huv)

/-! ### The queries leave such a graph as it is -/

theorem get_cost_of_edge_state (g : DirectedGraph) (_from _to : Int) :
    (g.get_cost_of_edge _from _to).2 = g := by
  unfold get_cost_of_edge
  cases h : g.is_edge_in_graph _from _to
  · rfl
  · have hk := (is_edge_iff g _from _to).mp h
    simp [StdMap.index_snd_of_mem 0 _ _ hk]

theorem get_out_degree_state (g : DirectedGraph) (vertex : Int) :
    (g.get_out_degree vertex).2 = g := by
  unfold get_out_degree
  cases h : g.is_vertex_in_graph vertex
  · rfl
  · have hk := (is_vertex_iff g vertex).mp h
    simp [StdMap.index_snd_of_mem [] _ _ hk]

theorem get_nr_outbound_neighbours_state (g : DirectedGraph) (vertex : Int) :
    (g.get_nr_outbound_neighbours vertex).2 = g := by
  unfold get_nr_outbound_neighbours
  cases h : g.is_vertex_in_graph vertex
  · rfl
  · have hk := (is_vertex_iff g vertex).mp h
    simp [StdMap.index_snd_of_mem [] _ _ hk]

theorem get_outbound_neighbours_state (g : DirectedGraph) (vertex : Int) :
    (g.get_outbound_neighbours vertex).2 = g := by
  unfold get_outbound_neighbours
  cases h : g.is_vertex_in_graph vertex
  · rfl
  · have hk := (is_vertex_iff g vertex).mp h
    simp [StdMap.index_snd_of_mem [] _ _ hk]

theorem get_in_degree_state (g : DirectedGraph) (vertex : Int) (hi : Invariant g) :
    (g.get_in_degree vertex).2 = g := by
  unfold get_in_degree
  cases h : g.is_vertex_in_graph vertex
  · rfl
  · have hk := (hi.same_keys vertex).mp ((is_vertex_iff g vertex).mp h)
    simp [StdMap.index_snd_of_mem [] _ _ hk]

theorem get_nr_inbound_neighbours_state (g : DirectedGraph) (vertex : Int) (hi : Invariant g) :
    (g.get_nr_inbound_neighbours vertex).2 = g := by
  unfold get_nr_inbound_neighbours
  cases h : g.is_vertex_in_graph vertex
  · rfl
  · have hk := (hi.same_keys vertex).mp ((is_vertex_iff g vertex).mp h)
    simp [StdMap.index_snd_of_mem [] _ _ hk]

theorem get_inbound_neighbours_state (g : DirectedGraph) (vertex : Int) (hi : Invariant g) :
    (g.get_inbound_neighbours vertex).2 = g := by
  unfold get_inbound_neighbours
  cases h : g.is_vertex_in_graph vertex
  · rfl
  · have hk := (hi.same_keys vertex).mp ((is_vertex_iff g vertex).mp h)
    simp [StdMap.index_snd_of_mem [] _ _ hk]

/-- Every reachable graph has well-formed containers and satisfies the invariants. -/
theorem reachable_inv (g : DirectedGraph) (hg : Reachable g) : WellFormed g ∧ Invariant g := by
  induction hg with
  | new n => exact ⟨wf_new n, inv_new n⟩
  | add_vertex v _ _ ih => exact ⟨wf_add_vertex _ v ih.1, inv_add_vertex _ v ih.2⟩
  | remove_vertex v _ _ ih => exact ⟨wf_remove_vertex _ v ih.1, inv_remove_vertex _ v ih.2⟩
  | add_edge u v c _ _ ih => exact ⟨wf_add_edge _ u v c ih.1, inv_add_edge _ u v c ih.2⟩
  | remove_edge u v _ _ ih => exact ⟨wf_remove_edge _ u v ih.1, inv_remove_edge _ u v ih.2⟩
  | change_cost u v c _ _ ih => exact ⟨wf_change_cost _ u v c ih.1, inv_change_cost _ u v c ih.2⟩
  | get_cost_of_edge u v _ ih => rw [get_cost_of_edge_state]; exact ih
  | get_in_degree v _ ih => rw [get_in_degree_state _ v ih.2]; exact ih
  | get_out_degree v _ ih => rw [get_out_degree_state]; exact ih
  | get_outbound_neighbours v _ ih => rw [get_outbound_neighbours_state]; exact ih
  | get_nr_outbound_neighbours v _ ih => rw [get_nr_outbound_neighbours_state]; exact ih
  | get_inbound_neighbours v _ ih => rw [get_inbound_neighbours_state _ v ih.2]; exact ih
  | get_nr_inbound_neighbours v _ ih => rw [get_nr_inbound_neighbours_state _ v ih.2]; exact ih

end DirectedGraph

namespace DirectedGraph

/-! ### The loops of `copy_graph` -/

theorem mem_keys_copy_costs (src dst : List (Lex (Int × Int) × Int)) (k : Lex (Int × Int)) :
    k ∈ StdMap.keys (copy_costs src dst) ↔ k ∈ StdMap.keys src ∨ k ∈ StdMap.keys dst := by
  unfold copy_costs
  induction src generalizing dst with
  | nil => simp [StdMap.keys]
  | cons it rest ih =>
    rw [List.foldl_cons, ih, StdMap.mem_keys_assign, StdMap.keys_cons, List.mem_cons]
    have : edge_key (ofLex it.1).1 (ofLex it.1).2 = it.1 := rfl
    rw [this]
    tauto

theorem mem_copy_one_set (k : Int) (xs : List Int) (acc : List (Int × List Int)) (j y : Int) :
    (∃ s, StdMap.find? j
        (xs.foldl (fun acc x => StdMap.modify [] k (StdSet.insert x) acc) acc) = some s ∧ y ∈ s) ↔
      (j = k ∧ y ∈ xs) ∨ ∃ s, StdMap.find? j acc = some s ∧ y ∈ s := by
  induction xs generalizing acc with
  | nil => simp
  | cons x xs ih =>
    rw [List.foldl_cons, ih, mem_modify_insert, List.mem_cons]
    tauto

theorem mem_copy_sets (src dst : List (Int × List Int)) (j y : Int) :
    (∃ s, StdMap.find? j (copy_sets src dst) = some s ∧ y ∈ s) ↔
      (∃ s, (j, s) ∈ src ∧ y ∈ s) ∨ ∃ s, StdMap.find? j dst = some s ∧ y ∈ s := by
  unfold copy_sets
  induction src generalizing dst with
  | nil => simp
  | cons it rest ih =>
    rw [List.foldl_cons, ih, mem_copy_one_set]
    constructor
    · rintro (⟨s, hs, hy⟩ | ⟨rfl, hy⟩ | h)
      · exact Or.inl ⟨s, List.mem_cons_of_mem _ hs, hy⟩
      · exact Or.inl ⟨it.2, List.mem_cons_self _ _, hy⟩
      · exact Or.inr h
    · rintro (⟨s, hs, hy⟩ | h)
      · rcases List.mem_cons.mp hs with rfl | hs
        · exact Or.inr (Or.inl ⟨rfl, hy⟩)
        · exact Or.inl ⟨s, hs, hy⟩
      · exact Or.inr (Or.inr h)

theorem mem_copy_sets_new (src : List (Int × List Int)) (n : Nat)
    (hsrc : (StdMap.keys src).Sorted (· < ·)) (j y : Int) :
    (∃ s, StdMap.find? j (copy_sets src (new_dict n)) = some s ∧ y ∈ s) ↔
      ∃ s, StdMap.find? j src = some s ∧ y ∈ s := by
  rw [mem_copy_sets]
  constructor
  · rintro (⟨s, hs, hy⟩ | ⟨s, hs, hy⟩)
    · exact ⟨s, StdMap.find?_of_mem j s src hsrc hs, hy⟩
    · rw [find?_new_dict n j s hs] at hy
      simp at hy
  · rintro ⟨s, hs, hy⟩
    exact Or.inl ⟨s, StdMap.mem_of_find? j s src hs, hy⟩

theorem copy_graph_eq (g : DirectedGraph) :
    g.copy_graph =
      { costs := copy_costs g.costs []
        dict_in := copy_sets g.dict_in (new_dict g.dict_out.length)
        dict_out := copy_sets g.dict_out (new_dict g.dict_out.length) } := by
  unfold copy_graph get_nr_vertices
  simp [new_eq]

end DirectedGraph

/-! ## The claims -/

namespace DirectedGraph

theorem reachable_sample_graph : Reachable sample_graph :=
  Reachable.add_edge 2 0 5
    (Reachable.add_edge 1 1 3
      (Reachable.add_edge 1 2 (-4)
        (Reachable.add_edge 0 1 7 (Reachable.new 3) (by decide)) (by decide)) (by decide))
    (by decide)

theorem reachable_graph_5_6 : Reachable graph_5_6 :=
  Reachable.add_edge 5 6 1
    (Reachable.add_vertex 6 (Reachable.add_vertex 5 (Reachable.new 0) (by decide)) (by decide))
    (by decide)

theorem get_cost_of_edge_fst (g : DirectedGraph) (u w : Int) :
    (g.get_cost_of_edge u w).1 =
      match StdMap.find? (edge_key u w) g.costs with
      | some c => .ok c
      | none => .error .edge_not_in_graph := by
  unfold get_cost_of_edge is_edge_in_graph
  cases h : StdMap.find? (edge_key u w) g.costs <;> simp [StdMap.index_fst, h]

end DirectedGraph

namespace DirectedGraph

/-- Claim C1: on a reachable graph `g` with `v` present, `remove_vertex(v)` succeeds and, for
every pair `(u, w)`: if it was an edge touching `v` it is no longer an edge; if it was an edge
not touching `v` it is still an edge and `get_cost_of_edge(u, w)` returns the same cost; and if
it was not an edge it is not an edge afterwards. -/
theorem C1_remove_vertex_edges (g : DirectedGraph) (hg : Reachable g) (v : Int)
    (hv : g.is_vertex_in_graph v = true) (u w : Int) :
    (g.remove_vertex v).1 = .ok () ∧
    (g.is_edge_in_graph u w = true → (u = v ∨ w = v) →
      (g.remove_vertex v).2.is_edge_in_graph u w = false) ∧
    (g.is_edge_in_graph u w = true → ¬(u = v ∨ w = v) →
      (g.remove_vertex v).2.is_edge_in_graph u w = true ∧
      ∃ c, (g.get_cost_of_edge u w).1 = .ok c ∧
        ((g.remove_vertex v).2.get_cost_of_edge u w).1 = .ok c) ∧
    (g.is_edge_in_graph u w = false →
      (g.remove_vertex v).2.is_edge_in_graph u w = false) := by
  rcases remove_vertex_cases g v with ⟨hv2, _⟩ | ⟨_, h⟩
  · rw [hv] at hv2; cases hv2
  · rw [h]
    refine ⟨rfl, ?_, ?_, ?_⟩
    · intro _ ht
      simp [is_edge_in_graph, find?_erase_touching, ht]
    · intro he ht
      obtain ⟨c, hc⟩ := (StdMap.mem_keys_iff _ _).mp ((is_edge_iff g u w).mp he)
      refine ⟨?_, c, ?_, ?_⟩
      · simp [is_edge_in_graph, find?_erase_touching, ht, hc]
      · rw [get_cost_of_edge_fst, hc]
      · rw [get_cost_of_edge_fst]
        simp [find?_erase_touching, ht, hc]
    · intro he
      have hn := (StdMap.find?_eq_none_iff _ _).mpr ((is_edge_false_iff g u w).mp he)
      by_cases ht : u = v ∨ w = v <;> simp [is_edge_in_graph, find?_erase_touching, ht, hn]

/-- Witness of C1 on `sample_graph`: removing vertex 1 keeps the edge (2,0) with its cost. -/
theorem C1_remove_vertex_edges_witness :
    Reachable sample_graph ∧ sample_graph.is_vertex_in_graph 1 = true ∧
    ((sample_graph.remove_vertex 1).1 = .ok () ∧
    (sample_graph.is_edge_in_graph 2 0 = true → ((2 : Int) = 1 ∨ (0 : Int) = 1) →
      (sample_graph.remove_vertex 1).2.is_edge_in_graph 2 0 = false) ∧
    (sample_graph.is_edge_in_graph 2 0 = true → ¬((2 : Int) = 1 ∨ (0 : Int) = 1) →
      (sample_graph.remove_vertex 1).2.is_edge_in_graph 2 0 = true ∧
      ∃ c, (sample_graph.get_cost_of_edge 2 0).1 = .ok c ∧
        ((sample_graph.remove_vertex 1).2.get_cost_of_edge 2 0).1 = .ok c) ∧
    (sample_graph.is_edge_in_graph 2 0 = false →
      (sample_graph.remove_vertex 1).2.is_edge_in_graph 2 0 = false)) :=
  ⟨reachable_sample_graph, by decide,
    C1_remove_vertex_edges sample_graph reachable_sample_graph 1 (by decide) 2 0⟩

/-- Claim C2, evaluated on the graph whose only vertex is 5 (built by `add_vertex(5)` on the
empty graph): the copy reports vertex 5 absent and vertex 0 present, the original the
opposite, so the copy is not the memberwise copy. -/
theorem C2_copy_graph_differs :
    Reachable ((new 0).add_vertex 5).2 ∧
    ((new 0).add_vertex 5).2 = { dict_out := [(5, [])], dict_in := [(5, [])], costs := [] } ∧
    ((new 0).add_vertex 5).2.copy_graph =
      { dict_out := [(0, [])], dict_in := [(0, [])], costs := [] } ∧
    ((new 0).add_vertex 5).2.is_vertex_in_graph 5 = true ∧
    ((new 0).add_vertex 5).2.copy_graph.is_vertex_in_graph 5 = false ∧
    ((new 0).add_vertex 5).2.is_vertex_in_graph 0 = false ∧
    ((new 0).add_vertex 5).2.copy_graph.is_vertex_in_graph 0 = true ∧
    ((new 0).add_vertex 5).2.copy_graph ≠ ((new 0).add_vertex 5).2 :=
  ⟨Reachable.add_vertex 5 (Reachable.new 0) (by decide), by decide, by decide, by decide,
    by decide, by decide, by decide, by decide⟩

/-- In every graph built by the constructor and `add_vertex`, `remove_vertex`, `add_edge`,
`remove_edge`, `change_cost` and the queries, for all `u`, `v`: `(u, v)` is a key of the cost
map iff `v` is in the outbound set of `u` iff `u` is in the inbound set of `v`; and the same
holds in the graph that `copy_graph` returns for such a graph, as long as nothing is done to
it. -/
theorem edge_indexes_agree (g : DirectedGraph) (hg : Reachable g) (u v : Int) :
    ((edge_key u v ∈ StdMap.keys g.costs ↔
        ∃ s, StdMap.find? u g.dict_out = some s ∧ v ∈ s) ∧
      ((∃ s, StdMap.find? u g.dict_out = some s ∧ v ∈ s) ↔
        ∃ s, StdMap.find? v g.dict_in = some s ∧ u ∈ s)) ∧
    ((edge_key u v ∈ StdMap.keys g.copy_graph.costs ↔
        ∃ s, StdMap.find? u g.copy_graph.dict_out = some s ∧ v ∈ s) ∧
      ((∃ s, StdMap.find? u g.copy_graph.dict_out = some s ∧ v ∈ s) ↔
        ∃ s, StdMap.find? v g.copy_graph.dict_in = some s ∧ u ∈ s)) := by
  obtain ⟨hw, hi⟩ := reachable_inv g hg
  have h1 := hi.edge_out u v
  have h2 := hi.edge_in u v
  refine ⟨⟨h1, h1.symm.trans h2⟩, ?_⟩
  rw [copy_graph_eq]
  simp only [mem_keys_copy_costs, mem_copy_sets_new _ _ hw.out_keys,
    mem_copy_sets_new _ _ hw.in_keys]
  have h0 : ¬ edge_key u v ∈ StdMap.keys ([] : List (Lex (Int × Int) × Int)) := by
    simp [StdMap.keys]
  exact ⟨by rw [or_iff_left h0]; exact h1, h1.symm.trans h2⟩

/-- Claim C3, evaluated on the copy of `graph_5_6` (vertices 5 and 6, edge (5,6)) after
`add_vertex(6)`: in the copy 6 is a key of the inbound map only, so it is not a vertex and
`add_vertex(6)` succeeds; the call resets the inbound set of 6, which held 5. Afterwards
`(5,6)` is a key of the cost map and 6 is in the outbound set of 5, but 5 is not in the
inbound set of 6: `copy_graph` followed by a mutation does not keep the three statements
equivalent. -/
theorem C3_copy_then_add_vertex :
    Reachable graph_5_6 ∧
    StdMap.find? 6 graph_5_6.copy_graph.dict_in = some [5] ∧
    graph_5_6.copy_graph.is_vertex_in_graph 6 = false ∧
    (graph_5_6.copy_graph.add_vertex 6).1 = .ok () ∧
    (graph_5_6.copy_graph.add_vertex 6).2 =
      { dict_out := [(0, []), (1, []), (5, [6]), (6, [])]
        dict_in := [(0, []), (1, []), (6, [])]
        costs := [(edge_key 5 6, 1)] } ∧
    edge_key 5 6 ∈ StdMap.keys (graph_5_6.copy_graph.add_vertex 6).2.costs ∧
    (∃ s, StdMap.find? 5 (graph_5_6.copy_graph.add_vertex 6).2.dict_out = some s ∧
      (6 : Int) ∈ s) ∧
    (¬ ∃ s, StdMap.find? 6 (graph_5_6.copy_graph.add_vertex 6).2.dict_in = some s ∧
      (5 : Int) ∈ s) ∧
    (graph_5_6.copy_graph.add_vertex 6).2.is_edge_in_graph 5 6 = true ∧
    ((graph_5_6.copy_graph.add_vertex 6).2.get_outbound_neighbours 5).1 = .ok [6] ∧
    ((graph_5_6.copy_graph.add_vertex 6).2.get_inbound_neighbours 6).1 = .ok [] := by
  refine ⟨reachable_graph_5_6, by decide, by decide, by decide, by decide, by decide,
    ⟨[6], by decide, by decide⟩, ?_, by decide, by decide, by decide⟩
  rintro ⟨s, hs, h5⟩
  have h : StdMap.find? 6 (graph_5_6.copy_graph.add_vertex 6).2.dict_in = some [] := by decide
  rw [h] at hs
  cases hs
  cases h5

/-- Claim C4: in every reachable graph both endpoints of every key of the cost map are
vertices; in particular after a successful `remove_vertex(x)` no key of the cost map has `x`
as an endpoint. -/
theorem C4_edge_endpoints_present (g : DirectedGraph) (hg : Reachable g) :
    (∀ k ∈ StdMap.keys g.costs,
      g.is_vertex_in_graph (ofLex k).1 = true ∧ g.is_vertex_in_graph (ofLex k).2 = true) ∧
    (∀ x, (g.remove_vertex x).1 = .ok () →
      ∀ k ∈ StdMap.keys (g.remove_vertex x).2.costs,
        (ofLex k).1 ≠ x ∧ (ofLex k).2 ≠ x ∧
        (g.remove_vertex x).2.is_vertex_in_graph (ofLex k).1 = true ∧
        (g.remove_vertex x).2.is_vertex_in_graph (ofLex k).2 = true) := by
  have hend : ∀ g : DirectedGraph, Reachable g → ∀ k ∈ StdMap.keys g.costs,
      g.is_vertex_in_graph (ofLex k).1 = true ∧ g.is_vertex_in_graph (ofLex k).2 = true := by
    intro g hg k hk
    have := (reachable_inv g hg).2.endpoints (ofLex k).1 (ofLex k).2 hk
    exact ⟨(is_vertex_iff _ _).mpr this.1, (is_vertex_iff _ _).mpr this.2⟩
  refine ⟨hend g hg, ?_⟩
  intro x hx k hk
  have hr := hend _ (Reachable.remove_vertex x hg hx) k hk
  have hne : (ofLex k).1 ≠ x ∧ (ofLex k).2 ≠ x := by
    rcases remove_vertex_cases g x with ⟨_, h⟩ | ⟨_, h⟩
    · rw [h] at hx; cases hx
    · rw [h] at hk
      have hk2 : edge_key (ofLex k).1 (ofLex k).2 ∈
          StdMap.keys (erase_touching x g.costs) := hk
      rw [mem_keys_erase_touching, not_or] at hk2
      exact hk2.1
  exact ⟨hne.1, hne.2, hr.1, hr.2⟩

/-- Witness of C4 on `sample_graph`. -/
theorem C4_edge_endpoints_present_witness :
    Reachable sample_graph ∧
    ((∀ k ∈ StdMap.keys sample_graph.costs,
      sample_graph.is_vertex_in_graph (ofLex k).1 = true ∧
      sample_graph.is_vertex_in_graph (ofLex k).2 = true) ∧
    (∀ x, (sample_graph.remove_vertex x).1 = .ok () →
      ∀ k ∈ StdMap.keys (sample_graph.remove_vertex x).2.costs,
        (ofLex k).1 ≠ x ∧ (ofLex k).2 ≠ x ∧
        (sample_graph.remove_vertex x).2.is_vertex_in_graph (ofLex k).1 = true ∧
        (sample_graph.remove_vertex x).2.is_vertex_in_graph (ofLex k).2 = true)) :=
  ⟨reachable_sample_graph, C4_edge_endpoints_present sample_graph reachable_sample_graph⟩

/-- Claim C5, evaluated on the copy of `graph_5_6` (vertices 5 and 6, edge (5,6)):
`copy_graph` returns a graph in which 5 is a key of the outbound map but not of the inbound
map, and 6 is a key of the inbound map but not of the outbound map. -/
theorem C5_copy_graph_key_sets_differ :
    Reachable graph_5_6 ∧
    graph_5_6 =
      { dict_out := [(5, [6]), (6, [])], dict_in := [(5, []), (6, [5])],
        costs := [(edge_key 5 6, 1)] } ∧
    graph_5_6.copy_graph =
      { dict_out := [(0, []), (1, []), (5, [6])], dict_in := [(0, []), (1, []), (6, [5])],
        costs := [(edge_key 5 6, 1)] } ∧
    (5 : Int) ∈ StdMap.keys graph_5_6.copy_graph.dict_out ∧
    (5 : Int) ∉ StdMap.keys graph_5_6.copy_graph.dict_in ∧
    (6 : Int) ∈ StdMap.keys graph_5_6.copy_graph.dict_in ∧
    (6 : Int) ∉ StdMap.keys graph_5_6.copy_graph.dict_out :=
  ⟨reachable_graph_5_6, by decide, by decide, by decide, by decide, by decide, by decide⟩

end DirectedGraph

namespace DirectedGraph

/-- Claim C6: on a reachable graph, a call of `add_vertex`, `remove_vertex`, `add_edge`,
`remove_edge`, `change_cost`, `get_cost_of_edge`, `get_in_degree`, `get_out_degree`,
`get_outbound_neighbours` or `get_inbound_neighbours` that throws a `GraphException` leaves
the graph equal to what it was, in all three members. -/
theorem C6_failed_call_leaves_graph (g : DirectedGraph) (hg : Reachable g) (u v c : Int) :
    ((∃ e, (g.add_vertex v).1 = .error e) → (g.add_vertex v).2 = g) ∧
    ((∃ e, (g.remove_vertex v).1 = .error e) → (g.remove_vertex v).2 = g) ∧
    ((∃ e, (g.add_edge u v c).1 = .error e) → (g.add_edge u v c).2 = g) ∧
    ((∃ e, (g.remove_edge u v).1 = .error e) → (g.remove_edge u v).2 = g) ∧
    ((∃ e, (g.change_cost u v c).1 = .error e) → (g.change_cost u v c).2 = g) ∧
    ((∃ e, (g.get_cost_of_edge u v).1 = .error e) → (g.get_cost_of_edge u v).2 = g) ∧
    ((∃ e, (g.get_in_degree v).1 = .error e) → (g.get_in_degree v).2 = g) ∧
    ((∃ e, (g.get_out_degree v).1 = .error e) → (g.get_out_degree v).2 = g) ∧
    ((∃ e, (g.get_outbound_neighbours v).1 = .error e) →
      (g.get_outbound_neighbours v).2 = g) ∧
    ((∃ e, (g.get_inbound_neighbours v).1 = .error e) →
      (g.get_inbound_neighbours v).2 = g) := by
  refine ⟨?_, ?_, ?_, ?_, ?_, ?_, ?_, ?_, ?_, ?_⟩
  · rintro ⟨e, he⟩
    rcases add_vertex_cases g v with ⟨_, h⟩ | ⟨_, h⟩
    · rw [h]
    · rw [h] at he; cases he
  · rintro ⟨e, he⟩
    rcases remove_vertex_cases g v with ⟨_, h⟩ | ⟨_, h⟩
    · rw [h]
    · rw [h] at he; cases he
  · rintro ⟨e, he⟩
    rcases add_edge_cases g u v c with ⟨_, h⟩ | ⟨_, _, _, h⟩ | ⟨_, _, _, h⟩
    · rw [h]
    · rw [h]
    · rw [h] at he; cases he
  · rintro ⟨e, he⟩
    rcases remove_edge_cases g u v with ⟨_, h⟩ | ⟨_, _, _, h⟩ | ⟨_, _, _, h⟩
    · rw [h]
    · rw [h]
    · rw [h] at he; cases he
  · rintro ⟨e, he⟩
    rcases change_cost_cases g u v c with ⟨_, h⟩ | ⟨_, _, _, h⟩ | ⟨_, _, _, h⟩
    · rw [h]
    · rw [h]
    · rw [h] at he; cases he
  · rintro ⟨e, he⟩
    unfold get_cost_of_edge at he ⊢
    cases h : g.is_edge_in_graph u v
    · simp
    · simp [h] at he
  · rintro ⟨e, he⟩
    unfold get_in_degree at he ⊢
    cases h : g.is_vertex_in_graph v
    · simp
    · simp [h] at he
  · rintro ⟨e, he⟩
    unfold get_out_degree at he ⊢
    cases h : g.is_vertex_in_graph v
    · simp
    · simp [h] at he
  · rintro ⟨e, he⟩
    unfold get_outbound_neighbours at he ⊢
    cases h : g.is_vertex_in_graph v
    · simp
    · simp [h] at he
  · rintro ⟨e, he⟩
    unfold get_inbound_neighbours at he ⊢
    cases h : g.is_vertex_in_graph v
    · simp
    · simp [h] at he

/-- Witness of C6: on `sample_graph` the call `add_edge(0, 1, 9)` throws (the edge exists) and
leaves the graph as it was. -/
theorem C6_failed_call_leaves_graph_witness :
    Reachable sample_graph ∧ (∃ e, (sample_graph.add_edge 0 1 9).1 = .error e) ∧
    (sample_graph.add_edge 0 1 9).2 = sample_graph :=
  ⟨reachable_sample_graph, ⟨.edge_already_in_graph, by decide⟩,
    (C6_failed_call_leaves_graph sample_graph reachable_sample_graph 0 1 9).2.2.1
      ⟨.edge_already_in_graph, by decide⟩⟩

/-- Claim C7: `add_edge(u, v, c)` throws iff `u` is absent or `v` is absent or the edge exists;
with an absent endpoint the exception is "Both vertices must be in the graph", and it is
"The edge is already in the graph" exactly when both endpoints are present and the edge
exists; `add_edge(u, u, c)` succeeds for a present `u` without a self-loop. -/
theorem C7_add_edge_failures (g : DirectedGraph) (u v c : Int) :
    ((∃ e, (g.add_edge u v c).1 = .error e) ↔
      (g.is_vertex_in_graph u = false ∨ g.is_vertex_in_graph v = false ∨
        g.is_edge_in_graph u v = true)) ∧
    ((g.is_vertex_in_graph u = false ∨ g.is_vertex_in_graph v = false) →
      (g.add_edge u v c).1 = .error .both_vertices_must_be_in_graph) ∧
    ((g.add_edge u v c).1 = .error .edge_already_in_graph ↔
      (g.is_vertex_in_graph u = true ∧ g.is_vertex_in_graph v = true ∧
        g.is_edge_in_graph u v = true)) ∧
    (g.is_vertex_in_graph u = true → g.is_edge_in_graph u u = false →
      (g.add_edge u u c).1 = .ok ()) ∧
    GraphException.what .both_vertices_must_be_in_graph =
      "\nError! Both vertices must be in the graph.\n" ∧
    GraphException.what .edge_already_in_graph =
      "\nError! The edge is already in the graph.\n" := by
  refine ⟨?_, ?_, ?_, ?_, rfl, rfl⟩
  · unfold add_edge
    cases h1 : g.is_vertex_in_graph u <;> cases h2 : g.is_vertex_in_graph v <;>
      cases h3 : g.is_edge_in_graph u v <;> simp
  · unfold add_edge
    cases h1 : g.is_vertex_in_graph u <;> cases h2 : g.is_vertex_in_graph v <;>
      cases h3 : g.is_edge_in_graph u v <;> simp
  · unfold add_edge
    cases h1 : g.is_vertex_in_graph u <;> cases h2 : g.is_vertex_in_graph v <;>
      cases h3 : g.is_edge_in_graph u v <;> simp
  · intro h1 h3
    unfold add_edge
    simp [h1, h3]

end DirectedGraph

namespace DirectedGraph

theorem length_eq_of_keys_eq {α : Type} (m₁ m₂ : List (Lex (Int × Int) × α))
    (h : StdMap.keys m₁ = StdMap.keys m₂) : m₁.length = m₂.length := by
  have := congrArg List.length h
  simpa [StdMap.keys] using this

/-- Claim C8: on a reachable graph with `u`, `v` present and `(u, v)` not an edge,
`add_edge(u, v, c)` succeeds; afterwards `(u, v)` is an edge of cost `c`, the outbound set of
`u` is its old set with `v` inserted, the inbound set of `v` is its old set with `u` inserted,
the sets of all other keys and all other cost entries are as before, and the keys of both
neighbour maps (the vertex set) are as before. -/
theorem C8_add_edge_effect (g : DirectedGraph) (hg : Reachable g) (u v c : Int)
    (hu : g.is_vertex_in_graph u = true) (hv : g.is_vertex_in_graph v = true)
    (he : g.is_edge_in_graph u v = false) :
    (g.add_edge u v c).1 = .ok () ∧
    (g.add_edge u v c).2.is_edge_in_graph u v = true ∧
    ((g.add_edge u v c).2.get_cost_of_edge u v).1 = .ok c ∧
    (∃ s, StdMap.find? u g.dict_out = some s ∧
      StdMap.find? u (g.add_edge u v c).2.dict_out = some (StdSet.insert v s) ∧
      ∀ y, y ∈ StdSet.insert v s ↔ y = v ∨ y ∈ s) ∧
    (∃ s, StdMap.find? v g.dict_in = some s ∧
      StdMap.find? v (g.add_edge u v c).2.dict_in = some (StdSet.insert u s) ∧
      ∀ y, y ∈ StdSet.insert u s ↔ y = u ∨ y ∈ s) ∧
    (∀ k, k ≠ u → StdMap.find? k (g.add_edge u v c).2.dict_out = StdMap.find? k g.dict_out) ∧
    (∀ k, k ≠ v → StdMap.find? k (g.add_edge u v c).2.dict_in = StdMap.find? k g.dict_in) ∧
    (∀ k, k ≠ edge_key u v →
      StdMap.find? k (g.add_edge u v c).2.costs = StdMap.find? k g.costs) ∧
    StdMap.keys (g.add_edge u v c).2.dict_out = StdMap.keys g.dict_out ∧
    StdMap.keys (g.add_edge u v c).2.dict_in = StdMap.keys g.dict_in ∧
    (∀ x, (g.add_edge u v c).2.is_vertex_in_graph x = g.is_vertex_in_graph x) := by
  obtain ⟨hw, hi⟩ := reachable_inv g hg
  have huo : u ∈ StdMap.keys g.dict_out := (is_vertex_iff g u).mp hu
  have hvo : v ∈ StdMap.keys g.dict_out := (is_vertex_iff g v).mp hv
  have hvi : v ∈ StdMap.keys g.dict_in := (hi.same_keys v).mp hvo
  obtain ⟨so, hso⟩ := (StdMap.mem_keys_iff u g.dict_out).mp huo
  obtain ⟨si, hsi⟩ := (StdMap.mem_keys_iff v g.dict_in).mp hvi
  have hko := StdMap.keys_modify_of_mem [] u (StdSet.insert v) g.dict_out hw.out_keys huo
  rcases add_edge_cases g u v c with ⟨h0, _⟩ | ⟨_, _, h0, _⟩ | ⟨_, _, _, h⟩
  · rcases h0 with h0 | h0
    · rw [hu] at h0; cases h0
    · rw [hv] at h0; cases h0
  · rw [he] at h0; cases h0
  · rw [h]
    refine ⟨rfl, ?_, ?_, ⟨so, hso, ?_, fun y => StdSet.mem_insert v y so⟩,
      ⟨si, hsi, ?_, fun y => StdSet.mem_insert u y si⟩, ?_, ?_, ?_, hko,
      StdMap.keys_modify_of_mem [] v (StdSet.insert u) g.dict_in hw.in_keys hvi, ?_⟩
    · simp [is_edge_in_graph, StdMap.find?_assign]
    · rw [get_cost_of_edge_fst]
      simp [StdMap.find?_assign]
    · simp [StdMap.find?_modify, hso]
    · simp [StdMap.find?_modify, hsi]
    · intro k hk
      simp [StdMap.find?_modify, hk]
    · intro k hk
      simp [StdMap.find?_modify, hk]
    · intro k hk
      simp [StdMap.find?_assign, hk]
    · intro x
      simp only [is_vertex_in_graph, StdMap.find?_modify]
      by_cases hx : x = u
      · subst hx; simp [hso]
      · simp [hx]

/-- Witness of C8 on `sample_graph`: adding the self-loop (2, 2). -/
theorem C8_add_edge_effect_witness :
    Reachable sample_graph ∧ sample_graph.is_vertex_in_graph 2 = true ∧
    sample_graph.is_edge_in_graph 2 2 = false ∧
    (sample_graph.add_edge 2 2 9).1 = .ok () ∧
    (sample_graph.add_edge 2 2 9).2.is_edge_in_graph 2 2 = true ∧
    ((sample_graph.add_edge 2 2 9).2.get_cost_of_edge 2 2).1 = .ok 9 :=
  ⟨reachable_sample_graph, by decide, by decide,
    (C8_add_edge_effect sample_graph reachable_sample_graph 2 2 9
      (by decide) (by decide) (by decide)).1,
    (C8_add_edge_effect sample_graph reachable_sample_graph 2 2 9
      (by decide) (by decide) (by decide)).2.1,
    (C8_add_edge_effect sample_graph reachable_sample_graph 2 2 9
      (by decide) (by decide) (by decide)).2.2.1⟩

/-- Claim C9: `remove_edge(u, v)` throws "Both vertices must be in the graph" if `u` or `v` is
absent, throws "The edge is not in the graph" if both are present and `(u, v)` is not an edge,
and otherwise succeeds; after success `(u, v)` is not an edge, the outbound set of `u` is its
old set without `v`, the inbound set of `v` is its old set without `u`, and every other edge,
cost, neighbour set and the keys of both neighbour maps are as before. -/
theorem C9_remove_edge (g : DirectedGraph) (hg : Reachable g) (u v : Int) :
    ((g.is_vertex_in_graph u = false ∨ g.is_vertex_in_graph v = false) →
      (g.remove_edge u v).1 = .error .both_vertices_must_be_in_graph) ∧
    (g.is_vertex_in_graph u = true → g.is_vertex_in_graph v = true →
      g.is_edge_in_graph u v = false →
      (g.remove_edge u v).1 = .error .edge_not_in_graph) ∧
    (g.is_vertex_in_graph u = true → g.is_vertex_in_graph v = true →
      g.is_edge_in_graph u v = true →
      (g.remove_edge u v).1 = .ok () ∧
      (g.remove_edge u v).2.is_edge_in_graph u v = false ∧
      (∃ s, StdMap.find? u g.dict_out = some s ∧
        StdMap.find? u (g.remove_edge u v).2.dict_out = some (StdSet.erase v s) ∧
        ∀ y, y ∈ StdSet.erase v s ↔ y ≠ v ∧ y ∈ s) ∧
      (∃ s, StdMap.find? v g.dict_in = some s ∧
        StdMap.find? v (g.remove_edge u v).2.dict_in = some (StdSet.erase u s) ∧
        ∀ y, y ∈ StdSet.erase u s ↔ y ≠ u ∧ y ∈ s) ∧
      (∀ k, k ≠ u →
        StdMap.find? k (g.remove_edge u v).2.dict_out = StdMap.find? k g.dict_out) ∧
      (∀ k, k ≠ v →
        StdMap.find? k (g.remove_edge u v).2.dict_in = StdMap.find? k g.dict_in) ∧
      (∀ k, k ≠ edge_key u v →
        StdMap.find? k (g.remove_edge u v).2.costs = StdMap.find? k g.costs) ∧
      (∀ a b, ¬(a = u ∧ b = v) →
        (g.remove_edge u v).2.is_edge_in_graph a b = g.is_edge_in_graph a b ∧
        ((g.remove_edge u v).2.get_cost_of_edge a b).1 = (g.get_cost_of_edge a b).1) ∧
      StdMap.keys (g.remove_edge u v).2.dict_out = StdMap.keys g.dict_out ∧
      StdMap.keys (g.remove_edge u v).2.dict_in = StdMap.keys g.dict_in ∧
      (∀ x, (g.remove_edge u v).2.is_vertex_in_graph x = g.is_vertex_in_graph x)) := by
  obtain ⟨hw, hi⟩ := reachable_inv g hg
  refine ⟨?_, ?_, ?_⟩
  · unfold remove_edge
    cases h1 : g.is_vertex_in_graph u <;> cases h2 : g.is_vertex_in_graph v <;> simp
  · intro h1 h2 h3
    unfold remove_edge
    simp [h1, h2, h3]
  · intro hu hv he
    have huo : u ∈ StdMap.keys g.dict_out := (is_vertex_iff g u).mp hu
    have hvo : v ∈ StdMap.keys g.dict_out := (is_vertex_iff g v).mp hv
    have hvi : v ∈ StdMap.keys g.dict_in := (hi.same_keys v).mp hvo
    obtain ⟨so, hso⟩ := (StdMap.mem_keys_iff u g.dict_out).mp huo
    obtain ⟨si, hsi⟩ := (StdMap.mem_keys_iff v g.dict_in).mp hvi
    have hko := StdMap.keys_modify_of_mem [] u (StdSet.erase v) g.dict_out hw.out_keys huo
    rcases remove_edge_cases g u v with ⟨h0, _⟩ | ⟨_, _, h0, _⟩ | ⟨_, _, _, h⟩
    · rcases h0 with h0 | h0
      · rw [hu] at h0; cases h0
      · rw [hv] at h0; cases h0
    · rw [he] at h0; cases h0
    · rw [h]
      have hcost : ∀ k, k ≠ edge_key u v →
          StdMap.find? k (StdMap.erase (edge_key u v) g.costs) = StdMap.find? k g.costs := by
        intro k hk
        simp [StdMap.find?_erase, hk]
      refine ⟨rfl, ?_, ⟨so, hso, ?_, fun y => StdSet.mem_erase v y so⟩,
        ⟨si, hsi, ?_, fun y => StdSet.mem_erase u y si⟩, ?_, ?_, hcost, ?_, hko,
        StdMap.keys_modify_of_mem [] v (StdSet.erase u) g.dict_in hw.in_keys hvi, ?_⟩
      · simp [is_edge_in_graph, StdMap.find?_erase]
      · simp [StdMap.find?_modify, hso]
      · simp [StdMap.find?_modify, hsi]
      · intro k hk
        simp [StdMap.find?_modify, hk]
      · intro k hk
        simp [StdMap.find?_modify, hk]
      · intro a b hab
        have hk : edge_key a b ≠ edge_key u v := fun hc => hab ((edge_key_inj a b u v).mp hc)
        constructor
        · simp only [is_edge_in_graph]
          rw [hcost _ hk]
        · rw [get_cost_of_edge_fst, get_cost_of_edge_fst]
          simp only []
          rw [hcost _ hk]
      · intro x
        simp only [is_vertex_in_graph, StdMap.find?_modify]
        by_cases hx : x = u
        · subst hx; simp [hso]
        · simp [hx]

/-- Witness of C9 on `sample_graph`: removing the edge (1, 2) succeeds and the edge is gone. -/
theorem C9_remove_edge_witness :
    Reachable sample_graph ∧ sample_graph.is_vertex_in_graph 1 = true ∧
    sample_graph.is_vertex_in_graph 2 = true ∧ sample_graph.is_edge_in_graph 1 2 = true ∧
    (sample_graph.remove_edge 1 2).1 = .ok () ∧
    (sample_graph.remove_edge 1 2).2.is_edge_in_graph 1 2 = false :=
  ⟨reachable_sample_graph, by decide, by decide, by decide,
    ((C9_remove_edge sample_graph reachable_sample_graph 1 2).2.2
      (by decide) (by decide) (by decide)).1,
    ((C9_remove_edge sample_graph reachable_sample_graph 1 2).2.2
      (by decide) (by decide) (by decide)).2.1⟩

/-- Claim C10: `change_cost(u, v, c)` throws exactly when `remove_edge(u, v)` throws, with the
same exception; on success `get_cost_of_edge(u, v)` returns `c`, both neighbour maps, the keys
of the cost map, the vertex and edge counts and the cost of every other edge are as before. -/
theorem C10_change_cost (g : DirectedGraph) (hg : Reachable g) (u v c : Int) :
    (∀ e, (g.change_cost u v c).1 = .error e ↔ (g.remove_edge u v).1 = .error e) ∧
    ((g.change_cost u v c).1 = .ok () →
      ((g.change_cost u v c).2.get_cost_of_edge u v).1 = .ok c ∧
      (g.change_cost u v c).2.dict_out = g.dict_out ∧
      (g.change_cost u v c).2.dict_in = g.dict_in ∧
      StdMap.keys (g.change_cost u v c).2.costs = StdMap.keys g.costs ∧
      (∀ x, (g.change_cost u v c).2.is_vertex_in_graph x = g.is_vertex_in_graph x) ∧
      (∀ a b, (g.change_cost u v c).2.is_edge_in_graph a b = g.is_edge_in_graph a b) ∧
      (g.change_cost u v c).2.get_nr_vertices = g.get_nr_vertices ∧
      (g.change_cost u v c).2.get_nr_edges = g.get_nr_edges ∧
      (∀ a b, ¬(a = u ∧ b = v) →
        ((g.change_cost u v c).2.get_cost_of_edge a b).1 = (g.get_cost_of_edge a b).1)) := by
  obtain ⟨hw, hi⟩ := reachable_inv g hg
  constructor
  · intro e
    unfold change_cost remove_edge
    cases h1 : g.is_vertex_in_graph u <;> cases h2 : g.is_vertex_in_graph v <;>
      cases h3 : g.is_edge_in_graph u v <;> simp
  · intro hok
    rcases change_cost_cases g u v c with ⟨_, h⟩ | ⟨_, _, _, h⟩ | ⟨_, _, he, h⟩
    · rw [h] at hok; cases hok
    · rw [h] at hok; cases hok
    · rw [h]
      have hk := (is_edge_iff g u v).mp he
      have hkeys := StdMap.keys_assign_of_mem (edge_key u v) c g.costs hw.cost_keys hk
      refine ⟨?_, rfl, rfl, hkeys, fun _ => rfl, ?_, rfl, ?_, ?_⟩
      · rw [get_cost_of_edge_fst]
        simp [StdMap.find?_assign]
      · intro a b
        simp only [is_edge_in_graph, StdMap.find?_assign]
        by_cases hab : edge_key a b = edge_key u v
        · rw [if_pos hab, hab]
          obtain ⟨c0, hc0⟩ := (StdMap.mem_keys_iff _ _).mp hk
          simp [hc0]
        · rw [if_neg hab]
      · simp only [get_nr_edges]
        rw [length_eq_of_keys_eq _ _ hkeys]
      · intro a b hab
        have hne : edge_key a b ≠ edge_key u v := fun hc => hab ((edge_key_inj a b u v).mp hc)
        rw [get_cost_of_edge_fst, get_cost_of_edge_fst]
        simp [StdMap.find?_assign, hne]

/-- Witness of C10 on `sample_graph`: changing the cost of the edge (0, 1) to 11. -/
theorem C10_change_cost_witness :
    Reachable sample_graph ∧ (sample_graph.change_cost 0 1 11).1 = .ok () ∧
    ((sample_graph.change_cost 0 1 11).2.get_cost_of_edge 0 1).1 = .ok 11 ∧
    (sample_graph.change_cost 0 1 11).2.get_nr_edges = sample_graph.get_nr_edges :=
  ⟨reachable_sample_graph, by decide,
    ((C10_change_cost sample_graph reachable_sample_graph 0 1 11).2 (by decide)).1,
    ((C10_change_cost sample_graph reachable_sample_graph 0 1 11).2
      (by decide)).2.2.2.2.2.2.2.1⟩

end DirectedGraph

/-! ## Sizes of the containers -/

namespace StdMap

variable {κ : Type} {α : Type} [LinearOrder κ]

theorem length_keys (m : List (κ × α)) : (keys m).length = m.length := by
  simp [keys]

theorem length_assign_of_not_mem (k : κ) (v : α) (m : List (κ × α)) (hk : k ∉ keys m) :
    (assign k v m).length = m.length + 1 := by
  induction m with
  | nil => rfl
  | cons p m ih =>
    rw [keys_cons] at hk
    have hne : k ≠ p.1 := fun h => hk (h ▸ List.mem_cons_self _ _)
    have hm : k ∉ keys m := fun h => hk (List.mem_cons_of_mem _ h)
    unfold assign
    split_ifs with h1
    · rfl
    · simp [ih hm]

theorem length_assign_of_mem (k : κ) (v : α) (m : List (κ × α))
    (hm : (keys m).Sorted (· < ·)) (hk : k ∈ keys m) : (assign k v m).length = m.length := by
  rw [← length_keys, keys_assign_of_mem k v m hm hk, length_keys]

theorem length_modify_of_mem (dflt : α) (k : κ) (op : α → α) (m : List (κ × α))
    (hm : (keys m).Sorted (· < ·)) (hk : k ∈ keys m) :
    (modify dflt k op m).length = m.length := by
  rw [← length_keys, keys_modify_of_mem dflt k op m hm hk, length_keys]

theorem length_erase_of_mem (k : κ) (m : List (κ × α))
    (hm : (keys m).Sorted (· < ·)) (hk : k ∈ keys m) : (erase k m).length + 1 = m.length := by
  induction m with
  | nil => simp [keys] at hk
  | cons p m ih =>
    rw [keys_cons] at hm hk
    have hp := List.sorted_cons.mp hm
    rw [erase_cons]
    by_cases h : p.1 = k
    · rw [if_pos h]
      have hnot : k ∉ keys m := fun hmem => absurd (hp.1 k hmem) (by rw [h]; exact lt_irrefl _)
      rw [erase_of_not_mem k m hnot]
      rfl
    · rw [if_neg h]
      rcases List.mem_cons.mp hk with rfl | hk
      · exact absurd rfl h
      · simp [ih hp.2 hk]

end StdMap

namespace DirectedGraph

theorem length_erase_from_all (vertex : Int) (dict : List (Int × List Int)) :
    (erase_from_all vertex dict).length = dict.length := by
  simp [erase_from_all]

theorem length_erase_touching (vertex : Int) (costs : List (Lex (Int × Int) × Int)) :
    (erase_touching vertex costs).length + cascade_erasures vertex costs = costs.length := by
  induction costs with
  | nil => rfl
  | cons it rest ih =>
    unfold erase_touching cascade_erasures
    split_ifs with h
    · simp only [List.length_cons]; omega
    · simp only [List.length_cons]; omega

/-! ### Results of the degree and neighbour queries -/

theorem out_query_fst (g : DirectedGraph) (vertex : Int) (s : List Int)
    (hs : StdMap.find? vertex g.dict_out = some s) :
    (g.get_out_degree vertex).1 = .ok (s.length : Int) ∧
    (g.get_nr_outbound_neighbours vertex).1 = .ok (s.length : Int) ∧
    (g.get_outbound_neighbours vertex).1 = .ok s := by
  have hv : g.is_vertex_in_graph vertex = true := by simp [is_vertex_in_graph, hs]
  have hi : StdMap.index [] vertex g.dict_out = (s, g.dict_out) := by
    simp [StdMap.index, hs]
  refine ⟨?_, ?_, ?_⟩
  · simp [get_out_degree, hv, hi]
  · simp [get_nr_outbound_neighbours, hv, hi]
  · simp [get_outbound_neighbours, hv, hi]

theorem in_query_fst (g : DirectedGraph) (vertex : Int) (s : List Int)
    (hv : g.is_vertex_in_graph vertex = true)
    (hs : StdMap.find? vertex g.dict_in = some s) :
    (g.get_in_degree vertex).1 = .ok (s.length : Int) ∧
    (g.get_nr_inbound_neighbours vertex).1 = .ok (s.length : Int) ∧
    (g.get_inbound_neighbours vertex).1 = .ok s := by
  have hi : StdMap.index [] vertex g.dict_in = (s, g.dict_in) := by
    simp [StdMap.index, hs]
  refine ⟨?_, ?_, ?_⟩
  · simp [get_in_degree, hv, hi]
  · simp [get_nr_inbound_neighbours, hv, hi]
  · simp [get_inbound_neighbours, hv, hi]

theorem query_absent (g : DirectedGraph) (vertex : Int)
    (hv : g.is_vertex_in_graph vertex = false) :
    (g.get_in_degree vertex).1 = .error .vertex_not_in_graph ∧
    (g.get_out_degree vertex).1 = .error .vertex_not_in_graph ∧
    (g.get_nr_inbound_neighbours vertex).1 = .error .vertex_not_in_graph ∧
    (g.get_nr_outbound_neighbours vertex).1 = .error .vertex_not_in_graph ∧
    (g.get_inbound_neighbours vertex).1 = .error .vertex_not_in_graph ∧
    (g.get_outbound_neighbours vertex).1 = .error .vertex_not_in_graph := by
  simp [get_in_degree, get_out_degree, get_nr_inbound_neighbours, get_nr_outbound_neighbours,
    get_inbound_neighbours, get_outbound_neighbours, hv]

end DirectedGraph

namespace DirectedGraph

theorem wf_sample_graph : WellFormed sample_graph :=
  (reachable_inv sample_graph reachable_sample_graph).1

theorem find?_new_dict_of_mem (n : Nat) (v : Int) (h0 : 0 ≤ v) (hn : v < n) :
    StdMap.find? v (new_dict n) = some [] := by
  obtain ⟨s, hs⟩ := (StdMap.mem_keys_iff v (new_dict n)).mp
    ((mem_keys_new_dict n v).mpr ⟨h0, hn⟩)
  rw [hs, find?_new_dict n v s hs]

/-- Claim C11: `add_vertex(v)` throws "The vertex is already in the graph" iff `v` is present
(and throws nothing else); when `v` is absent the call succeeds and afterwards `v` is a
vertex with in-degree 0 and out-degree 0, `get_nr_vertices` is larger by exactly 1, the cost
map (edge set and costs) is the same, and the neighbour sets and presence of every other
vertex are the same. -/
theorem C11_add_vertex (g : DirectedGraph) (v : Int) :
    ((g.add_vertex v).1 = .error .vertex_already_in_graph ↔ g.is_vertex_in_graph v = true) ∧
    ((∃ e, (g.add_vertex v).1 = .error e) ↔ g.is_vertex_in_graph v = true) ∧
    (g.is_vertex_in_graph v = false →
      (g.add_vertex v).1 = .ok () ∧
      (g.add_vertex v).2.is_vertex_in_graph v = true ∧
      ((g.add_vertex v).2.get_in_degree v).1 = .ok 0 ∧
      ((g.add_vertex v).2.get_out_degree v).1 = .ok 0 ∧
      (g.add_vertex v).2.get_nr_vertices = g.get_nr_vertices + 1 ∧
      (g.add_vertex v).2.costs = g.costs ∧
      (∀ a b, (g.add_vertex v).2.is_edge_in_graph a b = g.is_edge_in_graph a b) ∧
      (∀ k, k ≠ v →
        StdMap.find? k (g.add_vertex v).2.dict_out = StdMap.find? k g.dict_out ∧
        StdMap.find? k (g.add_vertex v).2.dict_in = StdMap.find? k g.dict_in) ∧
      (∀ x, x ≠ v → (g.add_vertex v).2.is_vertex_in_graph x = g.is_vertex_in_graph x)) := by
  rcases add_vertex_cases g v with ⟨hv, h⟩ | ⟨hv, h⟩
  · rw [h]
    simp [hv]
  · rw [h]
    refine ⟨by simp [hv], by simp [hv], ?_⟩
    intro _
    have hout : v ∉ StdMap.keys g.dict_out := (is_vertex_false_iff g v).mp hv
    have hfo : StdMap.find? v (StdMap.assign v ([] : List Int) g.dict_out) = some [] := by
      simp [StdMap.find?_assign]
    have hfi : StdMap.find? v (StdMap.assign v ([] : List Int) g.dict_in) = some [] := by
      simp [StdMap.find?_assign]
    have hvert : is_vertex_in_graph
        { g with
          dict_out := StdMap.assign v [] g.dict_out
          dict_in := StdMap.assign v [] g.dict_in } v = true := by
      simp [is_vertex_in_graph, hfo]
    refine ⟨rfl, hvert, ?_, ?_, ?_, rfl, fun _ _ => rfl, ?_, ?_⟩
    · exact (in_query_fst _ v [] hvert hfi).1
    · exact (out_query_fst _ v [] hfo).1
    · simp only [get_nr_vertices]
      rw [StdMap.length_assign_of_not_mem v [] g.dict_out hout]
      push_cast
      rfl
    · intro k hk
      simp [StdMap.find?_assign, hk]
    · intro x hx
      simp [is_vertex_in_graph, StdMap.find?_assign, hx]

/-- Claim C12: `remove_vertex(v)` throws "The vertex is not in the graph" iff `v` is absent
(and throws nothing else); on success `v` is no longer a vertex, every other vertex is
still present, `get_nr_vertices` is smaller by exactly 1, `v` is in no inbound or outbound
set of the graph, and `get_in_degree(v)`, `get_out_degree(v)`, `get_inbound_neighbours(v)`,
`get_outbound_neighbours(v)` throw. Stated for every graph whose maps have ascending keys,
which every reachable graph has. -/
theorem C12_remove_vertex (g : DirectedGraph) (hw : WellFormed g) (v : Int) :
    ((g.remove_vertex v).1 = .error .vertex_not_in_graph ↔ g.is_vertex_in_graph v = false) ∧
    ((∃ e, (g.remove_vertex v).1 = .error e) ↔ g.is_vertex_in_graph v = false) ∧
    (g.is_vertex_in_graph v = true →
      (g.remove_vertex v).1 = .ok () ∧
      (g.remove_vertex v).2.is_vertex_in_graph v = false ∧
      (∀ x, x ≠ v → (g.remove_vertex v).2.is_vertex_in_graph x = g.is_vertex_in_graph x) ∧
      (g.remove_vertex v).2.get_nr_vertices + 1 = g.get_nr_vertices ∧
      (∀ k s, StdMap.find? k (g.remove_vertex v).2.dict_out = some s → v ∉ s) ∧
      (∀ k s, StdMap.find? k (g.remove_vertex v).2.dict_in = some s → v ∉ s) ∧
      ((g.remove_vertex v).2.get_in_degree v).1 = .error .vertex_not_in_graph ∧
      ((g.remove_vertex v).2.get_out_degree v).1 = .error .vertex_not_in_graph ∧
      ((g.remove_vertex v).2.get_inbound_neighbours v).1 = .error .vertex_not_in_graph ∧
      ((g.remove_vertex v).2.get_outbound_neighbours v).1 = .error .vertex_not_in_graph) := by
  rcases remove_vertex_cases g v with ⟨hv, h⟩ | ⟨hv, h⟩
  · rw [h]
    simp [hv]
  · rw [h]
    refine ⟨by simp [hv], by simp [hv], ?_⟩
    intro _
    have hin : v ∈ StdMap.keys g.dict_out := (is_vertex_iff g v).mp hv
    have hgone : is_vertex_in_graph
        { dict_out := erase_from_all v (StdMap.erase v g.dict_out)
          dict_in := erase_from_all v (StdMap.erase v g.dict_in)
          costs := erase_touching v g.costs } v = false := by
      simp [is_vertex_in_graph, find?_removed_dict]
    have hq := query_absent _ v hgone
    have hnot : ∀ (dict : List (Int × List Int)) (k : Int) (s : List Int),
        StdMap.find? k (erase_from_all v (StdMap.erase v dict)) = some s → v ∉ s := by
      intro dict k s hs hmem
      have := (mem_removed_dict v k v dict).mp ⟨s, hs, hmem⟩
      exact this.1.2 rfl
    refine ⟨rfl, hgone, ?_, ?_, hnot g.dict_out, hnot g.dict_in, hq.1, hq.2.1, hq.2.2.2.2.1,
      hq.2.2.2.2.2⟩
    · intro x hx
      simp only [is_vertex_in_graph, find?_removed_dict, if_neg hx]
      cases StdMap.find? x g.dict_out <;> rfl
    · simp only [get_nr_vertices, length_erase_from_all]
      have := StdMap.length_erase_of_mem v g.dict_out hw.out_keys hin
      exact_mod_cast this

/-- Witness of C12 on `sample_graph`: removing vertex 1 leaves two vertices. -/
theorem C12_remove_vertex_witness :
    WellFormed sample_graph ∧ sample_graph.is_vertex_in_graph 1 = true ∧
    (sample_graph.remove_vertex 1).1 = .ok () ∧
    (sample_graph.remove_vertex 1).2.is_vertex_in_graph 1 = false ∧
    (sample_graph.remove_vertex 1).2.get_nr_vertices + 1 = sample_graph.get_nr_vertices :=
  ⟨wf_sample_graph, by decide,
    ((C12_remove_vertex sample_graph wf_sample_graph 1).2.2 (by decide)).1,
    ((C12_remove_vertex sample_graph wf_sample_graph 1).2.2 (by decide)).2.1,
    ((C12_remove_vertex sample_graph wf_sample_graph 1).2.2 (by decide)).2.2.2.1⟩

/-- Claim C13: for `n ≥ 0` the graph `DirectedGraph(n)` has exactly the vertices `0 .. n-1`,
`get_nr_vertices() = n`, every vertex has in-degree 0 and out-degree 0, there is no edge and
`get_nr_edges() = 0`; `DirectedGraph(0)`, the default, has three empty maps. -/
theorem C13_constructor (n : Int) (hn : 0 ≤ n) :
    (∀ v, (new n).is_vertex_in_graph v = true ↔ (0 ≤ v ∧ v < n)) ∧
    (new n).get_nr_vertices = n ∧
    (∀ v, 0 ≤ v → v < n →
      ((new n).get_in_degree v).1 = .ok 0 ∧ ((new n).get_out_degree v).1 = .ok 0) ∧
    (new n).get_nr_edges = 0 ∧
    (∀ u v, (new n).is_edge_in_graph u v = false) ∧
    new 0 = { dict_out := [], dict_in := [], costs := [] } := by
  have hcast : ((n.toNat : Nat) : Int) = n := Int.toNat_of_nonneg hn
  have hmem : ∀ v : Int, v ∈ StdMap.keys (new_dict n.toNat) ↔ (0 ≤ v ∧ v < n) := by
    intro v
    rw [mem_keys_new_dict, hcast]
  refine ⟨?_, ?_, ?_, ?_, ?_, rfl⟩
  · intro v
    rw [is_vertex_iff, new_eq]
    exact hmem v
  · rw [new_eq]
    simp only [get_nr_vertices, new_dict, List.length_map, List.length_range]
    exact hcast
  · intro v h0 hv
    have hf : StdMap.find? v (new_dict n.toNat) = some [] :=
      find?_new_dict_of_mem _ v h0 (by rw [hcast]; exact hv)
    rw [new_eq]
    have hvert : is_vertex_in_graph
        { dict_out := new_dict n.toNat, dict_in := new_dict n.toNat, costs := [] } v = true := by
      simp [is_vertex_in_graph, hf]
    exact ⟨(in_query_fst _ v [] hvert hf).1, (out_query_fst _ v [] hf).1⟩
  · rw [new_eq]
    rfl
  · intro u v
    rw [new_eq]
    rfl

/-- Witness of C13 for `n = 3`. -/
theorem C13_constructor_witness :
    (0 : Int) ≤ 3 ∧ (new 3).get_nr_vertices = 3 ∧ (new 3).get_nr_edges = 0 ∧
    (∀ v, (new 3).is_vertex_in_graph v = true ↔ (0 ≤ v ∧ v < 3)) :=
  ⟨by decide, (C13_constructor 3 (by decide)).2.1, (C13_constructor 3 (by decide)).2.2.2.1,
    (C13_constructor 3 (by decide)).1⟩

end DirectedGraph

/-! ## Sequences of calls -/

namespace DirectedGraph

theorem reachable_call (g : DirectedGraph) (hg : Reachable g) (op : Op) :
    Reachable (call g op).2 := by
  cases op with
  | get_nr_vertices => exact hg
  | get_nr_edges => exact hg
  | out_relations => exact hg
  | get_all_edges => exact hg
  | is_edge_in_graph _ _ => exact hg
  | is_vertex_in_graph _ => exact hg
  | copy_graph => exact hg
  | get_cost_of_edge u v => exact Reachable.get_cost_of_edge u v hg
  | get_in_degree v => exact Reachable.get_in_degree v hg
  | get_out_degree v => exact Reachable.get_out_degree v hg
  | get_outbound_neighbours v => exact Reachable.get_outbound_neighbours v hg
  | get_nr_outbound_neighbours v => exact Reachable.get_nr_outbound_neighbours v hg
  | get_inbound_neighbours v => exact Reachable.get_inbound_neighbours v hg
  | get_nr_inbound_neighbours v => exact Reachable.get_nr_inbound_neighbours v hg
  | add_vertex v =>
    rcases add_vertex_cases g v with ⟨_, h⟩ | ⟨_, h⟩
    · simp only [call, h]; exact hg
    · exact Reachable.add_vertex v hg (by rw [h])
  | remove_vertex v =>
    rcases remove_vertex_cases g v with ⟨_, h⟩ | ⟨_, h⟩
    · simp only [call, h]; exact hg
    · exact Reachable.remove_vertex v hg (by rw [h])
  | add_edge u v c =>
    rcases add_edge_cases g u v c with ⟨_, h⟩ | ⟨_, _, _, h⟩ | ⟨_, _, _, h⟩
    · simp only [call, h]; exact hg
    · simp only [call, h]; exact hg
    · exact Reachable.add_edge u v c hg (by rw [h])
  | remove_edge u v =>
    rcases remove_edge_cases g u v with ⟨_, h⟩ | ⟨_, _, _, h⟩ | ⟨_, _, _, h⟩
    · simp only [call, h]; exact hg
    · simp only [call, h]; exact hg
    · exact Reachable.remove_edge u v hg (by rw [h])
  | change_cost u v c =>
    rcases change_cost_cases g u v c with ⟨_, h⟩ | ⟨_, _, _, h⟩ | ⟨_, _, _, h⟩
    · simp only [call, h]; exact hg
    · simp only [call, h]; exact hg
    · exact Reachable.change_cost u v c hg (by rw [h])

theorem reachable_run (g : DirectedGraph) (hg : Reachable g) (ops : List Op) :
    Reachable (run g ops) := by
  induction ops generalizing g with
  | nil => exact hg
  | cons op rest ih => exact ih _ (reachable_call g hg op)

/-- A query leaves a reachable graph as it is. -/
theorem call_query_state (g : DirectedGraph) (hg : Reachable g) (op : Op)
    (hop : op.is_add_vertex = false ∧ op.is_remove_vertex = false ∧ op.is_add_edge = false ∧
      op.is_remove_edge = false ∧ op.is_change_cost = false) : (call g op).2 = g := by
  have hi := (reachable_inv g hg).2
  cases op with
  | get_nr_vertices => rfl
  | get_nr_edges => rfl
  | out_relations => rfl
  | get_all_edges => rfl
  | is_edge_in_graph _ _ => rfl
  | is_vertex_in_graph _ => rfl
  | copy_graph => rfl
  | get_cost_of_edge u v => exact get_cost_of_edge_state g u v
  | get_in_degree v => exact get_in_degree_state g v hi
  | get_out_degree v => exact get_out_degree_state g v
  | get_outbound_neighbours v => exact get_outbound_neighbours_state g v
  | get_nr_outbound_neighbours v => exact get_nr_outbound_neighbours_state g v
  | get_inbound_neighbours v => exact get_inbound_neighbours_state g v hi
  | get_nr_inbound_neighbours v => exact get_nr_inbound_neighbours_state g v hi
  | add_vertex v => simp [Op.is_add_vertex] at hop
  | remove_vertex v => simp [Op.is_remove_vertex] at hop
  | add_edge u v c => simp [Op.is_add_edge] at hop
  | remove_edge u v => simp [Op.is_remove_edge] at hop
  | change_cost u v c => simp [Op.is_change_cost] at hop

/-- A call that throws leaves a reachable graph as it is. -/
theorem call_failed_state (g : DirectedGraph) (hg : Reachable g) (op : Op)
    (hfail : (call g op).1 = false) : (call g op).2 = g := by
  cases op with
  | add_vertex v =>
    rcases add_vertex_cases g v with ⟨_, h⟩ | ⟨_, h⟩
    · simp only [call, h]
    · simp [call, h, Except.toBool] at hfail
  | remove_vertex v =>
    rcases remove_vertex_cases g v with ⟨_, h⟩ | ⟨_, h⟩
    · simp only [call, h]
    · simp [call, h, Except.toBool] at hfail
  | add_edge u v c =>
    rcases add_edge_cases g u v c with ⟨_, h⟩ | ⟨_, _, _, h⟩ | ⟨_, _, _, h⟩
    · simp only [call, h]
    · simp only [call, h]
    · simp [call, h, Except.toBool] at hfail
  | remove_edge u v =>
    rcases remove_edge_cases g u v with ⟨_, h⟩ | ⟨_, _, _, h⟩ | ⟨_, _, _, h⟩
    · simp only [call, h]
    · simp only [call, h]
    · simp [call, h, Except.toBool] at hfail
  | change_cost u v c =>
    rcases change_cost_cases g u v c with ⟨_, h⟩ | ⟨_, _, _, h⟩ | ⟨_, _, _, h⟩
    · simp only [call, h]
    · simp only [call, h]
    · simp [call, h, Except.toBool] at hfail
  | _ => exact call_query_state g hg _ (by simp [Op.is_add_vertex, Op.is_remove_vertex,
      Op.is_add_edge, Op.is_remove_edge, Op.is_change_cost])

end DirectedGraph

namespace DirectedGraph

theorem last_stored_agrees (u v : Int) (ops : List Op) :
    ∀ (g : DirectedGraph) (earlier : Option Int), Reachable g →
      (∀ c, StdMap.find? (edge_key u v) g.costs = some c → earlier = some c) →
      ∀ c, StdMap.find? (edge_key u v) (run g ops).costs = some c →
        last_stored_cost u v g ops earlier = some c := by
  induction ops with
  | nil =>
    intro g earlier _ h c hc
    exact h c hc
  | cons op rest ih =>
    intro g earlier hg h
    simp only [run, last_stored_cost]
    apply ih _ _ (reachable_call g hg op)
    cases op with
    | add_vertex x =>
      rcases add_vertex_cases g x with ⟨_, hx⟩ | ⟨_, hx⟩ <;> simp only [call, hx] <;> exact h
    | remove_vertex x =>
      rcases remove_vertex_cases g x with ⟨_, hx⟩ | ⟨_, hx⟩
      · simp only [call, hx]; exact h
      · simp only [call, hx]
        intro c hc
        rw [find?_erase_touching] at hc
        split_ifs at hc
        exact h c hc
    | add_edge a b c' =>
      rcases add_edge_cases g a b c' with ⟨_, hx⟩ | ⟨_, _, _, hx⟩ | ⟨_, _, _, hx⟩
      · simp only [call, hx, Except.toBool]
        simpa using h
      · simp only [call, hx, Except.toBool]
        simpa using h
      · simp only [call, hx, Except.toBool]
        intro c hc
        rw [StdMap.find?_assign] at hc
        by_cases hab : a = u ∧ b = v
        · obtain ⟨rfl, rfl⟩ := hab
          simpa using hc
        · have hne : edge_key u v ≠ edge_key a b := fun hk =>
            hab (by have := (edge_key_inj u v a b).mp hk; exact ⟨this.1.symm, this.2.symm⟩)
          rw [if_neg hne] at hc
          have := h c hc
          simp only [and_true]
          rw [if_neg hab]
          exact this
    | remove_edge a b =>
      rcases remove_edge_cases g a b with ⟨_, hx⟩ | ⟨_, _, _, hx⟩ | ⟨_, _, _, hx⟩
      · simp only [call, hx]; exact h
      · simp only [call, hx]; exact h
      · simp only [call, hx]
        intro c hc
        rw [StdMap.find?_erase] at hc
        split_ifs at hc
        exact h c hc
    | change_cost a b c' =>
      rcases change_cost_cases g a b c' with ⟨_, hx⟩ | ⟨_, _, _, hx⟩ | ⟨_, _, _, hx⟩
      · simp only [call, hx, Except.toBool]
        simpa using h
      · simp only [call, hx, Except.toBool]
        simpa using h
      · simp only [call, hx, Except.toBool]
        intro c hc
        rw [StdMap.find?_assign] at hc
        by_cases hab : a = u ∧ b = v
        · obtain ⟨rfl, rfl⟩ := hab
          simpa using hc
        · have hne : edge_key u v ≠ edge_key a b := fun hk =>
            hab (by have := (edge_key_inj u v a b).mp hk; exact ⟨this.1.symm, this.2.symm⟩)
          rw [if_neg hne] at hc
          have := h c hc
          simp only [and_true]
          rw [if_neg hab]
          exact this
    | get_nr_vertices => exact h
    | get_nr_edges => exact h
    | out_relations => exact h
    | get_all_edges => exact h
    | is_edge_in_graph _ _ => exact h
    | is_vertex_in_graph _ => exact h
    | copy_graph => exact h
    | get_cost_of_edge a b =>
      simp only [call, get_cost_of_edge_state]; exact h
    | get_in_degree x =>
      simp only [call, get_in_degree_state g x (reachable_inv g hg).2]; exact h
    | get_out_degree x =>
      simp only [call, get_out_degree_state]; exact h
    | get_outbound_neighbours x =>
      simp only [call, get_outbound_neighbours_state]; exact h
    | get_nr_outbound_neighbours x =>
      simp only [call, get_nr_outbound_neighbours_state]; exact h
    | get_inbound_neighbours x =>
      simp only [call, get_inbound_neighbours_state g x (reachable_inv g hg).2]; exact h
    | get_nr_inbound_neighbours x =>
      simp only [call, get_nr_inbound_neighbours_state g x (reachable_inv g hg).2]; exact h

/-- Claim C14: on the graph reached from `DirectedGraph(n)` by any sequence of calls,
`get_cost_of_edge(u, v)` throws, and then "The edge is not in the graph", iff
`is_edge_in_graph(u, v)` is false; that is the case whenever `u` or `v` is not a vertex; and
when `(u, v)` is an edge, the call returns the cost argument of the last successful
`add_edge(u, v, c)` or `change_cost(u, v, c)` of the sequence. -/
theorem C14_get_cost_of_edge (n : Int) (ops : List Op) (u v : Int) :
    (((run (new n) ops).get_cost_of_edge u v).1 = .error .edge_not_in_graph ↔
      (run (new n) ops).is_edge_in_graph u v = false) ∧
    ((∃ e, ((run (new n) ops).get_cost_of_edge u v).1 = .error e) ↔
      (run (new n) ops).is_edge_in_graph u v = false) ∧
    (((run (new n) ops).is_vertex_in_graph u = false ∨
        (run (new n) ops).is_vertex_in_graph v = false) →
      (run (new n) ops).is_edge_in_graph u v = false) ∧
    ((run (new n) ops).is_edge_in_graph u v = true →
      ∃ c, last_stored_cost u v (new n) ops none = some c ∧
        ((run (new n) ops).get_cost_of_edge u v).1 = .ok c) := by
  have hr : Reachable (run (new n) ops) := reachable_run _ (Reachable.new n) ops
  have hi := (reachable_inv _ hr).2
  have hfst := get_cost_of_edge_fst (run (new n) ops) u v
  refine ⟨?_, ?_, ?_, ?_⟩
  · rw [hfst, is_edge_in_graph]
    cases StdMap.find? (edge_key u v) (run (new n) ops).costs <;> simp
  · rw [hfst, is_edge_in_graph]
    cases StdMap.find? (edge_key u v) (run (new n) ops).costs <;> simp
  · intro habs
    rw [is_edge_false_iff]
    intro hk
    have := hi.endpoints u v hk
    rcases habs with h | h
    · exact (is_vertex_false_iff _ u).mp h this.1
    · exact (is_vertex_false_iff _ v).mp h this.2
  · intro he
    obtain ⟨c, hc⟩ := (StdMap.mem_keys_iff _ _).mp ((is_edge_iff _ u v).mp he)
    refine ⟨c, ?_, ?_⟩
    · apply last_stored_agrees u v ops (new n) none (Reachable.new n) _ c hc
      intro c0 hc0
      rw [new_eq] at hc0
      simp [StdMap.find?] at hc0
    · rw [hfst, hc]

/-- An instance of C14: after `sample_run` on the empty graph the edge (1,3) is gone (its
vertex 1 was removed); one call earlier its cost is 12, the value of the last `change_cost`. -/
theorem C14_get_cost_of_edge_witness :
    (run (new 0) sample_run).is_edge_in_graph 1 3 = false ∧
    (run (new 0) (sample_run.take 13)).is_edge_in_graph 1 3 = true ∧
    ∃ c, last_stored_cost 1 3 (new 0) (sample_run.take 13) none = some c ∧
      ((run (new 0) (sample_run.take 13)).get_cost_of_edge 1 3).1 = .ok c :=
  ⟨by decide, by decide,
    (C14_get_cost_of_edge 0 (sample_run.take 13) 1 3).2.2.2 (by decide)⟩

end DirectedGraph

namespace DirectedGraph

theorem card_toFinset_of_sorted (s : List Int) (hs : s.Sorted (· < ·)) :
    s.toFinset.card = s.length :=
  List.toFinset_card_of_nodup hs.nodup

/-- Claim C15: on a reachable graph the four degree queries throw "The vertex is not in the
graph" iff `v` is absent; for a present `v`, `get_out_degree(v)` and
`get_nr_outbound_neighbours(v)` return the number of `w` with `is_edge_in_graph(v, w)`, and
`get_in_degree(v)` and `get_nr_inbound_neighbours(v)` the number of `u` with
`is_edge_in_graph(u, v)`; the numbers are cardinalities of sets, so a self-loop counts once
in each. -/
theorem C15_degrees (g : DirectedGraph) (hg : Reachable g) (v : Int) :
    ((g.get_in_degree v).1 = .error .vertex_not_in_graph ↔ g.is_vertex_in_graph v = false) ∧
    ((g.get_out_degree v).1 = .error .vertex_not_in_graph ↔ g.is_vertex_in_graph v = false) ∧
    ((g.get_nr_inbound_neighbours v).1 = .error .vertex_not_in_graph ↔
      g.is_vertex_in_graph v = false) ∧
    ((g.get_nr_outbound_neighbours v).1 = .error .vertex_not_in_graph ↔
      g.is_vertex_in_graph v = false) ∧
    (g.is_vertex_in_graph v = true →
      ∃ W U : Finset Int,
        (∀ w, w ∈ W ↔ g.is_edge_in_graph v w = true) ∧
        (∀ u, u ∈ U ↔ g.is_edge_in_graph u v = true) ∧
        (g.get_out_degree v).1 = .ok (W.card : Int) ∧
        (g.get_nr_outbound_neighbours v).1 = .ok (W.card : Int) ∧
        (g.get_in_degree v).1 = .ok (U.card : Int) ∧
        (g.get_nr_inbound_neighbours v).1 = .ok (U.card : Int)) := by
  obtain ⟨hw, hi⟩ := reachable_inv g hg
  cases hv : g.is_vertex_in_graph v
  · have hq := query_absent g v hv
    simp [hq.1, hq.2.1, hq.2.2.1, hq.2.2.2.1]
  · have hvo : v ∈ StdMap.keys g.dict_out := (is_vertex_iff g v).mp hv
    have hvi : v ∈ StdMap.keys g.dict_in := (hi.same_keys v).mp hvo
    obtain ⟨so, hso⟩ := (StdMap.mem_keys_iff v g.dict_out).mp hvo
    obtain ⟨si, hsi⟩ := (StdMap.mem_keys_iff v g.dict_in).mp hvi
    have hqo := out_query_fst g v so hso
    have hqi := in_query_fst g v si hv hsi
    refine ⟨by simp [hqi.1], by simp [hqo.1], by simp [hqi.2.1], by simp [hqo.2.1], ?_⟩
    intro _
    refine ⟨so.toFinset, si.toFinset, ?_, ?_, ?_, ?_, ?_, ?_⟩
    · intro w
      rw [List.mem_toFinset, is_edge_iff, hi.edge_out v w]
      simp [hso]
    · intro u
      rw [List.mem_toFinset, is_edge_iff, hi.edge_in u v]
      simp [hsi]
    · rw [card_toFinset_of_sorted so (hw.out_sets v so hso)]; exact hqo.1
    · rw [card_toFinset_of_sorted so (hw.out_sets v so hso)]; exact hqo.2.1
    · rw [card_toFinset_of_sorted si (hw.in_sets v si hsi)]; exact hqi.1
    · rw [card_toFinset_of_sorted si (hw.in_sets v si hsi)]; exact hqi.2.1

/-- Witness of C15 on `sample_graph` and vertex 1, which has a self-loop. -/
theorem C15_degrees_witness :
    Reachable sample_graph ∧ sample_graph.is_vertex_in_graph 1 = true ∧
    (sample_graph.get_out_degree 1).1 = .ok 2 ∧ (sample_graph.get_in_degree 1).1 = .ok 2 ∧
    ∃ W U : Finset Int,
      (∀ w, w ∈ W ↔ sample_graph.is_edge_in_graph 1 w = true) ∧
      (∀ u, u ∈ U ↔ sample_graph.is_edge_in_graph u 1 = true) ∧
      (sample_graph.get_out_degree 1).1 = .ok (W.card : Int) ∧
      (sample_graph.get_nr_outbound_neighbours 1).1 = .ok (W.card : Int) ∧
      (sample_graph.get_in_degree 1).1 = .ok (U.card : Int) ∧
      (sample_graph.get_nr_inbound_neighbours 1).1 = .ok (U.card : Int) :=
  ⟨reachable_sample_graph, by decide, by decide, by decide,
    (C15_degrees sample_graph reachable_sample_graph 1).2.2.2.2 (by decide)⟩

/-- Claim C16: `is_vertex_in_graph` and `is_edge_in_graph` are total functions of the graph
and the ids (they only call `find`): for every graph and all `u`, `v`, also ids that are not
vertices, the call returns normally with a boolean and leaves the graph as it is, the
boolean being key membership in the outbound map, respectively the cost map; and on a
reachable graph `is_edge_in_graph(u, v)` is false whenever `u` or `v` is not a vertex. -/
theorem C16_existence_checks (g : DirectedGraph) (u v : Int) :
    call g (.is_vertex_in_graph v) = (true, g) ∧
    call g (.is_edge_in_graph u v) = (true, g) ∧
    (g.is_vertex_in_graph v = true ∨ g.is_vertex_in_graph v = false) ∧
    (g.is_edge_in_graph u v = true ∨ g.is_edge_in_graph u v = false) ∧
    (g.is_vertex_in_graph v = true ↔ v ∈ StdMap.keys g.dict_out) ∧
    (g.is_edge_in_graph u v = true ↔ edge_key u v ∈ StdMap.keys g.costs) ∧
    (Reachable g →
      (g.is_vertex_in_graph u = false ∨ g.is_vertex_in_graph v = false) →
      g.is_edge_in_graph u v = false) := by
  refine ⟨rfl, rfl, ?_, ?_, is_vertex_iff g v, is_edge_iff g u v, ?_⟩
  · cases g.is_vertex_in_graph v <;> simp
  · cases g.is_edge_in_graph u v <;> simp
  · intro hg habs
    have hi := (reachable_inv g hg).2
    rw [is_edge_false_iff]
    intro hk
    have := hi.endpoints u v hk
    rcases habs with h | h
    · exact (is_vertex_false_iff _ u).mp h this.1
    · exact (is_vertex_false_iff _ v).mp h this.2

/-- Witness of C16 on `sample_graph`: 7 is not a vertex, so (0, 7) is not an edge. -/
theorem C16_existence_checks_witness :
    Reachable sample_graph ∧
    (sample_graph.is_vertex_in_graph 0 = false ∨ sample_graph.is_vertex_in_graph 7 = false) ∧
    sample_graph.is_edge_in_graph 0 7 = false :=
  ⟨reachable_sample_graph, Or.inr (by decide),
    (C16_existence_checks sample_graph 0 7).2.2.2.2.2.2 reachable_sample_graph
      (Or.inr (by decide))⟩

/-- Claim C17: on a reachable graph, for a present `v` the range returned by
`get_outbound_neighbours(v)` is strictly increasing and holds exactly the `w` with
`is_edge_in_graph(v, w)`, and the one returned by `get_inbound_neighbours(v)` is strictly
increasing and holds exactly the `u` with `is_edge_in_graph(u, v)`; for an absent `v` both
throw "The vertex is not in the graph"; the keys of `out_relations()` are strictly
increasing and are exactly the vertices; the entries of `get_all_edges()` are strictly
increasing in the lexicographic order of `(from, to)` and are exactly the edges with
their costs. -/
theorem C17_enumerations (g : DirectedGraph) (hg : Reachable g) :
    (∀ v, g.is_vertex_in_graph v = true →
      ∃ l, (g.get_outbound_neighbours v).1 = .ok l ∧ l.Sorted (· < ·) ∧
        ∀ w, w ∈ l ↔ g.is_edge_in_graph v w = true) ∧
    (∀ v, g.is_vertex_in_graph v = true →
      ∃ l, (g.get_inbound_neighbours v).1 = .ok l ∧ l.Sorted (· < ·) ∧
        ∀ u, u ∈ l ↔ g.is_edge_in_graph u v = true) ∧
    (∀ v, g.is_vertex_in_graph v = false →
      (g.get_outbound_neighbours v).1 = .error .vertex_not_in_graph ∧
      (g.get_inbound_neighbours v).1 = .error .vertex_not_in_graph) ∧
    ((g.out_relations.map Prod.fst).Sorted (· < ·) ∧
      ∀ x, x ∈ g.out_relations.map Prod.fst ↔ g.is_vertex_in_graph x = true) ∧
    (g.get_all_edges.Pairwise (fun p q =>
        (ofLex p.1).1 < (ofLex q.1).1 ∨
          ((ofLex p.1).1 = (ofLex q.1).1 ∧ (ofLex p.1).2 < (ofLex q.1).2)) ∧
      ∀ a b c, (edge_key a b, c) ∈ g.get_all_edges ↔
        (g.is_edge_in_graph a b = true ∧ (g.get_cost_of_edge a b).1 = .ok c)) := by
  obtain ⟨hw, hi⟩ := reachable_inv g hg
  refine ⟨?_, ?_, ?_, ⟨hw.out_keys, fun x => (is_vertex_iff g x).symm⟩, ?_, ?_⟩
  · intro v hv
    have hvo : v ∈ StdMap.keys g.dict_out := (is_vertex_iff g v).mp hv
    obtain ⟨so, hso⟩ := (StdMap.mem_keys_iff v g.dict_out).mp hvo
    refine ⟨so, (out_query_fst g v so hso).2.2, hw.out_sets v so hso, ?_⟩
    intro w
    rw [is_edge_iff, hi.edge_out v w]
    simp [hso]
  · intro v hv
    have hvi : v ∈ StdMap.keys g.dict_in :=
      (hi.same_keys v).mp ((is_vertex_iff g v).mp hv)
    obtain ⟨si, hsi⟩ := (StdMap.mem_keys_iff v g.dict_in).mp hvi
    refine ⟨si, (in_query_fst g v si hv hsi).2.2, hw.in_sets v si hsi, ?_⟩
    intro u
    rw [is_edge_iff, hi.edge_in u v]
    simp [hsi]
  · intro v hv
    have hq := query_absent g v hv
    exact ⟨hq.2.2.2.2.2, hq.2.2.2.2.1⟩
  · have hk : (StdMap.keys g.costs).Pairwise (· < ·) := hw.cost_keys
    unfold StdMap.keys at hk
    rw [List.pairwise_map] at hk
    refine hk.imp ?_
    intro p q hpq
    exact (Prod.Lex.lt_iff (ofLex p.1) (ofLex q.1)).mp hpq
  · intro a b c
    rw [get_cost_of_edge_fst]
    constructor
    · intro hm
      have hf := StdMap.find?_of_mem (edge_key a b) c g.costs hw.cost_keys hm
      refine ⟨?_, by rw [hf]⟩
      simp [is_edge_in_graph, hf]
    · rintro ⟨_, hc⟩
      cases hf : StdMap.find? (edge_key a b) g.costs with
      | none => rw [hf] at hc; cases hc
      | some c0 =>
        rw [hf] at hc
        simp only [Except.ok.injEq] at hc
        subst hc
        exact StdMap.mem_of_find? _ _ _ hf

/-- Witness of C17 on `sample_graph`: its vertices and its edges, in order. -/
theorem C17_enumerations_witness :
    Reachable sample_graph ∧
    sample_graph.out_relations.map Prod.fst = [0, 1, 2] ∧
    sample_graph.get_all_edges =
      [(edge_key 0 1, 7), (edge_key 1 1, 3), (edge_key 1 2, -4), (edge_key 2 0, 5)] ∧
    (sample_graph.out_relations.map Prod.fst).Sorted (· < ·) ∧
    (∀ a b c, (edge_key a b, c) ∈ sample_graph.get_all_edges ↔
      (sample_graph.is_edge_in_graph a b = true ∧
        (sample_graph.get_cost_of_edge a b).1 = .ok c)) :=
  ⟨reachable_sample_graph, by decide, by decide,
    (C17_enumerations sample_graph reachable_sample_graph).2.2.2.1.1,
    (C17_enumerations sample_graph reachable_sample_graph).2.2.2.2.2⟩

end DirectedGraph

namespace DirectedGraph

/-! ### How one call changes the two counts -/

theorem nr_vertices_call (g : DirectedGraph) (hg : Reachable g) (op : Op) :
    (call g op).2.get_nr_vertices +
        ((if op.is_remove_vertex && (call g op).1 then 1 else 0 : Nat) : Int) =
      g.get_nr_vertices + ((if op.is_add_vertex && (call g op).1 then 1 else 0 : Nat) : Int) := by
  obtain ⟨hw, hi⟩ := reachable_inv g hg
  cases op with
  | add_vertex v =>
    rcases add_vertex_cases g v with ⟨_, h⟩ | ⟨hv, h⟩
    · simp [call, h, Op.is_add_vertex, Op.is_remove_vertex, Except.toBool]
    · have hout : v ∉ StdMap.keys g.dict_out := (is_vertex_false_iff g v).mp hv
      simp [call, h, Op.is_add_vertex, Op.is_remove_vertex, Except.toBool, get_nr_vertices,
        StdMap.length_assign_of_not_mem v [] g.dict_out hout]
  | remove_vertex v =>
    rcases remove_vertex_cases g v with ⟨_, h⟩ | ⟨hv, h⟩
    · simp [call, h, Op.is_add_vertex, Op.is_remove_vertex, Except.toBool]
    · have hin : v ∈ StdMap.keys g.dict_out := (is_vertex_iff g v).mp hv
      have := StdMap.length_erase_of_mem v g.dict_out hw.out_keys hin
      simp only [call, h, Op.is_add_vertex, Op.is_remove_vertex, Except.toBool, get_nr_vertices,
        length_erase_from_all]
      simp only [Bool.and_self, if_true, Bool.false_and, Bool.false_eq_true, if_false]
      exact_mod_cast this
  | add_edge u v c =>
    rcases add_edge_cases g u v c with ⟨_, h⟩ | ⟨_, _, _, h⟩ | ⟨hu, _, _, h⟩
    · simp [call, h, Op.is_add_vertex, Op.is_remove_vertex]
    · simp [call, h, Op.is_add_vertex, Op.is_remove_vertex]
    · have huo : u ∈ StdMap.keys g.dict_out := (is_vertex_iff g u).mp hu
      simp [call, h, Op.is_add_vertex, Op.is_remove_vertex, get_nr_vertices,
        StdMap.length_modify_of_mem [] u _ g.dict_out hw.out_keys huo]
  | remove_edge u v =>
    rcases remove_edge_cases g u v with ⟨_, h⟩ | ⟨_, _, _, h⟩ | ⟨hu, _, _, h⟩
    · simp [call, h, Op.is_add_vertex, Op.is_remove_vertex]
    · simp [call, h, Op.is_add_vertex, Op.is_remove_vertex]
    · have huo : u ∈ StdMap.keys g.dict_out := (is_vertex_iff g u).mp hu
      simp [call, h, Op.is_add_vertex, Op.is_remove_vertex, get_nr_vertices,
        StdMap.length_modify_of_mem [] u _ g.dict_out hw.out_keys huo]
  | change_cost u v c =>
    rcases change_cost_cases g u v c with ⟨_, h⟩ | ⟨_, _, _, h⟩ | ⟨_, _, _, h⟩ <;>
      simp [call, h, Op.is_add_vertex, Op.is_remove_vertex, get_nr_vertices]
  | _ =>
    rw [call_query_state g hg _ (by simp [Op.is_add_vertex, Op.is_remove_vertex,
      Op.is_add_edge, Op.is_remove_edge, Op.is_change_cost])]
    simp [Op.is_add_vertex, Op.is_remove_vertex]

/-- One call changes `get_nr_edges` by the edge it adds, the edge it removes and the edges
the cascade of `remove_vertex` erases. -/
theorem nr_edges_call (g : DirectedGraph) (hg : Reachable g) (op : Op) :
    (call g op).2.get_nr_edges +
        (((if op.is_remove_edge && (call g op).1 then 1 else 0 : Nat) : Int) +
          (((match op with
            | .remove_vertex vertex =>
              if (call g op).1 then cascade_erasures vertex g.costs else 0
            | _ => 0) : Nat) : Int)) =
      g.get_nr_edges + ((if op.is_add_edge && (call g op).1 then 1 else 0 : Nat) : Int) := by
  obtain ⟨hw, hi⟩ := reachable_inv g hg
  cases op with
  | add_vertex v =>
    rcases add_vertex_cases g v with ⟨_, h⟩ | ⟨_, h⟩ <;>
      simp [call, h, Op.is_add_edge, Op.is_remove_edge, get_nr_edges]
  | remove_vertex v =>
    rcases remove_vertex_cases g v with ⟨_, h⟩ | ⟨_, h⟩
    · simp [call, h, Op.is_add_edge, Op.is_remove_edge, Except.toBool]
    · have := length_erase_touching v g.costs
      simp only [call, h, Op.is_add_edge, Op.is_remove_edge, Except.toBool, get_nr_edges]
      simp only [Bool.false_and, Bool.false_eq_true, if_false, if_true, Nat.cast_zero,
        zero_add, add_zero]
      exact_mod_cast this
  | add_edge u v c =>
    rcases add_edge_cases g u v c with ⟨_, h⟩ | ⟨_, _, _, h⟩ | ⟨_, _, he, h⟩
    · simp [call, h, Op.is_add_edge, Op.is_remove_edge, Except.toBool]
    · simp [call, h, Op.is_add_edge, Op.is_remove_edge, Except.toBool]
    · have hk : edge_key u v ∉ StdMap.keys g.costs := (is_edge_false_iff g u v).mp he
      simp [call, h, Op.is_add_edge, Op.is_remove_edge, Except.toBool, get_nr_edges,
        StdMap.length_assign_of_not_mem _ c g.costs hk]
  | remove_edge u v =>
    rcases remove_edge_cases g u v with ⟨_, h⟩ | ⟨_, _, _, h⟩ | ⟨_, _, he, h⟩
    · simp [call, h, Op.is_add_edge, Op.is_remove_edge, Except.toBool]
    · simp [call, h, Op.is_add_edge, Op.is_remove_edge, Except.toBool]
    · have hk : edge_key u v ∈ StdMap.keys g.costs := (is_edge_iff g u v).mp he
      have := StdMap.length_erase_of_mem _ g.costs hw.cost_keys hk
      simp only [call, h, Op.is_add_edge, Op.is_remove_edge, Except.toBool, get_nr_edges]
      simp only [Bool.and_self, if_true, Bool.false_and, Bool.false_eq_true, if_false,
        Nat.cast_zero, add_zero]
      exact_mod_cast this
  | change_cost u v c =>
    rcases change_cost_cases g u v c with ⟨_, h⟩ | ⟨_, _, _, h⟩ | ⟨_, _, he, h⟩
    · simp [call, h, Op.is_add_edge, Op.is_remove_edge, Except.toBool]
    · simp [call, h, Op.is_add_edge, Op.is_remove_edge, Except.toBool]
    · have hk : edge_key u v ∈ StdMap.keys g.costs := (is_edge_iff g u v).mp he
      simp [call, h, Op.is_add_edge, Op.is_remove_edge, Except.toBool, get_nr_edges,
        StdMap.length_assign_of_mem _ c g.costs hw.cost_keys hk]
  | _ =>
    rw [call_query_state g hg _ (by simp [Op.is_add_vertex, Op.is_remove_vertex,
      Op.is_add_edge, Op.is_remove_edge, Op.is_change_cost])]
    simp [Op.is_add_edge, Op.is_remove_edge]

theorem nr_vertices_run (ops : List Op) : ∀ (g : DirectedGraph), Reachable g →
    (run g ops).get_nr_vertices + (count_succeeded Op.is_remove_vertex g ops : Int) =
      g.get_nr_vertices + (count_succeeded Op.is_add_vertex g ops : Int) := by
  induction ops with
  | nil => intro g _; simp [run, count_succeeded]
  | cons op rest ih =>
    intro g hg
    have h1 := ih _ (reachable_call g hg op)
    have h2 := nr_vertices_call g hg op
    simp only [run, count_succeeded, Nat.cast_add]
    linarith

theorem nr_edges_run (ops : List Op) : ∀ (g : DirectedGraph), Reachable g →
    (run g ops).get_nr_edges +
        ((count_succeeded Op.is_remove_edge g ops : Int) + (count_cascaded g ops : Int)) =
      g.get_nr_edges + (count_succeeded Op.is_add_edge g ops : Int) := by
  induction ops with
  | nil => intro g _; simp [run, count_succeeded, count_cascaded]
  | cons op rest ih =>
    intro g hg
    have h1 := ih _ (reachable_call g hg op)
    have h2 := nr_edges_call g hg op
    simp only [run, count_succeeded, count_cascaded, Nat.cast_add]
    linarith

end DirectedGraph

namespace DirectedGraph

/-- Claim C18: for `n ≥ 0` and every sequence of calls of public member functions on
`DirectedGraph(n)`, `get_nr_vertices()` at the end is `n` plus the number of `add_vertex`
calls that succeeded minus the number of `remove_vertex` calls that succeeded; on a
reachable graph a call that throws, and every call other than `add_vertex` and
`remove_vertex`, leaves `get_nr_vertices()` as it is, a successful `add_vertex` adds 1 and a
successful `remove_vertex` subtracts 1. -/
theorem C18_vertex_count (n : Int) (hn : 0 ≤ n) (ops : List Op) :
    (run (new n) ops).get_nr_vertices =
      n + (count_succeeded Op.is_add_vertex (new n) ops : Int) -
        (count_succeeded Op.is_remove_vertex (new n) ops : Int) ∧
    (∀ g, Reachable g → ∀ op,
      ((call g op).1 = false ∨ (op.is_add_vertex = false ∧ op.is_remove_vertex = false)) →
      (call g op).2.get_nr_vertices = g.get_nr_vertices) ∧
    (∀ g, Reachable g → ∀ v, (call g (.add_vertex v)).1 = true →
      (call g (.add_vertex v)).2.get_nr_vertices = g.get_nr_vertices + 1) ∧
    (∀ g, Reachable g → ∀ v, (call g (.remove_vertex v)).1 = true →
      (call g (.remove_vertex v)).2.get_nr_vertices = g.get_nr_vertices - 1) := by
  refine ⟨?_, ?_, ?_, ?_⟩
  · have h := nr_vertices_run ops (new n) (Reachable.new n)
    have hn0 : (new n).get_nr_vertices = n := by
      rw [new_eq]
      simp only [get_nr_vertices, new_dict, List.length_map, List.length_range]
      exact Int.toNat_of_nonneg hn
    rw [hn0] at h
    linarith
  · intro g hg op hop
    have h := nr_vertices_call g hg op
    rcases hop with hf | ⟨ha, hr⟩
    · simpa [hf] using h
    · simpa [ha, hr] using h
  · intro g hg v hok
    have h := nr_vertices_call g hg (.add_vertex v)
    simp only [hok, Op.is_add_vertex, Op.is_remove_vertex] at h
    simpa using h
  · intro g hg v hok
    have h := nr_vertices_call g hg (.remove_vertex v)
    simp only [hok, Op.is_add_vertex, Op.is_remove_vertex] at h
    simp only [Bool.and_self, if_true, Bool.false_and, Bool.false_eq_true, if_false,
      Nat.cast_one, Nat.cast_zero, add_zero] at h
    linarith

/-- Witness of C18: `sample_run` on the empty graph has 3 successful `add_vertex` calls and 1
successful `remove_vertex` call, and ends with 2 vertices. -/
theorem C18_vertex_count_witness :
    (0 : Int) ≤ 0 ∧ count_succeeded Op.is_add_vertex (new 0) sample_run = 3 ∧
    count_succeeded Op.is_remove_vertex (new 0) sample_run = 1 ∧
    (run (new 0) sample_run).get_nr_vertices =
      0 + (count_succeeded Op.is_add_vertex (new 0) sample_run : Int) -
        (count_succeeded Op.is_remove_vertex (new 0) sample_run : Int) :=
  ⟨le_refl 0, by decide, by decide, (C18_vertex_count 0 (le_refl 0) sample_run).1⟩

/-- Claim C19: for every sequence of calls of public member functions on a graph fresh from
the constructor (it has no edge; `DirectedGraph(0)` is the empty graph), `get_nr_edges()` at
the end is the number of `add_edge` calls that succeeded minus the number of edges removed,
these being one for each `remove_edge` call that succeeded and those erased by the cascade
of each `remove_vertex` call that succeeded; on a reachable graph `add_vertex` and
`change_cost` leave `get_nr_edges()` as it is. -/
theorem C19_edge_count (n : Int) (ops : List Op) :
    (run (new n) ops).get_nr_edges =
      (count_succeeded Op.is_add_edge (new n) ops : Int) -
        ((count_succeeded Op.is_remove_edge (new n) ops : Int) +
          (count_cascaded (new n) ops : Int)) ∧
    (∀ g, Reachable g → ∀ op, (op.is_add_vertex = true ∨ op.is_change_cost = true) →
      (call g op).2.get_nr_edges = g.get_nr_edges) := by
  refine ⟨?_, ?_⟩
  · have h := nr_edges_run ops (new n) (Reachable.new n)
    have hn0 : (new n).get_nr_edges = 0 := by
      rw [new_eq]
      rfl
    rw [hn0] at h
    linarith
  · intro g hg op hop
    have h := nr_edges_call g hg op
    cases op <;> simp [Op.is_add_vertex, Op.is_change_cost] at hop <;>
      simpa [Op.is_add_edge, Op.is_remove_edge] using h

/-- An instance of C19: `sample_run` on the empty graph has 3 successful `add_edge` calls, 1
successful `remove_edge` call and 2 edges erased by a cascade, and ends without an edge. -/
theorem C19_edge_count_witness :
    count_succeeded Op.is_add_edge (new 0) sample_run = 3 ∧
    count_succeeded Op.is_remove_edge (new 0) sample_run = 1 ∧
    count_cascaded (new 0) sample_run = 2 ∧
    (run (new 0) sample_run).get_nr_edges =
      (count_succeeded Op.is_add_edge (new 0) sample_run : Int) -
        ((count_succeeded Op.is_remove_edge (new 0) sample_run : Int) +
          (count_cascaded (new 0) sample_run : Int)) :=
  ⟨by decide, by decide, by decide, (C19_edge_count 0 sample_run).1⟩

end DirectedGraph

namespace DirectedGraph

/-- The vertices of a graph as a finite set. -/
theorem vertex_finset (g : DirectedGraph) (hw : WellFormed g) :
    ∃ V : Finset Int, (∀ v, v ∈ V ↔ g.is_vertex_in_graph v = true) ∧
      (V.card : Int) = g.get_nr_vertices := by
  refine ⟨(StdMap.keys g.dict_out).toFinset, ?_, ?_⟩
  · intro v
    rw [List.mem_toFinset, is_vertex_iff]
  · rw [card_toFinset_of_sorted _ hw.out_keys, StdMap.length_keys]
    rfl

/-- The edges of a graph as a finite set of pairs. -/
theorem edge_finset (g : DirectedGraph) (hw : WellFormed g) :
    ∃ E : Finset (Int × Int), (∀ u v, (u, v) ∈ E ↔ g.is_edge_in_graph u v = true) ∧
      (E.card : Int) = g.get_nr_edges := by
  refine ⟨((StdMap.keys g.costs).map ofLex).toFinset, ?_, ?_⟩
  · intro u v
    rw [List.mem_toFinset, is_edge_iff, List.mem_map]
    constructor
    · rintro ⟨k, hk, hkv⟩
      have : k = edge_key u v := by
        unfold edge_key
        rw [← hkv]
        rfl
      rw [← this]; exact hk
    · intro hk
      exact ⟨edge_key u v, hk, rfl⟩
  · have hnd : ((StdMap.keys g.costs).map ofLex).Nodup :=
      (List.Sorted.nodup hw.cost_keys).map ofLex.injective
    rw [List.toFinset_card_of_nodup hnd, List.length_map, StdMap.length_keys]
    rfl

theorem card_out_fiber (E : Finset (Int × Int)) (v : Int) (s : List Int)
    (hs : s.Sorted (· < ·)) (hE : ∀ w, (v, w) ∈ E ↔ w ∈ s) :
    (E.filter (fun e => e.1 = v)).card = s.length := by
  have heq : E.filter (fun e => e.1 = v) = s.toFinset.image (fun w => (v, w)) := by
    ext ⟨a, b⟩
    simp only [Finset.mem_filter, Finset.mem_image, List.mem_toFinset, Prod.mk.injEq]
    constructor
    · rintro ⟨hab, rfl⟩
      exact ⟨b, (hE b).mp hab, rfl, rfl⟩
    · rintro ⟨w, hw, rfl, rfl⟩
      exact ⟨(hE w).mpr hw, rfl⟩
  rw [heq, Finset.card_image_of_injective _ (fun a b h => (Prod.mk.inj h).2),
    card_toFinset_of_sorted s hs]

theorem card_in_fiber (E : Finset (Int × Int)) (v : Int) (s : List Int)
    (hs : s.Sorted (· < ·)) (hE : ∀ u, (u, v) ∈ E ↔ u ∈ s) :
    (E.filter (fun e => e.2 = v)).card = s.length := by
  have heq : E.filter (fun e => e.2 = v) = s.toFinset.image (fun u => (u, v)) := by
    ext ⟨a, b⟩
    simp only [Finset.mem_filter, Finset.mem_image, List.mem_toFinset, Prod.mk.injEq]
    constructor
    · rintro ⟨hab, rfl⟩
      exact ⟨a, (hE a).mp hab, rfl, rfl⟩
    · rintro ⟨u, hu, rfl, rfl⟩
      exact ⟨(hE u).mpr hu, rfl⟩
  rw [heq, Finset.card_image_of_injective _ (fun a b h => (Prod.mk.inj h).1),
    card_toFinset_of_sorted s hs]

/-- Claim C20: in every reachable graph `get_nr_vertices()` is the number of ids `v` with
`is_vertex_in_graph(v)`, `get_nr_edges()` is the number of pairs with
`is_edge_in_graph(u, v)`, every vertex has an out-degree and an in-degree, and the sum of
`get_out_degree(v)` over the vertices, like the sum of `get_in_degree(v)`, is
`get_nr_edges()`. -/
theorem C20_counts_agree (g : DirectedGraph) (hg : Reachable g) :
    ∃ (V : Finset Int) (E : Finset (Int × Int)),
      (∀ v, v ∈ V ↔ g.is_vertex_in_graph v = true) ∧
      (∀ u v, (u, v) ∈ E ↔ g.is_edge_in_graph u v = true) ∧
      (V.card : Int) = g.get_nr_vertices ∧
      (E.card : Int) = g.get_nr_edges ∧
      (∀ v ∈ V, ∃ d_out d_in,
        (g.get_out_degree v).1 = .ok d_out ∧ (g.get_in_degree v).1 = .ok d_in) ∧
      (∀ d_out : Int → Int, (∀ v ∈ V, (g.get_out_degree v).1 = .ok (d_out v)) →
        ∑ v ∈ V, d_out v = g.get_nr_edges) ∧
      (∀ d_in : Int → Int, (∀ v ∈ V, (g.get_in_degree v).1 = .ok (d_in v)) →
        ∑ v ∈ V, d_in v = g.get_nr_edges) := by
  obtain ⟨hw, hi⟩ := reachable_inv g hg
  obtain ⟨V, hV, hVc⟩ := vertex_finset g hw
  obtain ⟨E, hE, hEc⟩ := edge_finset g hw
  have hsets : ∀ v ∈ V, ∃ so si,
      StdMap.find? v g.dict_out = some so ∧ StdMap.find? v g.dict_in = some si ∧
      (g.get_out_degree v).1 = .ok (so.length : Int) ∧
      (g.get_in_degree v).1 = .ok (si.length : Int) ∧
      (E.filter (fun e => e.1 = v)).card = so.length ∧
      (E.filter (fun e => e.2 = v)).card = si.length := by
    intro v hv
    have hvert := (hV v).mp hv
    have hvo : v ∈ StdMap.keys g.dict_out := (is_vertex_iff g v).mp hvert
    have hvi : v ∈ StdMap.keys g.dict_in := (hi.same_keys v).mp hvo
    obtain ⟨so, hso⟩ := (StdMap.mem_keys_iff v g.dict_out).mp hvo
    obtain ⟨si, hsi⟩ := (StdMap.mem_keys_iff v g.dict_in).mp hvi
    refine ⟨so, si, hso, hsi, (out_query_fst g v so hso).1, (in_query_fst g v si hvert hsi).1,
      ?_, ?_⟩
    · apply card_out_fiber E v so (hw.out_sets v so hso)
      intro w
      rw [hE, is_edge_iff, hi.edge_out v w]
      simp [hso]
    · apply card_in_fiber E v si (hw.in_sets v si hsi)
      intro u
      rw [hE, is_edge_iff, hi.edge_in u v]
      simp [hsi]
  have hfst : ∀ e ∈ E, e.1 ∈ V := by
    rintro ⟨a, b⟩ he
    have := hi.endpoints a b ((is_edge_iff g a b).mp ((hE a b).mp he))
    exact (hV a).mpr ((is_vertex_iff g a).mpr this.1)
  have hsnd : ∀ e ∈ E, e.2 ∈ V := by
    rintro ⟨a, b⟩ he
    have := hi.endpoints a b ((is_edge_iff g a b).mp ((hE a b).mp he))
    exact (hV b).mpr ((is_vertex_iff g b).mpr this.2)
  refine ⟨V, E, hV, hE, hVc, hEc, ?_, ?_, ?_⟩
  · intro v hv
    obtain ⟨so, si, _, _, ho, hin, _, _⟩ := hsets v hv
    exact ⟨_, _, ho, hin⟩
  · intro d hd
    have hterm : ∀ v ∈ V, d v = ((E.filter (fun e => e.1 = v)).card : Int) := by
      intro v hv
      obtain ⟨so, si, _, _, ho, _, hc, _⟩ := hsets v hv
      have := hd v hv
      rw [ho] at this
      simp only [Except.ok.injEq] at this
      rw [hc, this]
    rw [Finset.sum_congr rfl hterm, ← Nat.cast_sum,
      ← Finset.card_eq_sum_card_fiberwise hfst]
    exact hEc
  · intro d hd
    have hterm : ∀ v ∈ V, d v = ((E.filter (fun e => e.2 = v)).card : Int) := by
      intro v hv
      obtain ⟨so, si, _, _, _, hin, _, hc⟩ := hsets v hv
      have := hd v hv
      rw [hin] at this
      simp only [Except.ok.injEq] at this
      rw [hc, this]
    rw [Finset.sum_congr rfl hterm, ← Nat.cast_sum,
      ← Finset.card_eq_sum_card_fiberwise hsnd]
    exact hEc

/-- Witness of C20 on `sample_graph`, which reports 3 vertices and 4 edges. -/
theorem C20_counts_agree_witness :
    Reachable sample_graph ∧ sample_graph.get_nr_vertices = 3 ∧
    sample_graph.get_nr_edges = 4 ∧
    ∃ (V : Finset Int) (E : Finset (Int × Int)),
      (∀ v, v ∈ V ↔ sample_graph.is_vertex_in_graph v = true) ∧
      (∀ u v, (u, v) ∈ E ↔ sample_graph.is_edge_in_graph u v = true) ∧
      (V.card : Int) = sample_graph.get_nr_vertices ∧
      (E.card : Int) = sample_graph.get_nr_edges ∧
      (∀ v ∈ V, ∃ d_out d_in,
        (sample_graph.get_out_degree v).1 = .ok d_out ∧
        (sample_graph.get_in_degree v).1 = .ok d_in) ∧
      (∀ d_out : Int → Int, (∀ v ∈ V, (sample_graph.get_out_degree v).1 = .ok (d_out v)) →
        ∑ v ∈ V, d_out v = sample_graph.get_nr_edges) ∧
      (∀ d_in : Int → Int, (∀ v ∈ V, (sample_graph.get_in_degree v).1 = .ok (d_in v)) →
        ∑ v ∈ V, d_in v = sample_graph.get_nr_edges) :=
  ⟨reachable_sample_graph, by decide, by decide,
    C20_counts_agree sample_graph reachable_sample_graph⟩

end DirectedGraph

/-! ## Round trips of the mutations -/

namespace StdMap

variable {κ : Type} {α : Type} [LinearOrder κ]

theorem assign_assign (k : κ) (v w : α) (m : List (κ × α)) :
    assign k v (assign k w m) = assign k v m := by
  induction m with
  | nil => simp [assign]
  | cons p m ih =>
    by_cases h1 : k < p.1
    · simp [assign, h1]
    · by_cases h2 : k = p.1
      · simp [assign, h1, h2]
      · simp [assign, h1, h2, ih]

theorem modify_of_find? (dflt : α) (k : κ) (op : α → α) (m : List (κ × α)) (s : α)
    (hs : find? k m = some s) : modify dflt k op m = assign k (op s) m := by
  unfold modify index
  rw [hs]

theorem modify_modify_cancel (dflt : α) (k : κ) (f g : α → α) (m : List (κ × α)) (s : α)
    (hm : (keys m).Sorted (· < ·)) (hs : find? k m = some s) (hfg : g (f s) = s) :
    modify dflt k g (modify dflt k f m) = m := by
  rw [modify_of_find? dflt k f m s hs,
    modify_of_find? dflt k g _ (f s) (by rw [find?_assign, if_pos rfl]), assign_assign, hfg,
    assign_of_find? k s m hm hs]

end StdMap

namespace DirectedGraph

/-- Claim C21: on a reachable graph with `u`, `v` present and `(u, v)` not an edge,
`add_edge(u, v, c)` and then `remove_edge(u, v)` both succeed and give back the graph, equal
in all three maps; so `(u, v)` is again not an edge and `get_nr_vertices()` is as before. -/
theorem C21_add_then_remove_edge (g : DirectedGraph) (hg : Reachable g) (u v c : Int)
    (hu : g.is_vertex_in_graph u = true) (hv : g.is_vertex_in_graph v = true)
    (he : g.is_edge_in_graph u v = false) :
    (g.add_edge u v c).1 = .ok () ∧
    ((g.add_edge u v c).2.remove_edge u v).1 = .ok () ∧
    ((g.add_edge u v c).2.remove_edge u v).2 = g ∧
    ((g.add_edge u v c).2.remove_edge u v).2.is_edge_in_graph u v = false ∧
    ((g.add_edge u v c).2.remove_edge u v).2.get_nr_vertices = g.get_nr_vertices := by
  obtain ⟨hw, hi⟩ := reachable_inv g hg
  have huo : u ∈ StdMap.keys g.dict_out := (is_vertex_iff g u).mp hu
  have hvo : v ∈ StdMap.keys g.dict_out := (is_vertex_iff g v).mp hv
  have hvi : v ∈ StdMap.keys g.dict_in := (hi.same_keys v).mp hvo
  obtain ⟨so, hso⟩ := (StdMap.mem_keys_iff u g.dict_out).mp huo
  obtain ⟨si, hsi⟩ := (StdMap.mem_keys_iff v g.dict_in).mp hvi
  have hk : edge_key u v ∉ StdMap.keys g.costs := (is_edge_false_iff g u v).mp he
  have hvso : v ∉ so := fun hmem => hk ((hi.edge_out u v).mpr ⟨so, hso, hmem⟩)
  have husi : u ∉ si := fun hmem => hk ((hi.edge_in u v).mpr ⟨si, hsi, hmem⟩)
  have hadd : g.add_edge u v c =
      (.ok (),
        { dict_in := StdMap.modify [] v (StdSet.insert u) g.dict_in
          dict_out := StdMap.modify [] u (StdSet.insert v) g.dict_out
          costs := StdMap.assign (edge_key u v) c g.costs }) := by
    rcases add_edge_cases g u v c with ⟨h0, _⟩ | ⟨_, _, h0, _⟩ | ⟨_, _, _, h⟩
    · rcases h0 with h0 | h0
      · rw [hu] at h0; cases h0
      · rw [hv] at h0; cases h0
    · rw [he] at h0; cases h0
    · exact h
  have hstate : ((g.add_edge u v c).2.remove_edge u v) = (.ok (), g) := by
    rw [hadd]
    rcases remove_edge_cases
        { dict_in := StdMap.modify [] v (StdSet.insert u) g.dict_in
          dict_out := StdMap.modify [] u (StdSet.insert v) g.dict_out
          costs := StdMap.assign (edge_key u v) c g.costs } u v with
      ⟨h0, _⟩ | ⟨_, _, h0, _⟩ | ⟨_, _, _, h⟩
    · exfalso
      simp only [is_vertex_in_graph, StdMap.find?_modify] at h0
      rcases h0 with h0 | h0
      · simp at h0
      · by_cases hvu : v = u
        · simp [hvu] at h0
        · have hv2 := hv
          simp only [is_vertex_in_graph] at hv2
          simp [hvu, hv2] at h0
    · exfalso
      simp [is_edge_in_graph, StdMap.find?_assign] at h0
    · rw [h]
      simp only [Prod.mk.injEq, true_and]
      have h1 := StdMap.modify_modify_cancel [] v (StdSet.insert u) (StdSet.erase u) g.dict_in
        si hw.in_keys hsi (StdSet.erase_insert u si husi)
      have h2 := StdMap.modify_modify_cancel [] u (StdSet.insert v) (StdSet.erase v) g.dict_out
        so hw.out_keys hso (StdSet.erase_insert v so hvso)
      have h3 := StdMap.erase_assign (edge_key u v) c g.costs hk
      simp only [h1, h2, h3]
  refine ⟨by rw [hadd], by rw [hstate], by rw [hstate], by rw [hstate]; exact he,
    by rw [hstate]⟩

/-- Witness of C21 on `sample_graph` and the pair (0, 2). -/
theorem C21_add_then_remove_edge_witness :
    Reachable sample_graph ∧ sample_graph.is_vertex_in_graph 0 = true ∧
    sample_graph.is_vertex_in_graph 2 = true ∧ sample_graph.is_edge_in_graph 0 2 = false ∧
    ((sample_graph.add_edge 0 2 9).2.remove_edge 0 2).2 = sample_graph :=
  ⟨reachable_sample_graph, by decide, by decide, by decide,
    (C21_add_then_remove_edge sample_graph reachable_sample_graph 0 2 9
      (by decide) (by decide) (by decide)).2.2.1⟩

end DirectedGraph

namespace DirectedGraph

theorem reachable_test_graph : Reachable test_graph :=
  Reachable.add_edge 2 3 6
    (Reachable.add_edge 2 1 5
      (Reachable.add_edge 1 3 8
        (Reachable.add_edge 1 2 2
          (Reachable.add_edge 0 1 7
            (Reachable.add_edge 0 0 1 (Reachable.new 5) (by decide)) (by decide))
          (by decide)) (by decide)) (by decide)) (by decide)

/-- Claim C30: on a reachable graph with `v` present, after `remove_vertex(v)` the value of
`get_nr_edges()` is its old value minus (in-degree of `v` + out-degree of `v` - `s`), where
`s` is 1 if `(v, v)` was an edge and 0 otherwise; and on the graph of the tests (vertices
0..4, six edges) removing vertex 2 takes the counts from 5 vertices and 6 edges to 4
vertices and 3 edges. -/
theorem C30_remove_vertex_edge_count (g : DirectedGraph) (hg : Reachable g) (v : Int)
    (hv : g.is_vertex_in_graph v = true) :
    (∃ d_in d_out : Int,
      (g.get_in_degree v).1 = .ok d_in ∧ (g.get_out_degree v).1 = .ok d_out ∧
      (g.remove_vertex v).2.get_nr_edges =
        g.get_nr_edges - (d_in + d_out - (if g.is_edge_in_graph v v = true then 1 else 0))) ∧
    (test_graph.get_nr_vertices = 5 ∧ test_graph.get_nr_edges = 6 ∧
      (test_graph.remove_vertex 2).1 = .ok () ∧
      (test_graph.remove_vertex 2).2.get_nr_vertices = 4 ∧
      (test_graph.remove_vertex 2).2.get_nr_edges = 3) := by
  refine ⟨?_, by decide, by decide, by decide, by decide, by decide⟩
  obtain ⟨hw, hi⟩ := reachable_inv g hg
  have hvo : v ∈ StdMap.keys g.dict_out := (is_vertex_iff g v).mp hv
  have hvi : v ∈ StdMap.keys g.dict_in := (hi.same_keys v).mp hvo
  obtain ⟨so, hso⟩ := (StdMap.mem_keys_iff v g.dict_out).mp hvo
  obtain ⟨si, hsi⟩ := (StdMap.mem_keys_iff v g.dict_in).mp hvi
  refine ⟨si.length, so.length, (in_query_fst g v si hv hsi).1, (out_query_fst g v so hso).1, ?_⟩
  -- the edge sets before and after
  obtain ⟨E, hE, hEc⟩ := edge_finset g hw
  have hok : (g.remove_vertex v).1 = .ok () := by
    rcases remove_vertex_cases g v with ⟨h0, _⟩ | ⟨_, h⟩
    · rw [hv] at h0; cases h0
    · rw [h]
  have hg' : Reachable (g.remove_vertex v).2 := Reachable.remove_vertex v hg hok
  obtain ⟨E', hE', hEc'⟩ := edge_finset _ (reachable_inv _ hg').1
  have hafter : ∀ u w, (u, w) ∈ E' ↔ (u, w) ∈ E.filter (fun e => ¬(e.1 = v ∨ e.2 = v)) := by
    intro u w
    rw [hE', Finset.mem_filter, hE, is_edge_iff, is_edge_iff]
    rcases remove_vertex_cases g v with ⟨h0, _⟩ | ⟨_, h⟩
    · rw [hv] at h0; cases h0
    · rw [h]
      show edge_key u w ∈ StdMap.keys (erase_touching v g.costs) ↔ _
      rw [mem_keys_erase_touching, and_comm]
  have hE'eq : E' = E.filter (fun e => ¬(e.1 = v ∨ e.2 = v)) := by
    ext ⟨u, w⟩
    exact hafter u w
  have hsplit := Finset.filter_card_add_filter_neg_card_eq_card (s := E)
    (fun e : Int × Int => e.1 = v ∨ e.2 = v)
  have hunion : E.filter (fun e => e.1 = v ∨ e.2 = v) =
      E.filter (fun e => e.1 = v) ∪ E.filter (fun e => e.2 = v) := Finset.filter_or _ _ E
  have hinter : (E.filter (fun e => e.1 = v) ∩ E.filter (fun e => e.2 = v)).card =
      if g.is_edge_in_graph v v = true then 1 else 0 := by
    rw [← Finset.filter_and]
    by_cases hl : g.is_edge_in_graph v v = true
    · rw [if_pos hl]
      have : E.filter (fun e => e.1 = v ∧ e.2 = v) = {(v, v)} := by
        ext ⟨a, b⟩
        simp only [Finset.mem_filter, Finset.mem_singleton, Prod.mk.injEq]
        constructor
        · rintro ⟨_, h⟩; exact h
        · rintro ⟨rfl, rfl⟩; exact ⟨(hE _ _).mpr hl, rfl, rfl⟩
      rw [this, Finset.card_singleton]
    · rw [if_neg hl]
      have : E.filter (fun e => e.1 = v ∧ e.2 = v) = ∅ := by
        ext ⟨a, b⟩
        simp only [Finset.mem_filter, Finset.not_mem_empty, iff_false, not_and]
        rintro hab rfl rfl
        exact hl ((hE _ _).mp hab)
      rw [this, Finset.card_empty]
  have hcu := Finset.card_union_add_card_inter (E.filter (fun e => e.1 = v))
    (E.filter (fun e => e.2 = v))
  have hA : (E.filter (fun e => e.1 = v)).card = so.length := by
    apply card_out_fiber E v so (hw.out_sets v so hso)
    intro w
    rw [hE, is_edge_iff, hi.edge_out v w]
    simp [hso]
  have hB : (E.filter (fun e => e.2 = v)).card = si.length := by
    apply card_in_fiber E v si (hw.in_sets v si hsi)
    intro u
    rw [hE, is_edge_iff, hi.edge_in u v]
    simp [hsi]
  rw [hunion] at hsplit
  rw [hinter, hA, hB] at hcu
  have hcard' : ((E.filter (fun e => ¬(e.1 = v ∨ e.2 = v))).card : Int) =
      (g.remove_vertex v).2.get_nr_edges := by rw [← hE'eq]; exact hEc'
  have hkey : (E.filter (fun e => ¬(e.1 = v ∨ e.2 = v))).card + (so.length + si.length) =
      E.card + (if g.is_edge_in_graph v v = true then 1 else 0) := by omega
  have hcast : (((if g.is_edge_in_graph v v = true then 1 else 0 : Nat)) : Int) =
      (if g.is_edge_in_graph v v = true then 1 else 0 : Int) := by
    split_ifs <;> simp
  have hkeyz : ((E.filter (fun e => ¬(e.1 = v ∨ e.2 = v))).card : Int) +
      ((so.length : Int) + (si.length : Int)) =
      (E.card : Int) + (if g.is_edge_in_graph v v = true then 1 else 0 : Int) := by
    rw [← hcast]
    exact_mod_cast hkey
  rw [← hcard', ← hEc]
  linarith

/-- Witness of C30 on `test_graph` and vertex 1 (in-degree 2, out-degree 2, no self-loop). -/
theorem C30_remove_vertex_edge_count_witness :
    Reachable test_graph ∧ test_graph.is_vertex_in_graph 1 = true ∧
    (test_graph.remove_vertex 1).2.get_nr_edges = 2 ∧
    ∃ d_in d_out : Int,
      (test_graph.get_in_degree 1).1 = .ok d_in ∧ (test_graph.get_out_degree 1).1 = .ok d_out ∧
      (test_graph.remove_vertex 1).2.get_nr_edges =
        test_graph.get_nr_edges -
          (d_in + d_out - (if test_graph.is_edge_in_graph 1 1 = true then 1 else 0)) :=
  ⟨reachable_test_graph, by decide, by decide,
    (C30_remove_vertex_edge_count test_graph reachable_test_graph 1 (by decide)).1⟩

end DirectedGraph

/-! ## The random graph generator -/

theorem wrap_int32_of_fits (x : Int) (h0 : -2147483648 ≤ x) (h1 : x < 2147483648) :
    wrap_int32 x = x := by
  unfold wrap_int32
  omega

theorem mul_pred_nonneg (n : Int) (h : 0 ≤ n) : 0 ≤ n * (n - 1) := by
  rcases eq_or_lt_of_le h with h0 | h0
  · rw [← h0]; simp
  · exact mul_nonneg h (by omega)

/-- The `int` bound test agrees with the exact one as long as the product fits, which it does
for `nr_vertices ≤ 46341`. -/
theorem bound_test_exact (n : Int) (h0 : 0 ≤ n) (h1 : n ≤ 46341) :
    wrap_int32 (n * (n - 1)) = n * (n - 1) := by
  apply wrap_int32_of_fits
  · have := mul_pred_nonneg n h0
    omega
  · nlinarith

namespace DirectedGraph

theorem sampling_loop_ok (rand : Nat → Nat) (nr_vertices : Int) :
    ∀ (fuel next : Nat) (nr_edges : Int) (g g' : DirectedGraph) (draws : Nat),
      Reachable g →
      sampling_loop rand nr_vertices fuel next nr_edges g = some (.ok g', draws) →
      Reachable g' ∧
      StdMap.keys g'.dict_out = StdMap.keys g.dict_out ∧
      g'.get_nr_edges = g.get_nr_edges + nr_edges ∧
      ((∀ k c, StdMap.find? k g.costs = some c → -100 ≤ c ∧ c < 100) →
        ∀ k c, StdMap.find? k g'.costs = some c → -100 ≤ c ∧ c < 100) := by
  intro fuel
  induction fuel with
  | zero =>
    intro next nr_edges g g' draws hg h
    unfold sampling_loop at h
    split_ifs at h with h0
    simp only [Option.some.injEq, Prod.mk.injEq, Except.ok.injEq] at h
    obtain ⟨rfl, _⟩ := h
    exact ⟨hg, rfl, by rw [h0]; simp, fun hc => hc⟩
  | succ fuel ih =>
    intro next nr_edges g g' draws hg h
    unfold sampling_loop at h
    by_cases h0 : nr_edges = 0
    · simp only [h0, if_true, Option.some.injEq, Prod.mk.injEq, Except.ok.injEq] at h
      obtain ⟨rfl, _⟩ := h
      exact ⟨hg, rfl, by rw [h0]; simp, fun hc => hc⟩
    · simp only [h0, if_false] at h
      cases hedge : g.is_edge_in_graph (Int.tmod (rand next) nr_vertices)
          (Int.tmod (rand (next + 1)) nr_vertices)
      · -- the sampled pair is not an edge: `add_edge` is called
        simp only [hedge, Bool.not_false, if_true] at h
        obtain ⟨hw, hi⟩ := reachable_inv g hg
        rcases add_edge_cases g (Int.tmod (rand next) nr_vertices)
            (Int.tmod (rand (next + 1)) nr_vertices)
            (Int.tmod (rand (next + 2)) 200 - 100) with
          ⟨_, hx⟩ | ⟨_, _, _, hx⟩ | ⟨hu, _, he, hx⟩
        · simp only [hx] at h
          cases h
        · simp only [hx] at h
          cases h
        · simp only [hx] at h
          have hok : (g.add_edge (Int.tmod (rand next) nr_vertices)
              (Int.tmod (rand (next + 1)) nr_vertices)
              (Int.tmod (rand (next + 2)) 200 - 100)).1 = .ok () := by rw [hx]
          have hr := Reachable.add_edge _ _ _ hg hok
          rw [hx] at hr
          obtain ⟨h1', h2', h3', h4'⟩ := ih _ _ _ _ _ hr h
          have huo := (is_vertex_iff g _).mp hu
          have hk := (is_edge_false_iff g _ _).mp he
          refine ⟨h1', ?_, ?_, ?_⟩
          · rw [h2']
            exact StdMap.keys_modify_of_mem [] _ _ g.dict_out hw.out_keys huo
          · rw [h3']
            simp only [get_nr_edges]
            rw [StdMap.length_assign_of_not_mem _ _ g.costs hk]
            push_cast
            ring
          · intro hc
            apply h4'
            intro k c hkc
            simp only [StdMap.find?_assign] at hkc
            split_ifs at hkc with hkk
            · simp only [Option.some.injEq] at hkc
              have hlo := Int.tmod_nonneg (200 : Int) (Int.ofNat_nonneg (rand (next + 2)))
              have hhi := Int.tmod_lt_of_pos (rand (next + 2) : Int)
                (by decide : (0 : Int) < 200)
              omega
            · exact hc k c hkc
      · -- the sampled pair is an edge already: nothing is added
        simp only [hedge, Bool.not_true, Bool.false_eq_true, if_false] at h
        exact ih _ _ _ _ _ hg h

/-- Claim C26: for 32-bit `int` arguments with `nr_vertices < 0`, or `nr_edges < 0`, or
`nr_edges > nr_vertices * (nr_vertices - 1)`, `generate_random_graph` throws a
`GraphException` for every sequence of `rand()` values and every bound on the number of loop
iterations (also 0), having called `rand()` 0 times; in particular for `(5, 25)` and
`(-7, -8)`. -/
theorem C26_rejected_requests (rand : Nat → Nat) (fuel : Nat) (nr_vertices nr_edges : Int)
    (hv : -2147483648 ≤ nr_vertices ∧ nr_vertices < 2147483648)
    (he : -2147483648 ≤ nr_edges ∧ nr_edges < 2147483648)
    (hbad : nr_vertices < 0 ∨ nr_edges < 0 ∨ nr_edges > nr_vertices * (nr_vertices - 1)) :
    (∃ e, generate_random_graph rand fuel nr_vertices nr_edges = some (.error e, 0)) ∧
    ((nr_vertices < 0 ∨ nr_edges < 0) →
      generate_random_graph rand fuel nr_vertices nr_edges =
        some (.error .nr_must_be_positive, 0)) ∧
    (¬(nr_vertices < 0 ∨ nr_edges < 0) →
      generate_random_graph rand fuel nr_vertices nr_edges = some (.error .too_many_edges, 0)) ∧
    generate_random_graph rand fuel 5 25 = some (.error .too_many_edges, 0) ∧
    generate_random_graph rand fuel (-7) (-8) = some (.error .nr_must_be_positive, 0) := by
  have hneg : (nr_vertices < 0 ∨ nr_edges < 0) →
      generate_random_graph rand fuel nr_vertices nr_edges =
        some (.error .nr_must_be_positive, 0) := by
    intro h
    unfold generate_random_graph
    rw [if_pos h]
  have hmany : ¬(nr_vertices < 0 ∨ nr_edges < 0) →
      generate_random_graph rand fuel nr_vertices nr_edges =
        some (.error .too_many_edges, 0) := by
    intro h
    have hgt : nr_edges > nr_vertices * (nr_vertices - 1) := by
      rcases hbad with h1 | h1 | h1
      · exact absurd (Or.inl h1) h
      · exact absurd (Or.inr h1) h
      · exact h1
    have hv0 : 0 ≤ nr_vertices := by
      by_contra hc; exact h (Or.inl (not_le.mp hc))
    have hp := mul_pred_nonneg nr_vertices hv0
    have hwrap : wrap_int32 (nr_vertices * (nr_vertices - 1)) =
        nr_vertices * (nr_vertices - 1) :=
      wrap_int32_of_fits _ (by omega) (by omega)
    unfold generate_random_graph
    rw [if_neg h, hwrap, if_pos hgt]
  refine ⟨?_, hneg, hmany, ?_, ?_⟩
  · by_cases h : nr_vertices < 0 ∨ nr_edges < 0
    · exact ⟨_, hneg h⟩
    · exact ⟨_, hmany h⟩
  · unfold generate_random_graph
    rw [if_neg (by decide), if_pos (by decide)]
  · unfold generate_random_graph
    rw [if_pos (by decide)]

/-- Witness of C26 for the request `(5, 25)` of the tests. -/
theorem C26_rejected_requests_witness :
    ((-2147483648 : Int) ≤ 5 ∧ (5 : Int) < 2147483648) ∧
    ((-2147483648 : Int) ≤ 25 ∧ (25 : Int) < 2147483648) ∧
    ((5 : Int) < 0 ∨ (25 : Int) < 0 ∨ (25 : Int) > 5 * (5 - 1)) ∧
    ∃ e, generate_random_graph sample_rand 0 5 25 = some (.error e, 0) :=
  ⟨by decide, by decide, by decide,
    (C26_rejected_requests sample_rand 0 5 25 (by decide) (by decide) (by decide)).1⟩

/-- Claim C27: with `rand()` an arbitrary sequence of non-negative integers, whenever
`generate_random_graph(nr_vertices, nr_edges)` returns a graph, that graph has exactly the
vertices `0 .. nr_vertices-1`, exactly `nr_edges` edges, and every edge cost `c` satisfies
`-100 ≤ c < 100`. -/
theorem C27_generated_graph (rand : Nat → Nat) (fuel : Nat) (nr_vertices nr_edges : Int)
    (g : DirectedGraph) (draws : Nat)
    (h : generate_random_graph rand fuel nr_vertices nr_edges = some (.ok g, draws)) :
    (∀ v, g.is_vertex_in_graph v = true ↔ (0 ≤ v ∧ v < nr_vertices)) ∧
    g.get_nr_vertices = nr_vertices ∧
    g.get_nr_edges = nr_edges ∧
    (∀ a b c, (g.get_cost_of_edge a b).1 = .ok c → -100 ≤ c ∧ c < 100) := by
  unfold generate_random_graph at h
  split_ifs at h with h1 h2
  · cases h
  · cases h
  have hv0 : 0 ≤ nr_vertices := by
    by_contra hc; exact h1 (Or.inl (not_le.mp hc))
  obtain ⟨_, hkeys, hedges, hcosts⟩ :=
    sampling_loop_ok rand nr_vertices fuel 0 nr_edges _ g draws (Reachable.new nr_vertices) h
  have hcast : ((nr_vertices.toNat : Nat) : Int) = nr_vertices := Int.toNat_of_nonneg hv0
  rw [new_eq] at hkeys hedges hcosts
  refine ⟨?_, ?_, ?_, ?_⟩
  · intro v
    rw [is_vertex_iff, hkeys, mem_keys_new_dict, hcast]
  · simp only [get_nr_vertices]
    rw [← StdMap.length_keys, hkeys, StdMap.length_keys]
    simp only [new_dict, List.length_map, List.length_range]
    exact hcast
  · rw [hedges]
    simp [get_nr_edges]
  · intro a b c hc
    rw [get_cost_of_edge_fst] at hc
    cases hf : StdMap.find? (edge_key a b) g.costs with
    | none => rw [hf] at hc; cases hc
    | some c0 =>
      rw [hf] at hc
      simp only [Except.ok.injEq] at hc
      subst hc
      exact hcosts (fun k c hk => by simp [StdMap.find?] at hk) _ _ hf

/-- Witness of C27: with the values of `sample_rand` the request `(3, 2)` returns after 9
calls of `rand()`. -/
theorem C27_generated_graph_witness :
    generate_random_graph sample_rand 10 3 2 =
      some (.ok
        { dict_out := [(0, [1]), (1, []), (2, [2])]
          dict_in := [(0, []), (1, [0]), (2, [2])]
          costs := [(edge_key 0 1, -50), (edge_key 2 2, 99)] }, 9) ∧
    (∀ v, is_vertex_in_graph
        { dict_out := [(0, [1]), (1, []), (2, [2])]
          dict_in := [(0, []), (1, [0]), (2, [2])]
          costs := [(edge_key 0 1, -50), (edge_key 2 2, 99)] } v = true ↔
      (0 ≤ v ∧ v < 3)) :=
  ⟨by decide, (C27_generated_graph sample_rand 10 3 2 _ 9 (by decide)).1⟩

/-- Claim C28, evaluated at `(65536, 5)`: the request satisfies the exact bound
(`5 ≤ 65536 * 65535`), the `int` product wraps to `-65536`, and `generate_random_graph`
throws "Too many edges given" for every sequence of `rand()` values. -/
theorem C28_bound_test_overflows :
    ((0 : Int) ≤ 65536 ∧ (65536 : Int) < 2147483648) ∧
    ((0 : Int) ≤ 5 ∧ (5 : Int) < 2147483648) ∧
    (5 : Int) ≤ 65536 * (65536 - 1) ∧
    wrap_int32 (65536 * (65536 - 1)) = -65536 ∧
    ∀ (rand : Nat → Nat) (fuel : Nat),
      generate_random_graph rand fuel 65536 5 = some (.error .too_many_edges, 0) := by
  refine ⟨by decide, by decide, by decide, by decide, ?_⟩
  intro rand fuel
  unfold generate_random_graph
  rw [if_neg (by decide), if_pos (by decide)]

end DirectedGraph

/-! ## Characters, numbers and lines -/

namespace Cpp

theorem digit_char_facts (d : Nat) (hd : d < 10) :
    (digit_char d).toNat = 48 + d ∧ isdigit (digit_char d) = true := by
  interval_cases d <;> exact ⟨by decide, by decide⟩

theorem not_isspace_of_isdigit (c : Char) (h : isdigit c = true) : isspace c = false := by
  simp only [isdigit, Bool.and_eq_true, decide_eq_true_eq] at h
  have hne : ∀ k : Nat, k < 48 → c ≠ Char.ofNat k := by
    intro k hk hc
    have : c.toNat = (Char.ofNat k).toNat := by rw [hc]
    have hk2 : (Char.ofNat k).toNat = k := by
      interval_cases k <;> decide
    omega
  have h1 := hne 32 (by decide)
  have h2 := hne 9 (by decide)
  have h3 := hne 10 (by decide)
  have h4 := hne 11 (by decide)
  have h5 := hne 12 (by decide)
  have h6 := hne 13 (by decide)
  have e1 : (' ' : Char) = Char.ofNat 32 := by decide
  have e2 : ('\t' : Char) = Char.ofNat 9 := by decide
  have e3 : ('\n' : Char) = Char.ofNat 10 := by decide
  have e6 : ('\r' : Char) = Char.ofNat 13 := by decide
  simp only [isspace, e1, e2, e3, e6, Bool.or_eq_false_iff, decide_eq_false_iff_not]
  exact ⟨⟨⟨⟨⟨h1, h2⟩, h3⟩, h4⟩, h5⟩, h6⟩

theorem nat_to_chars_fuel_digits (fuel n : Nat) :
    ∀ c ∈ nat_to_chars_fuel fuel n, isdigit c = true := by
  induction fuel generalizing n with
  | zero => intro c hc; simp [nat_to_chars_fuel] at hc
  | succ fuel ih =>
    intro c hc
    unfold nat_to_chars_fuel at hc
    split_ifs at hc with h
    · simp only [List.mem_singleton] at hc
      rw [hc]
      exact (digit_char_facts n h).2
    · rcases List.mem_append.mp hc with hc | hc
      · exact ih _ c hc
      · simp only [List.mem_singleton] at hc
        rw [hc]
        exact (digit_char_facts _ (Nat.mod_lt _ (by decide))).2

theorem nat_to_chars_fuel_ne_nil (fuel n : Nat) : nat_to_chars_fuel (fuel + 1) n ≠ [] := by
  unfold nat_to_chars_fuel
  split_ifs <;> simp

/-- The value `strtol` accumulates over a run of digits. -/
theorem digits_value (fuel n : Nat) (h : n < fuel) :
    (nat_to_chars_fuel fuel n).foldl (fun acc d => 10 * acc + ((d.toNat : Int) - 48)) 0 =
      (n : Int) := by
  induction fuel generalizing n with
  | zero => omega
  | succ fuel ih =>
    unfold nat_to_chars_fuel
    split_ifs with h10
    · simp only [List.foldl_cons, List.foldl_nil, (digit_char_facts n h10).1]
      push_cast
      ring
    · have hlt : n / 10 < fuel := by omega
      rw [List.foldl_append, ih _ hlt]
      simp only [List.foldl_cons, List.foldl_nil,
        (digit_char_facts _ (Nat.mod_lt n (by decide : 0 < 10))).1]
      push_cast
      omega

theorem nat_to_chars_digits (n : Nat) : ∀ c ∈ nat_to_chars n, isdigit c = true :=
  nat_to_chars_fuel_digits _ n

theorem nat_to_chars_ne_nil (n : Nat) : nat_to_chars n ≠ [] :=
  nat_to_chars_fuel_ne_nil n n

theorem nat_to_chars_value (n : Nat) :
    (nat_to_chars n).foldl (fun acc d => 10 * acc + ((d.toNat : Int) - 48)) 0 = (n : Int) :=
  digits_value _ n (Nat.lt_succ_self n)

theorem takeWhile_eq_self {α : Type} (p : α → Bool) (l : List α) (h : ∀ a ∈ l, p a = true) :
    l.takeWhile p = l := by
  induction l with
  | nil => rfl
  | cons a l ih =>
    rw [List.takeWhile_cons, h a (List.mem_cons_self _ _),
      ih (fun b hb => h b (List.mem_cons_of_mem _ hb))]
    rfl

theorem dropWhile_eq_nil {α : Type} (p : α → Bool) (l : List α) (h : ∀ a ∈ l, p a = true) :
    l.dropWhile p = [] := by
  induction l with
  | nil => rfl
  | cons a l ih =>
    rw [List.dropWhile_cons, h a (List.mem_cons_self _ _)]
    exact ih (fun b hb => h b (List.mem_cons_of_mem _ hb))

theorem to_string_no_space (x : Int) : ∀ c ∈ to_string x, isspace c = false := by
  intro c hc
  unfold to_string at hc
  split_ifs at hc
  · rcases List.mem_cons.mp hc with rfl | hc
    · decide
    · exact not_isspace_of_isdigit c (nat_to_chars_digits _ c hc)
  · exact not_isspace_of_isdigit c (nat_to_chars_digits _ c hc)

theorem to_string_ne_nil (x : Int) : to_string x ≠ [] := by
  unfold to_string
  split_ifs
  · simp
  · exact nat_to_chars_ne_nil _

theorem parse_int_to_string (x : Int) : parse_int (to_string x) = some x := by
  have hd := nat_to_chars_digits x.natAbs
  have hne := nat_to_chars_ne_nil x.natAbs
  have hval := nat_to_chars_value x.natAbs
  have htake := takeWhile_eq_self isdigit _ hd
  unfold to_string
  by_cases hx : x < 0
  · rw [if_pos hx]
    have hdrop : ('-' :: nat_to_chars x.natAbs).dropWhile isspace =
        '-' :: nat_to_chars x.natAbs := by
      rw [List.dropWhile_cons]
      rfl
    unfold parse_int
    rw [hdrop]
    simp only [true_or, if_true, htake, decide_True]
    have hemp : (nat_to_chars x.natAbs).isEmpty = false := by
      cases hl : nat_to_chars x.natAbs with
      | nil => exact absurd hl hne
      | cons _ _ => rfl
    rw [hemp, hval]
    simp only [Bool.false_eq_true, if_false, if_true]
    congr 1
    omega
  · rw [if_neg hx]
    cases hl : nat_to_chars x.natAbs with
    | nil => exact absurd hl hne
    | cons c rest =>
      have hc : isdigit c = true := hd c (by rw [hl]; exact List.mem_cons_self _ _)
      have hcs : isspace c = false := not_isspace_of_isdigit c hc
      have hminus : c ≠ '-' := by
        intro h; rw [h] at hc; revert hc; decide
      have hplus : c ≠ '+' := by
        intro h; rw [h] at hc; revert hc; decide
      have hdrop : (c :: rest).dropWhile isspace = c :: rest := by
        rw [List.dropWhile_cons, hcs]
        rfl
      unfold parse_int
      rw [hdrop]
      rw [hl] at htake hval
      simp only [hminus, hplus, or_self, if_false, htake, decide_False, List.isEmpty_cons,
        Bool.false_eq_true, hval]
      congr 1
      omega

theorem to_string_injective (x y : Int) (h : to_string x = to_string y) : x = y := by
  have hx := parse_int_to_string x
  rw [h, parse_int_to_string y] at hx
  exact (Option.some.inj hx).symm

theorem stoi_to_string (x : Int) (h0 : -2147483648 ≤ x) (h1 : x ≤ 2147483647) :
    stoi (to_string x) = .ok x := by
  unfold stoi
  rw [parse_int_to_string]
  simp only
  rw [if_neg (by omega)]

/-- Extracting a word that is followed by nothing or by white space. -/
theorem extract_word (w rest : List Char) (hw : w ≠ [])
    (hns : ∀ c ∈ w, isspace c = false)
    (hrest : rest = [] ∨ ∃ c r, rest = c :: r ∧ isspace c = true) :
    extract (w ++ rest) = (some w, rest) := by
  cases w with
  | nil => exact absurd rfl hw
  | cons c w' =>
    have hc : isspace c = false := hns c (List.mem_cons_self _ _)
    have hdrop : ((c :: w') ++ rest).dropWhile isspace = (c :: w') ++ rest := by
      rw [List.cons_append, List.dropWhile_cons, hc]
      rfl
    unfold extract
    rw [hdrop]
    simp only [List.cons_append]
    have hall : ∀ a ∈ c :: w', (fun x => !isspace x) a = true := by
      intro a ha
      simp [hns a ha]
    have ht : ((c :: w') ++ rest).takeWhile (fun x => !isspace x) = c :: w' := by
      rcases hrest with rfl | ⟨d, r, rfl, hd⟩
      · rw [List.append_nil]
        exact takeWhile_eq_self _ _ hall
      · rw [List.takeWhile_append_of_pos hall, List.takeWhile_cons]
        simp [hd]
    have hd : ((c :: w') ++ rest).dropWhile (fun x => !isspace x) = rest := by
      rcases hrest with rfl | ⟨d, r, rfl, hd⟩
      · rw [List.append_nil]
        exact dropWhile_eq_nil _ _ hall
      · rw [List.dropWhile_append_of_pos hall, List.dropWhile_cons]
        simp [hd]
    rw [List.cons_append] at ht hd
    rw [ht, hd]

theorem getlines_aux_line (l rest current : List Char) (hl : ∀ c ∈ l, c ≠ '\n') :
    getlines_aux (l ++ '\n' :: rest) current = (current ++ l) :: getlines_aux rest [] := by
  induction l generalizing current with
  | nil => simp [getlines_aux]
  | cons c l ih =>
    have hc : c ≠ '\n' := hl c (List.mem_cons_self _ _)
    rw [List.cons_append, getlines_aux, if_neg hc,
      ih _ (fun d hd => hl d (List.mem_cons_of_mem _ hd))]
    simp

theorem getlines_flatten (ls : List (List Char)) (hls : ∀ l ∈ ls, ∀ c ∈ l, c ≠ '\n') :
    getlines (ls.map (fun l => l ++ ['\n'])).flatten = ls := by
  unfold getlines
  induction ls with
  | nil => rfl
  | cons l ls ih =>
    rw [List.map_cons, List.flatten_cons, List.append_assoc, List.singleton_append,
      getlines_aux_line l _ [] (hls l (List.mem_cons_self _ _)),
      ih (fun m hm => hls m (List.mem_cons_of_mem _ hm))]
    rfl

end Cpp

/-! ## What the loader does with a well-formed line -/

theorem isspace_space : Cpp.isspace ' ' = true := by decide

theorem filter_isspace_to_string (x : Int) : (Cpp.to_string x).filter Cpp.isspace = [] := by
  apply List.filter_eq_nil_iff.mpr
  intro c hc
  rw [Cpp.to_string_no_space x c hc]
  simp

theorem extract_skip (c : Char) (s : List Char) (hc : Cpp.isspace c = true) :
    Cpp.extract (c :: s) = Cpp.extract s := by
  unfold Cpp.extract
  rw [List.dropWhile_cons, hc]
  rfl

/-- Reading a number that stands at the start of the stream, followed by nothing or by a
space. -/
theorem read_int_to_string (x : Int) (rest word : List Char)
    (h0 : -2147483648 ≤ x) (h1 : x ≤ 2147483647)
    (hrest : rest = [] ∨ ∃ r, rest = ' ' :: r) :
    read_int (Cpp.to_string x ++ rest) word = (.ok x, Cpp.to_string x, rest) := by
  have he : Cpp.extract (Cpp.to_string x ++ rest) = (some (Cpp.to_string x), rest) := by
    apply Cpp.extract_word _ _ (Cpp.to_string_ne_nil x) (Cpp.to_string_no_space x)
    rcases hrest with h | ⟨r, h⟩
    · exact Or.inl h
    · exact Or.inr ⟨' ', r, h, isspace_space⟩
  unfold read_int
  rw [he]
  simp only [Option.getD_some]
  rw [Cpp.stoi_to_string x h0 h1]

theorem read_int_space_to_string (x : Int) (rest word : List Char)
    (h0 : -2147483648 ≤ x) (h1 : x ≤ 2147483647)
    (hrest : rest = [] ∨ ∃ r, rest = ' ' :: r) :
    read_int (' ' :: (Cpp.to_string x ++ rest)) word = (.ok x, Cpp.to_string x, rest) := by
  have h := read_int_to_string x rest word h0 h1 hrest
  unfold read_int at h ⊢
  rw [extract_skip ' ' _ isspace_space]
  exact h

theorem read_line_vertex (graph : DirectedGraph) (word : List Char) (v : Int)
    (h0 : -2147483648 ≤ v) (h1 : v ≤ 2147483647) :
    read_line graph word (TextLine.vertex v).render =
      match add_vertex_if_absent graph v with
      | .error f => .error f
      | .ok graph => .ok (graph, Cpp.to_string v) := by
  have hr := read_int_to_string v [] word h0 h1 (Or.inl rfl)
  rw [List.append_nil] at hr
  unfold read_line
  simp only [TextLine.render, filter_isspace_to_string, List.length_nil, if_true, hr]

theorem read_line_edge (graph : DirectedGraph) (word : List Char) (f t c : Int)
    (hf : -2147483648 ≤ f ∧ f ≤ 2147483647) (ht : -2147483648 ≤ t ∧ t ≤ 2147483647)
    (hc : -2147483648 ≤ c ∧ c ≤ 2147483647) :
    read_line graph word (TextLine.edge f t c).render =
      match add_vertex_if_absent graph f with
      | .error e => .error e
      | .ok graph =>
        match add_vertex_if_absent graph t with
        | .error e => .error e
        | .ok graph =>
          match graph.add_edge f t c with
          | (.error e, _) => .error (.graph_exception e)
          | (.ok _, graph) => .ok (graph, Cpp.to_string c) := by
  have hline : (TextLine.edge f t c).render =
      Cpp.to_string f ++ (' ' :: (Cpp.to_string t ++ (' ' :: (Cpp.to_string c ++ [])))) := by
    simp [TextLine.render]
  have hcount : ((TextLine.edge f t c).render.filter Cpp.isspace).length = 2 := by
    simp [TextLine.render, List.filter_append, filter_isspace_to_string, List.filter_cons,
      isspace_space]
  have hr1 := read_int_to_string f (' ' :: (Cpp.to_string t ++ (' ' :: (Cpp.to_string c ++ []))))
    word hf.1 hf.2 (Or.inr ⟨_, rfl⟩)
  have hr2 := read_int_space_to_string t (' ' :: (Cpp.to_string c ++ [])) (Cpp.to_string f)
    ht.1 ht.2 (Or.inr ⟨_, rfl⟩)
  have hr3 := read_int_space_to_string c [] (Cpp.to_string t) hc.1 hc.2 (Or.inl rfl)
  unfold read_line
  simp only [hcount]
  rw [hline]
  simp only [hr1, hr2, hr3]
  rfl

namespace DirectedGraph

/-- The statement `if (!graph.is_vertex_in_graph(v)) graph.add_vertex(v);` never throws. -/
theorem add_vertex_if_absent_ok (g : DirectedGraph) (v : Int) :
    ∃ g', add_vertex_if_absent g v = .ok g' ∧ (Reachable g → Reachable g') ∧
      (∀ x, g'.is_vertex_in_graph x = true ↔ (g.is_vertex_in_graph x = true ∨ x = v)) ∧
      g'.costs = g.costs := by
  unfold add_vertex_if_absent
  cases hv : g.is_vertex_in_graph v
  · rcases add_vertex_cases g v with ⟨h0, _⟩ | ⟨_, h⟩
    · rw [hv] at h0; cases h0
    · simp only [Bool.not_false, if_true, h]
      refine ⟨_, rfl, ?_, ?_, rfl⟩
      · intro hg
        have := Reachable.add_vertex v hg (by rw [h])
        rw [h] at this
        exact this
      · intro x
        simp only [is_vertex_in_graph, StdMap.find?_assign]
        by_cases hx : x = v
        · simp [hx]
        · simp [hx]
  · simp only [Bool.not_true, Bool.false_eq_true, if_false]
    refine ⟨g, rfl, id, ?_, rfl⟩
    intro x
    constructor
    · exact Or.inl
    · rintro (h | rfl)
      · exact h
      · exact hv

end DirectedGraph

namespace DirectedGraph

theorem is_vertex_modify_out (g : DirectedGraph) (u x : Int) (op : List Int → List Int)
    (din : List (Int × List Int)) (cs : List (Lex (Int × Int) × Int))
    (hu : g.is_vertex_in_graph u = true) :
    is_vertex_in_graph
      { dict_in := din, dict_out := StdMap.modify [] u op g.dict_out, costs := cs } x =
      g.is_vertex_in_graph x := by
  simp only [is_vertex_in_graph, StdMap.find?_modify] at hu ⊢
  by_cases hx : x = u
  · subst hx; simp [hu]
  · simp [hx]

theorem add_edge_ok (g : DirectedGraph) (u v c : Int) (hg : Reachable g)
    (hu : g.is_vertex_in_graph u = true) (hv : g.is_vertex_in_graph v = true)
    (he : g.is_edge_in_graph u v = false) :
    ∃ g', g.add_edge u v c = (.ok (), g') ∧ Reachable g' ∧
      (∀ x, g'.is_vertex_in_graph x = true ↔ g.is_vertex_in_graph x = true) ∧
      g'.costs = StdMap.assign (edge_key u v) c g.costs := by
  rcases add_edge_cases g u v c with ⟨h0, _⟩ | ⟨_, _, h0, _⟩ | ⟨_, _, _, hx⟩
  · rcases h0 with h0 | h0
    · rw [hu] at h0; cases h0
    · rw [hv] at h0; cases h0
  · rw [he] at h0; cases h0
  · refine ⟨_, hx, ?_, ?_, rfl⟩
    · have := Reachable.add_edge u v c hg (by rw [hx])
      rw [hx] at this
      exact this
    · intro x
      rw [is_vertex_modify_out g u x _ _ _ hu]

/-- The loop of the loader on lines that are well-formed: numbers of type `int`, no edge
named twice, no edge that the graph has already. -/
theorem read_lines_rendered (ls : List TextLine) :
    ∀ (h : DirectedGraph) (word : List Char), Reachable h →
      (∀ l ∈ ls, ∀ n ∈ l.numbers, -2147483648 ≤ n ∧ n ≤ 2147483647) →
      ls.Pairwise (fun l₁ l₂ => ∀ f t c c', l₁ = .edge f t c → l₂ ≠ .edge f t c') →
      (∀ f t c, TextLine.edge f t c ∈ ls → h.is_edge_in_graph f t = false) →
      ∃ h', read_lines h word (ls.map TextLine.render) = .ok h' ∧ Reachable h' ∧
        (∀ x, h'.is_vertex_in_graph x = true ↔
          (h.is_vertex_in_graph x = true ∨ ∃ l ∈ ls, x ∈ l.ids)) ∧
        (∀ a b c, StdMap.find? (edge_key a b) h'.costs = some c ↔
          (TextLine.edge a b c ∈ ls ∨ StdMap.find? (edge_key a b) h.costs = some c)) := by
  induction ls with
  | nil =>
    intro h word hr _ _ _
    exact ⟨h, rfl, hr, by simp, by simp⟩
  | cons l ls ih =>
    intro h word hr hfit hpw hnew
    have hfit' : ∀ l' ∈ ls, ∀ n ∈ l'.numbers, -2147483648 ≤ n ∧ n ≤ 2147483647 :=
      fun l' hl' => hfit l' (List.mem_cons_of_mem _ hl')
    have hpw' := (List.pairwise_cons.mp hpw).2
    have hhead := (List.pairwise_cons.mp hpw).1
    cases l with
    | vertex v =>
      have hv := hfit (.vertex v) (List.mem_cons_self _ _) v (by simp [TextLine.numbers])
      obtain ⟨h1, e1, r1, v1, c1⟩ := add_vertex_if_absent_ok h v
      have hline : read_line h word (TextLine.vertex v).render = .ok (h1, Cpp.to_string v) := by
        rw [read_line_vertex h word v hv.1 hv.2, e1]
      have hnew1 : ∀ f t c, TextLine.edge f t c ∈ ls → h1.is_edge_in_graph f t = false := by
        intro f t c hm
        have := hnew f t c (List.mem_cons_of_mem _ hm)
        simp only [is_edge_in_graph, c1] at this ⊢
        exact this
      obtain ⟨h', e', r', v', c'⟩ := ih h1 (Cpp.to_string v) (r1 hr) hfit' hpw' hnew1
      refine ⟨h', ?_, r', ?_, ?_⟩
      · rw [List.map_cons, read_lines, hline]
        exact e'
      · intro x
        rw [v', v1]
        constructor
        · rintro ((hx | hx) | ⟨l, hl, hx⟩)
          · exact Or.inl hx
          · exact Or.inr ⟨_, List.mem_cons_self _ _, by simp [TextLine.ids, hx]⟩
          · exact Or.inr ⟨l, List.mem_cons_of_mem _ hl, hx⟩
        · rintro (hx | ⟨l, hl, hx⟩)
          · exact Or.inl (Or.inl hx)
          · rcases List.mem_cons.mp hl with rfl | hl
            · simp only [TextLine.ids, List.mem_singleton] at hx
              exact Or.inl (Or.inr hx)
            · exact Or.inr ⟨l, hl, hx⟩
      · intro a b c
        rw [c', c1]
        simp only [List.mem_cons]
        constructor
        · rintro (hm | hm)
          · exact Or.inl (Or.inr hm)
          · exact Or.inr hm
        · rintro ((hm | hm) | hm)
          · cases hm
          · exact Or.inl hm
          · exact Or.inr hm
    | edge f t c =>
      have hmem : TextLine.edge f t c ∈ TextLine.edge f t c :: ls := List.mem_cons_self _ _
      have hf := hfit _ hmem f (by simp [TextLine.numbers])
      have ht := hfit _ hmem t (by simp [TextLine.numbers])
      have hc := hfit _ hmem c (by simp [TextLine.numbers])
      obtain ⟨h1, e1, r1, v1, c1⟩ := add_vertex_if_absent_ok h f
      obtain ⟨h2, e2, r2, v2, c2⟩ := add_vertex_if_absent_ok h1 t
      have hf2 : h2.is_vertex_in_graph f = true := (v2 f).mpr (Or.inl ((v1 f).mpr (Or.inr rfl)))
      have ht2 : h2.is_vertex_in_graph t = true := (v2 t).mpr (Or.inr rfl)
      have hcosts2 : h2.costs = h.costs := c2.trans c1
      have he2 : h2.is_edge_in_graph f t = false := by
        have := hnew f t c hmem
        simp only [is_edge_in_graph, hcosts2] at this ⊢
        exact this
      obtain ⟨h3, e3, r3, v3, c3⟩ := add_edge_ok h2 f t c (r2 (r1 hr)) hf2 ht2 he2
      have hline : read_line h word (TextLine.edge f t c).render =
          .ok (h3, Cpp.to_string c) := by
        rw [read_line_edge h word f t c hf ht hc, e1]
        simp only [e2, e3]
      have hfind3 : ∀ k, StdMap.find? k h3.costs =
          if k = edge_key f t then some c else StdMap.find? k h.costs := by
        intro k
        rw [c3, StdMap.find?_assign, hcosts2]
      have hnew3 : ∀ f' t' c', TextLine.edge f' t' c' ∈ ls →
          h3.is_edge_in_graph f' t' = false := by
        intro f' t' c' hm
        have hold := hnew f' t' c' (List.mem_cons_of_mem _ hm)
        have hne : edge_key f' t' ≠ edge_key f t := by
          intro hk
          obtain ⟨rfl, rfl⟩ := (edge_key_inj f' t' f t).mp hk
          exact hhead _ hm f' t' c c' rfl rfl
        simp only [is_edge_in_graph] at hold ⊢
        rw [hfind3, if_neg hne]
        exact hold
      obtain ⟨h', e', r', v', c'⟩ := ih h3 (Cpp.to_string c) r3 hfit' hpw' hnew3
      refine ⟨h', ?_, r', ?_, ?_⟩
      · rw [List.map_cons, read_lines, hline]
        exact e'
      · intro x
        rw [v', v3, v2, v1]
        constructor
        · rintro (((hx | hx) | hx) | ⟨l, hl, hx⟩)
          · exact Or.inl hx
          · exact Or.inr ⟨_, hmem, by simp [TextLine.ids, hx]⟩
          · exact Or.inr ⟨_, hmem, by simp [TextLine.ids, hx]⟩
          · exact Or.inr ⟨l, List.mem_cons_of_mem _ hl, hx⟩
        · rintro (hx | ⟨l, hl, hx⟩)
          · exact Or.inl (Or.inl (Or.inl hx))
          · rcases List.mem_cons.mp hl with rfl | hl
            · simp only [TextLine.ids, List.mem_cons, List.mem_singleton, List.not_mem_nil,
                or_false] at hx
              rcases hx with hx | hx
              · exact Or.inl (Or.inl (Or.inr hx))
              · exact Or.inl (Or.inr hx)
            · exact Or.inr ⟨l, hl, hx⟩
      · intro a b c0
        rw [c', hfind3]
        by_cases hk : edge_key a b = edge_key f t
        · obtain ⟨rfl, rfl⟩ := (edge_key_inj a b f t).mp hk
          rw [if_pos rfl]
          have hnone : StdMap.find? (edge_key a b) h.costs = none := by
            have := hnew a b c hmem
            simp only [is_edge_in_graph] at this
            cases hfnd : StdMap.find? (edge_key a b) h.costs with
            | none => rfl
            | some _ => rw [hfnd] at this; cases this
          rw [hnone]
          constructor
          · rintro (hm | hm)
            · exact absurd rfl (hhead _ hm a b c c0 rfl)
            · simp only [Option.some.injEq] at hm
              subst hm
              exact Or.inl (List.mem_cons_self _ _)
          · rintro (hm | hm)
            · rcases List.mem_cons.mp hm with hm | hm
              · cases hm
                exact Or.inr rfl
              · exact absurd rfl (hhead _ hm a b c c0 rfl)
            · cases hm
        · rw [if_neg hk]
          constructor
          · rintro (hm | hm)
            · exact Or.inl (List.mem_cons_of_mem _ hm)
            · exact Or.inr hm
          · rintro (hm | hm)
            · rcases List.mem_cons.mp hm with hm | hm
              · cases hm
                exact absurd rfl hk
              · exact Or.inl hm
            · exact Or.inr hm

end DirectedGraph

/-! ### The writer on a reachable graph -/

namespace DirectedGraph

theorem write_neighbours_eq (g : DirectedGraph) (v : Int) (ns : List Int) :
    ∀ (str : List Char), (∀ n ∈ ns, edge_key v n ∈ StdMap.keys g.costs) →
      write_neighbours g v ns str = .ok (str ++
        ((ns.map (fun n => TextLine.edge v n
          ((StdMap.find? (edge_key v n) g.costs).getD 0))).map
            (fun l => l.render ++ ['\n'])).flatten) := by
  induction ns with
  | nil => intro str _; simp [write_neighbours]
  | cons n ns ih =>
    intro str h
    obtain ⟨c, hc⟩ := (StdMap.mem_keys_iff _ _).mp (h n (List.mem_cons_self _ _))
    have hq : (g.get_cost_of_edge v n).1 = .ok c := by
      rw [get_cost_of_edge_fst, hc]
    unfold write_neighbours
    rw [hq]
    simp only
    rw [ih _ (fun m hm => h m (List.mem_cons_of_mem _ hm))]
    simp only [List.map_cons, List.flatten_cons, hc, Option.getD_some, TextLine.render,
      List.append_assoc]

theorem write_vertices_eq (g : DirectedGraph) (hi : Invariant g) (entries : List (Int × List Int)) :
    ∀ (str : List Char), (∀ it ∈ entries, StdMap.find? it.1 g.dict_out = some it.2) →
      write_vertices g entries str = .ok (str ++
        ((entries.flatMap (described_vertex_lines g)).map
          (fun l => l.render ++ ['\n'])).flatten) := by
  induction entries with
  | nil => intro str _; simp [write_vertices]
  | cons it entries ih =>
    intro str h
    have hit := h it (List.mem_cons_self _ _)
    obtain ⟨hd, -, hn⟩ := out_query_fst g it.1 it.2 hit
    have hrest := fun str' => ih str' (fun e he => h e (List.mem_cons_of_mem _ he))
    unfold write_vertices
    rw [hd]
    simp only
    by_cases h0 : it.2.length = 0
    · have h0' : ((it.2.length : Nat) : Int) = 0 := by exact_mod_cast h0
      rw [if_pos h0', hrest]
      simp only [List.flatMap_cons, described_vertex_lines, h0, if_true, List.map_append,
        List.flatten_append, List.map_cons, List.map_nil, List.flatten_cons, List.flatten_nil,
        TextLine.render, List.append_nil, List.append_assoc]
    · have h0' : ¬ ((it.2.length : Nat) : Int) = 0 := by exact_mod_cast h0
      rw [if_neg h0', hn]
      simp only
      rw [write_neighbours_eq g it.1 it.2 str
        (fun n hn' => (hi.edge_out it.1 n).mpr ⟨it.2, hit, hn'⟩)]
      simp only
      rw [hrest]
      simp only [List.flatMap_cons, described_vertex_lines, h0, if_false, List.map_append,
        List.flatten_append, List.append_assoc]

theorem write_graph_to_file_eq (g : DirectedGraph) (hg : Reachable g) :
    write_graph_to_file g =
      .ok (text_of g.get_nr_vertices g.get_nr_edges (described_lines g)) := by
  obtain ⟨hw, hi⟩ := reachable_inv g hg
  unfold write_graph_to_file out_relations
  rw [write_vertices_eq g hi g.dict_out _
    (fun it hit => StdMap.find?_of_mem it.1 it.2 g.dict_out hw.out_keys hit)]
  rfl

end DirectedGraph

/-! ### The lines of the description, for a reachable graph -/

namespace DirectedGraph

theorem mem_described_vertex_lines (g : DirectedGraph) (hi : Invariant g) (it : Int × List Int)
    (hit : StdMap.find? it.1 g.dict_out = some it.2) (l : TextLine)
    (hl : l ∈ described_vertex_lines g it) :
    (l = .vertex it.1 ∧ it.2 = []) ∨
      ∃ n c, n ∈ it.2 ∧ StdMap.find? (edge_key it.1 n) g.costs = some c ∧ l = .edge it.1 n c := by
  unfold described_vertex_lines at hl
  split_ifs at hl with h0
  · left
    exact ⟨List.mem_singleton.mp hl, List.length_eq_zero.mp h0⟩
  · right
    obtain ⟨n, hn, rfl⟩ := List.mem_map.mp hl
    obtain ⟨c, hc⟩ := (StdMap.mem_keys_iff _ _).mp ((hi.edge_out it.1 n).mpr ⟨it.2, hit, hn⟩)
    exact ⟨n, c, hn, hc, by rw [hc]; rfl⟩

theorem mem_described_lines (g : DirectedGraph) (hw : WellFormed g) (hi : Invariant g)
    (l : TextLine) (hl : l ∈ described_lines g) :
    ∃ it ∈ g.dict_out, StdMap.find? it.1 g.dict_out = some it.2 ∧
      ((l = .vertex it.1 ∧ it.2 = []) ∨
        ∃ n c, n ∈ it.2 ∧ StdMap.find? (edge_key it.1 n) g.costs = some c ∧
          l = .edge it.1 n c) := by
  obtain ⟨it, hit, hl⟩ := List.mem_flatMap.mp hl
  have hf := StdMap.find?_of_mem it.1 it.2 g.dict_out hw.out_keys hit
  exact ⟨it, hit, hf, mem_described_vertex_lines g hi it hf l hl⟩

/-- The edge lines of the description are the edges of the graph with their costs. -/
theorem edge_mem_described_lines (g : DirectedGraph) (hw : WellFormed g) (hi : Invariant g)
    (a b c : Int) :
    TextLine.edge a b c ∈ described_lines g ↔
      StdMap.find? (edge_key a b) g.costs = some c := by
  constructor
  · intro hl
    obtain ⟨it, -, -, h | ⟨n, c', -, hc, h⟩⟩ := mem_described_lines g hw hi _ hl
    · cases h.1
    · cases h
      exact hc
  · intro hc
    obtain ⟨s, hs, hb⟩ := (hi.edge_out a b).mp ((StdMap.mem_keys_iff _ _).mpr ⟨c, hc⟩)
    refine List.mem_flatMap.mpr ⟨(a, s), StdMap.mem_of_find? a s _ hs, ?_⟩
    unfold described_vertex_lines
    have h0 : ¬ s.length = 0 := by
      intro h0
      rw [List.length_eq_zero.mp h0] at hb
      cases hb
    rw [if_neg h0]
    exact List.mem_map.mpr ⟨b, hb, by simp only [hc, Option.getD_some]⟩

/-- The ids named on the lines of the description are the vertices of the graph. -/
theorem ids_described_lines (g : DirectedGraph) (hw : WellFormed g) (hi : Invariant g)
    (x : Int) :
    (∃ l ∈ described_lines g, x ∈ l.ids) ↔ g.is_vertex_in_graph x = true := by
  rw [is_vertex_iff]
  constructor
  · rintro ⟨l, hl, hx⟩
    obtain ⟨it, -, hf, h | ⟨n, c, hn, hc, h⟩⟩ := mem_described_lines g hw hi _ hl
    · rw [h.1] at hx
      rw [List.mem_singleton.mp hx]
      exact (StdMap.mem_keys_iff _ _).mpr ⟨_, hf⟩
    · rw [h] at hx
      have he := hi.endpoints it.1 n ((StdMap.mem_keys_iff _ _).mpr ⟨c, hc⟩)
      simp only [TextLine.ids, List.mem_cons, List.mem_singleton, List.not_mem_nil,
        or_false] at hx
      rcases hx with rfl | rfl
      · exact he.1
      · exact he.2
  · intro hx
    obtain ⟨s, hs⟩ := (StdMap.mem_keys_iff _ _).mp hx
    have hm := StdMap.mem_of_find? x s _ hs
    cases s with
    | nil =>
      refine ⟨.vertex x, List.mem_flatMap.mpr ⟨(x, []), hm, ?_⟩, ?_⟩
      · simp [described_vertex_lines]
      · simp [TextLine.ids]
    | cons n s =>
      refine ⟨.edge x n ((StdMap.find? (edge_key x n) g.costs).getD 0),
        List.mem_flatMap.mpr ⟨(x, n :: s), hm, ?_⟩, ?_⟩
      · simp [described_vertex_lines]
      · simp [TextLine.ids]

/-- Every number on a line of the description is an id or a cost of the graph. -/
theorem numbers_described_lines (g : DirectedGraph) (hw : WellFormed g) (hi : Invariant g)
    (hfit : fits_int g) :
    ∀ l ∈ described_lines g, ∀ n ∈ l.numbers, -2147483648 ≤ n ∧ n ≤ 2147483647 := by
  intro l hl x hx
  obtain ⟨it, -, hf, h | ⟨n, c, hn, hc, h⟩⟩ := mem_described_lines g hw hi _ hl
  · rw [h.1] at hx
    rw [List.mem_singleton.mp hx]
    exact hfit.1 _ ((StdMap.mem_keys_iff _ _).mpr ⟨_, hf⟩)
  · rw [h] at hx
    have he := hi.endpoints it.1 n ((StdMap.mem_keys_iff _ _).mpr ⟨c, hc⟩)
    simp only [TextLine.numbers, List.mem_cons, List.mem_singleton, List.not_mem_nil,
      or_false] at hx
    rcases hx with rfl | rfl | rfl
    · exact hfit.1 _ he.1
    · exact hfit.1 _ he.2
    · exact hfit.2.1 _ (StdMap.mem_of_find? _ _ _ hc)

/-- No line of the description is written twice. -/
theorem nodup_described_lines (g : DirectedGraph) (hw : WellFormed g) (hi : Invariant g) :
    (described_lines g).Nodup := by
  unfold described_lines
  rw [List.nodup_flatMap]
  constructor
  · intro it hit
    have hf := StdMap.find?_of_mem it.1 it.2 g.dict_out hw.out_keys hit
    unfold described_vertex_lines
    split_ifs
    · exact List.nodup_singleton _
    · refine List.Nodup.map_on ?_ (hw.out_sets _ _ hf).nodup
      intro x _ y _ hxy
      injection hxy
  · have hk := hw.out_keys
    unfold StdMap.keys at hk
    have hp : g.dict_out.Pairwise (fun a b => a.1 < b.1) := List.pairwise_map.mp hk
    refine hp.imp_of_mem ?_
    intro it₁ it₂ h₁ h₂ hlt
    have hf₁ := StdMap.find?_of_mem it₁.1 it₁.2 g.dict_out hw.out_keys h₁
    have hf₂ := StdMap.find?_of_mem it₂.1 it₂.2 g.dict_out hw.out_keys h₂
    show List.Disjoint _ _
    intro l hl₁ hl₂
    have e₁ := mem_described_vertex_lines g hi it₁ hf₁ l hl₁
    have e₂ := mem_described_vertex_lines g hi it₂ hf₂ l hl₂
    rcases e₁ with ⟨e₁, -⟩ | ⟨n₁, c₁, -, -, e₁⟩ <;>
      rcases e₂ with ⟨e₂, -⟩ | ⟨n₂, c₂, -, -, e₂⟩ <;>
      rw [e₁] at e₂ <;> first | cases e₂ | (injection e₂ with h; omega)

/-- No two lines of the description give the same edge. -/
theorem pairwise_described_lines (g : DirectedGraph) (hw : WellFormed g) (hi : Invariant g) :
    (described_lines g).Pairwise
      (fun l₁ l₂ => ∀ f t c c', l₁ = .edge f t c → l₂ ≠ .edge f t c') := by
  refine (nodup_described_lines g hw hi).imp_of_mem ?_
  intro l₁ l₂ h₁ h₂ hne f t c c' e₁ e₂
  rw [e₁] at h₁
  rw [e₂] at h₂
  have q₁ := (edge_mem_described_lines g hw hi f t c).mp h₁
  have q₂ := (edge_mem_described_lines g hw hi f t c').mp h₂
  rw [q₁] at q₂
  apply hne
  rw [e₁, e₂, Option.some.inj q₂]

end DirectedGraph

/-! ### Two graphs with the same vertices, edges and costs are the same value -/

namespace StdMap

variable {κ : Type} {α : Type} [LinearOrder κ]

theorem eq_of_find?_eq (m₁ m₂ : List (κ × α)) (h₁ : (keys m₁).Sorted (· < ·))
    (h₂ : (keys m₂).Sorted (· < ·)) (h : ∀ k, find? k m₁ = find? k m₂) : m₁ = m₂ := by
  haveI : IsAntisymm (κ × α) (fun a b => a.1 < b.1) :=
    ⟨fun a b hab hba => absurd (lt_trans hab hba) (lt_irrefl _)⟩
  have s₁ : m₁.Sorted (fun a b => a.1 < b.1) := List.pairwise_map.mp h₁
  have s₂ : m₂.Sorted (fun a b => a.1 < b.1) := List.pairwise_map.mp h₂
  refine List.eq_of_perm_of_sorted ?_ s₁ s₂
  refine (List.perm_ext_iff_of_nodup (List.Nodup.of_map _ h₁.nodup)
    (List.Nodup.of_map _ h₂.nodup)).mpr ?_
  rintro ⟨k, v⟩
  constructor
  · intro hm
    have := find?_of_mem k v m₁ h₁ hm
    rw [h k] at this
    exact mem_of_find? k v m₂ this
  · intro hm
    have := find?_of_mem k v m₂ h₂ hm
    rw [← h k] at this
    exact mem_of_find? k v m₁ this

end StdMap

namespace StdSet

theorem eq_of_mem_iff (s t : List Int) (hs : s.Sorted (· < ·)) (ht : t.Sorted (· < ·))
    (h : ∀ x, x ∈ s ↔ x ∈ t) : s = t :=
  List.eq_of_perm_of_sorted ((List.perm_ext_iff_of_nodup hs.nodup ht.nodup).mpr h) hs ht

end StdSet

namespace DirectedGraph

theorem eq_of_same_vertices_of_same_costs (g h : DirectedGraph)
    (hwg : WellFormed g) (hig : Invariant g) (hwh : WellFormed h) (hih : Invariant h)
    (hv : ∀ x, g.is_vertex_in_graph x = true ↔ h.is_vertex_in_graph x = true)
    (hc : ∀ a b, StdMap.find? (edge_key a b) g.costs = StdMap.find? (edge_key a b) h.costs) :
    g = h := by
  have hkeys : ∀ a b, edge_key a b ∈ StdMap.keys g.costs ↔ edge_key a b ∈ StdMap.keys h.costs := by
    intro a b
    rw [StdMap.mem_keys_iff, StdMap.mem_keys_iff, hc]
  have hvk : ∀ x, x ∈ StdMap.keys g.dict_out ↔ x ∈ StdMap.keys h.dict_out := by
    intro x
    rw [← is_vertex_iff, ← is_vertex_iff]
    exact hv x
  have e₃ : g.costs = h.costs :=
    StdMap.eq_of_find?_eq _ _ hwg.cost_keys hwh.cost_keys
      (fun k => hc (ofLex k).1 (ofLex k).2)
  have e₁ : g.dict_out = h.dict_out := by
    refine StdMap.eq_of_find?_eq _ _ hwg.out_keys hwh.out_keys ?_
    intro k
    cases hgk : StdMap.find? k g.dict_out with
    | none =>
      have := (StdMap.find?_eq_none_iff _ _).mp hgk
      rw [hvk] at this
      exact ((StdMap.find?_eq_none_iff _ _).mpr this).symm
    | some s =>
      obtain ⟨t, ht⟩ := (StdMap.mem_keys_iff _ _).mp ((hvk k).mp ((StdMap.mem_keys_iff _ _).mpr ⟨s, hgk⟩))
      rw [ht]
      congr 1
      refine StdSet.eq_of_mem_iff s t (hwg.out_sets _ _ hgk) (hwh.out_sets _ _ ht) ?_
      intro w
      constructor
      · intro hw
        obtain ⟨t', ht', hw'⟩ := (hih.edge_out k w).mp
          ((hkeys k w).mp ((hig.edge_out k w).mpr ⟨s, hgk, hw⟩))
        rw [ht] at ht'
        cases ht'
        exact hw'
      · intro hw
        obtain ⟨s', hs', hw'⟩ := (hig.edge_out k w).mp
          ((hkeys k w).mpr ((hih.edge_out k w).mpr ⟨t, ht, hw⟩))
        rw [hgk] at hs'
        cases hs'
        exact hw'
  have hvk' : ∀ x, x ∈ StdMap.keys g.dict_in ↔ x ∈ StdMap.keys h.dict_in := by
    intro x
    rw [← hig.same_keys, ← hih.same_keys]
    exact hvk x
  have e₂ : g.dict_in = h.dict_in := by
    refine StdMap.eq_of_find?_eq _ _ hwg.in_keys hwh.in_keys ?_
    intro k
    cases hgk : StdMap.find? k g.dict_in with
    | none =>
      have := (StdMap.find?_eq_none_iff _ _).mp hgk
      rw [hvk'] at this
      exact ((StdMap.find?_eq_none_iff _ _).mpr this).symm
    | some s =>
      obtain ⟨t, ht⟩ := (StdMap.mem_keys_iff _ _).mp ((hvk' k).mp ((StdMap.mem_keys_iff _ _).mpr ⟨s, hgk⟩))
      rw [ht]
      congr 1
      refine StdSet.eq_of_mem_iff s t (hwg.in_sets _ _ hgk) (hwh.in_sets _ _ ht) ?_
      intro w
      constructor
      · intro hw
        obtain ⟨t', ht', hw'⟩ := (hih.edge_in w k).mp
          ((hkeys w k).mp ((hig.edge_in w k).mpr ⟨s, hgk, hw⟩))
        rw [ht] at ht'
        cases ht'
        exact hw'
      · intro hw
        obtain ⟨s', hs', hw'⟩ := (hig.edge_in w k).mp
          ((hkeys w k).mpr ((hih.edge_in w k).mpr ⟨t, ht, hw⟩))
        rw [hgk] at hs'
        cases hs'
        exact hw'
  cases g
  cases h
  simp only at e₁ e₂ e₃
  rw [e₁, e₂, e₃]

end DirectedGraph

/-! ### The loader on a text of rendered lines -/

theorem TextLine.render_no_newline (l : TextLine) : ∀ c ∈ l.render, c ≠ '\n' := by
  have hts : ∀ (x : Int), ∀ c ∈ Cpp.to_string x, c ≠ '\n' := by
    intro x c hc hn
    have := Cpp.to_string_no_space x c hc
    rw [hn] at this
    revert this
    decide
  intro c hc
  cases l with
  | vertex id => exact hts id c hc
  | edge f t k =>
    simp only [TextLine.render, List.mem_append, List.mem_singleton] at hc
    rcases hc with (((hc | rfl) | hc) | rfl) | hc
    · exact hts f c hc
    · decide
    · exact hts t c hc
    · decide
    · exact hts k c hc

theorem getlines_text_of (nr_vertices nr_edges : Int) (lines : List TextLine) :
    Cpp.getlines (text_of nr_vertices nr_edges lines) =
      (Cpp.to_string nr_vertices ++ [' '] ++ Cpp.to_string nr_edges) ::
        lines.map TextLine.render := by
  have hts : ∀ (x : Int), ∀ c ∈ Cpp.to_string x, c ≠ '\n' :=
    fun x => TextLine.render_no_newline (.vertex x)
  have h : text_of nr_vertices nr_edges lines =
      (((Cpp.to_string nr_vertices ++ [' '] ++ Cpp.to_string nr_edges) ::
        lines.map TextLine.render).map (fun l => l ++ ['\n'])).flatten := by
    simp only [text_of, List.map_cons, List.flatten_cons, List.map_map]
    rfl
  rw [h, Cpp.getlines_flatten]
  intro l hl c hc
  rcases List.mem_cons.mp hl with rfl | hl
  · simp only [List.mem_append, List.mem_singleton] at hc
    rcases hc with (hc | rfl) | hc
    · exact hts _ c hc
    · decide
    · exact hts _ c hc
  · obtain ⟨t, -, rfl⟩ := List.mem_map.mp hl
    exact TextLine.render_no_newline t c hc

theorem read_graph_from_file_text_of (nr_vertices nr_edges : Int) (lines : List TextLine)
    (hv : -2147483648 ≤ nr_vertices ∧ nr_vertices ≤ 2147483647)
    (he : -2147483648 ≤ nr_edges ∧ nr_edges ≤ 2147483647) :
    (∀ f, read_lines (DirectedGraph.new 0) (Cpp.to_string nr_edges)
        (lines.map TextLine.render) = .error f →
      read_graph_from_file (text_of nr_vertices nr_edges lines) = .error f) ∧
    (∀ graph, read_lines (DirectedGraph.new 0) (Cpp.to_string nr_edges)
        (lines.map TextLine.render) = .ok graph →
      read_graph_from_file (text_of nr_vertices nr_edges lines) =
        if graph.get_nr_vertices ≠ nr_vertices then .error .assertion_failed
        else if graph.get_nr_edges ≠ nr_edges then .error .assertion_failed
        else .ok graph) := by
  have h₁ := read_int_to_string nr_vertices (' ' :: Cpp.to_string nr_edges) [] hv.1 hv.2
    (Or.inr ⟨_, rfl⟩)
  have h₂ := read_int_space_to_string nr_edges [] (Cpp.to_string nr_vertices) he.1 he.2
    (Or.inl rfl)
  rw [List.append_nil] at h₂
  unfold read_graph_from_file
  rw [getlines_text_of]
  simp only [List.headD_cons, List.tail_cons, List.append_assoc, List.singleton_append, h₁, h₂]
  constructor
  · intro f hf
    rw [hf]
  · intro graph hgraph
    rw [hgraph]

/-! ## The text form: what is written, and reading it back -/

namespace DirectedGraph

theorem reachable_signed_graph : Reachable signed_graph :=
  Reachable.add_edge 4 (-3) 12
    (Reachable.add_edge (-3) (-3) (-7)
      (Reachable.add_vertex 0
        (Reachable.add_vertex 4 (Reachable.add_vertex (-3) (Reachable.new 0) (by decide))
          (by decide))
        (by decide))
      (by decide))
    (by decide)

theorem fits_int_signed_graph : fits_int signed_graph := by
  unfold fits_int
  decide

/-- The loader on the lines of the description of a reachable graph returns the graph. -/
theorem read_lines_described (g : DirectedGraph) (hg : Reachable g) (hfit : fits_int g)
    (word : List Char) :
    read_lines (new 0) word ((described_lines g).map TextLine.render) = .ok g := by
  obtain ⟨hw, hi⟩ := reachable_inv g hg
  obtain ⟨h', hrl, hr', hvx, hcx⟩ := read_lines_rendered (described_lines g) (new 0) word
    (Reachable.new 0) (numbers_described_lines g hw hi hfit) (pairwise_described_lines g hw hi)
    (fun f t c _ => rfl)
  obtain ⟨hw', hi'⟩ := reachable_inv h' hr'
  have heq : h' = g := by
    refine eq_of_same_vertices_of_same_costs h' g hw' hi' hw hi ?_ ?_
    · intro x
      rw [hvx x, ← ids_described_lines g hw hi x]
      have h0 : (new 0).is_vertex_in_graph x = false := rfl
      rw [h0]
      simp
    · intro a b
      apply Option.ext
      intro c
      rw [Option.mem_def, Option.mem_def, hcx a b c, edge_mem_described_lines g hw hi a b c]
      have h0 : StdMap.find? (edge_key a b) (new 0).costs = none := rfl
      rw [h0]
      simp
  rw [hrl, heq]

/-- C22: for every reachable graph whose ids, costs and counts are values of `int`,
`write_graph_to_file` builds a text and `read_graph_from_file` on that text passes its two
asserts, throws nothing and returns a graph with the same vertices, the same edges and the
same cost of every edge: the graph that was written. Negative ids and costs, self-loops,
isolated vertices and the graph without vertices are reachable graphs like the others. -/
theorem C22_write_then_read (g : DirectedGraph) (hg : Reachable g) (hfit : fits_int g) :
    ∃ text g', write_graph_to_file g = .ok text ∧ read_graph_from_file text = .ok g' ∧
      (∀ v, g'.is_vertex_in_graph v = g.is_vertex_in_graph v) ∧
      (∀ u v, g'.is_edge_in_graph u v = g.is_edge_in_graph u v) ∧
      (∀ u v, (g'.get_cost_of_edge u v).1 = (g.get_cost_of_edge u v).1) ∧
      g' = g := by
  have hv : -2147483648 ≤ g.get_nr_vertices ∧ g.get_nr_vertices ≤ 2147483647 := by
    refine ⟨?_, hfit.2.2.1⟩
    unfold get_nr_vertices
    omega
  have he : -2147483648 ≤ g.get_nr_edges ∧ g.get_nr_edges ≤ 2147483647 := by
    refine ⟨?_, hfit.2.2.2⟩
    unfold get_nr_edges
    omega
  refine ⟨_, g, write_graph_to_file_eq g hg, ?_, fun _ => rfl, fun _ _ => rfl, fun _ _ => rfl,
    rfl⟩
  rw [(read_graph_from_file_text_of _ _ _ hv he).2 g (read_lines_described g hg hfit _)]
  simp

/-- Witness of C22 on `signed_graph`, with its text, and on the graph without vertices. -/
theorem C22_write_then_read_witness :
    (Reachable signed_graph ∧ fits_int signed_graph ∧
      write_graph_to_file signed_graph = .ok "3 2\n-3 -3 -7\n0\n4 -3 12\n".toList ∧
      ∃ text g', write_graph_to_file signed_graph = .ok text ∧
        read_graph_from_file text = .ok g' ∧
        (∀ v, g'.is_vertex_in_graph v = signed_graph.is_vertex_in_graph v) ∧
        (∀ u v, g'.is_edge_in_graph u v = signed_graph.is_edge_in_graph u v) ∧
        (∀ u v, (g'.get_cost_of_edge u v).1 = (signed_graph.get_cost_of_edge u v).1) ∧
        g' = signed_graph) ∧
    write_graph_to_file (new 0) = .ok "0 0\n".toList ∧
    read_graph_from_file "0 0\n".toList = .ok (new 0) :=
  ⟨⟨reachable_signed_graph, fits_int_signed_graph, by decide,
    C22_write_then_read signed_graph reachable_signed_graph fits_int_signed_graph⟩,
    by decide, by decide⟩

end DirectedGraph

theorem Cpp.eq_of_append_space (w₁ : List Char) :
    ∀ (w₂ r₁ r₂ : List Char), (∀ c ∈ w₁, Cpp.isspace c = false) →
      (∀ c ∈ w₂, Cpp.isspace c = false) → w₁ ++ ' ' :: r₁ = w₂ ++ ' ' :: r₂ →
      w₁ = w₂ ∧ r₁ = r₂ := by
  induction w₁ with
  | nil =>
    intro w₂ r₁ r₂ _ h₂ h
    cases w₂ with
    | nil => exact ⟨rfl, by simpa using h⟩
    | cons c w₂ =>
      rw [List.nil_append, List.cons_append] at h
      injection h with hc _
      have := h₂ c (List.mem_cons_self _ _)
      rw [← hc] at this
      exact absurd this (by decide)
  | cons d w₁ ih =>
    intro w₂ r₁ r₂ h₁ h₂ h
    cases w₂ with
    | nil =>
      rw [List.nil_append, List.cons_append] at h
      injection h with hc _
      have := h₁ d (List.mem_cons_self _ _)
      rw [hc] at this
      exact absurd this (by decide)
    | cons c w₂ =>
      rw [List.cons_append, List.cons_append] at h
      injection h with hc ht
      obtain ⟨e₁, e₂⟩ := ih w₂ r₁ r₂ (fun x hx => h₁ x (List.mem_cons_of_mem _ hx))
        (fun x hx => h₂ x (List.mem_cons_of_mem _ hx)) ht
      exact ⟨by rw [hc, e₁], e₂⟩

/-- Two lines with the same characters are the same line. -/
theorem TextLine.render_injective : Function.Injective TextLine.render := by
  intro l₁ l₂ h
  have hsp : ∀ (x : Int) (r : List Char), ' ' ∈ Cpp.to_string x → False := by
    intro x r hx
    have := Cpp.to_string_no_space x ' ' hx
    exact absurd this (by decide)
  cases l₁ with
  | vertex a =>
    cases l₂ with
    | vertex b => rw [Cpp.to_string_injective a b h]
    | edge f t c =>
      exfalso
      apply hsp a []
      simp only [TextLine.render] at h
      rw [h]
      simp
  | edge f t c =>
    cases l₂ with
    | vertex b =>
      exfalso
      apply hsp b []
      simp only [TextLine.render] at h
      rw [← h]
      simp
    | edge f' t' c' =>
      simp only [TextLine.render, List.append_assoc, List.singleton_append] at h
      obtain ⟨e₁, h⟩ := Cpp.eq_of_append_space _ _ _ _ (Cpp.to_string_no_space f)
        (Cpp.to_string_no_space f') h
      obtain ⟨e₂, e₃⟩ := Cpp.eq_of_append_space _ _ _ _ (Cpp.to_string_no_space t)
        (Cpp.to_string_no_space t') h
      rw [Cpp.to_string_injective _ _ e₁, Cpp.to_string_injective _ _ e₂,
        Cpp.to_string_injective _ _ e₃]

namespace DirectedGraph

/-- The sizes of the outbound sets add up to the number of edges. -/
theorem sum_out_lengths (g : DirectedGraph) (hw : WellFormed g) (hi : Invariant g) :
    (g.dict_out.map (fun it => it.2.length)).sum = g.costs.length := by
  obtain ⟨E, hE, hEc⟩ := edge_finset g hw
  have hEc' : E.card = g.costs.length := by
    unfold get_nr_edges at hEc
    exact_mod_cast hEc
  have hfst : ∀ e ∈ E, e.1 ∈ (StdMap.keys g.dict_out).toFinset := by
    rintro ⟨a, b⟩ he
    have := hi.endpoints a b ((is_edge_iff g a b).mp ((hE a b).mp he))
    exact List.mem_toFinset.mpr this.1
  rw [← hEc', Finset.card_eq_sum_card_fiberwise hfst,
    List.sum_toFinset _ hw.out_keys.nodup]
  unfold StdMap.keys
  rw [List.map_map]
  congr 1
  apply List.map_congr_left
  intro it hit
  have hf := StdMap.find?_of_mem it.1 it.2 g.dict_out hw.out_keys hit
  symm
  apply card_out_fiber E it.1 it.2 (hw.out_sets _ _ hf)
  intro w
  rw [hE, is_edge_iff, hi.edge_out it.1 w]
  simp [hf]

theorem length_described_lines (g : DirectedGraph) (hw : WellFormed g) (hi : Invariant g) :
    (described_lines g).length =
      g.dict_out.countP (fun it => decide (it.2.length = 0)) + g.costs.length := by
  rw [← sum_out_lengths g hw hi]
  unfold described_lines
  rw [List.length_flatMap]
  generalize g.dict_out = m
  induction m with
  | nil => rfl
  | cons it m ih =>
    rw [List.map_cons, List.sum_cons, ih, List.countP_cons, List.map_cons, List.sum_cons]
    simp only [Function.comp, described_vertex_lines]
    by_cases h0 : it.2.length = 0
    · rw [if_pos h0, if_pos (decide_eq_true h0), List.length_singleton]
      omega
    · rw [if_neg h0, if_neg (by simpa using h0), List.length_map]
      omega

end DirectedGraph

namespace DirectedGraph

theorem find?_of_get_cost_of_edge (g : DirectedGraph) (u v c : Int)
    (h : (g.get_cost_of_edge u v).1 = .ok c) :
    StdMap.find? (edge_key u v) g.costs = some c := by
  rw [get_cost_of_edge_fst] at h
  cases hf : StdMap.find? (edge_key u v) g.costs with
  | none => rw [hf] at h; cases h
  | some c' =>
    rw [hf] at h
    cases h
    rfl

/-- C23: for every reachable graph, `write_graph_to_file` builds the text of the header line
`<get_nr_vertices> <get_nr_edges>` followed by the lines of the description: for each vertex
in ascending order the line `<id>` when its out-degree is 0, else one line
`<from> <to> <cost>` for each of its outbound neighbours in ascending order. The body has
(number of vertices with out-degree 0) + `get_nr_edges()` lines, and every edge stands on
exactly one line, with its cost. -/
theorem C23_text_of_graph (g : DirectedGraph) (hg : Reachable g) :
    write_graph_to_file g =
      .ok (text_of g.get_nr_vertices g.get_nr_edges (described_lines g)) ∧
    Cpp.getlines (text_of g.get_nr_vertices g.get_nr_edges (described_lines g)) =
      (Cpp.to_string g.get_nr_vertices ++ [' '] ++ Cpp.to_string g.get_nr_edges) ::
        (described_lines g).map TextLine.render ∧
    (g.out_relations.map Prod.fst).Sorted (· < ·) ∧
    (∀ v, g.is_vertex_in_graph v = true ↔ v ∈ g.out_relations.map Prod.fst) ∧
    (∀ it ∈ g.out_relations, it.2.Sorted (· < ·) ∧
      (g.get_out_degree it.1).1 = .ok (it.2.length : Int) ∧
      (g.get_outbound_neighbours it.1).1 = .ok it.2 ∧
      ∀ n ∈ it.2, (g.get_cost_of_edge it.1 n).1 =
        .ok ((StdMap.find? (edge_key it.1 n) g.costs).getD 0)) ∧
    ((described_lines g).length : Int) =
      (g.out_relations.countP (fun it => decide ((g.get_out_degree it.1).1 = .ok 0)) : Nat) +
        g.get_nr_edges ∧
    (∀ u v c, (g.get_cost_of_edge u v).1 = .ok c →
      ((described_lines g).map TextLine.render).countP
        (fun line => decide (line = (TextLine.edge u v c).render)) = 1 ∧
      ∀ c', (TextLine.edge u v c').render ∈ (described_lines g).map TextLine.render →
        c' = c) := by
  obtain ⟨hw, hi⟩ := reachable_inv g hg
  have hent : ∀ it ∈ g.dict_out, StdMap.find? it.1 g.dict_out = some it.2 :=
    fun it hit => StdMap.find?_of_mem it.1 it.2 g.dict_out hw.out_keys hit
  refine ⟨write_graph_to_file_eq g hg, getlines_text_of _ _ _, hw.out_keys,
    fun v => is_vertex_iff g v, ?_, ?_, ?_⟩
  · intro it hit
    have hf := hent it hit
    obtain ⟨hd, -, hn⟩ := out_query_fst g it.1 it.2 hf
    refine ⟨hw.out_sets _ _ hf, hd, hn, ?_⟩
    intro n hn'
    obtain ⟨c, hc⟩ := (StdMap.mem_keys_iff _ _).mp ((hi.edge_out it.1 n).mpr ⟨it.2, hf, hn'⟩)
    rw [get_cost_of_edge_fst, hc]
    rfl
  · have hcount : g.out_relations.countP (fun it => decide ((g.get_out_degree it.1).1 = .ok 0)) =
        g.dict_out.countP (fun it => decide (it.2.length = 0)) := by
      unfold out_relations
      apply List.countP_congr
      intro it hit
      rw [(out_query_fst g it.1 it.2 (hent it hit)).1]
      simp
    rw [hcount, length_described_lines g hw hi]
    unfold get_nr_edges
    push_cast
    rfl
  · intro u v c hc
    have hf := find?_of_get_cost_of_edge g u v c hc
    constructor
    · rw [List.countP_map, ← List.count_eq_one_of_mem (nodup_described_lines g hw hi)
        ((edge_mem_described_lines g hw hi u v c).mpr hf)]
      unfold List.count
      apply List.countP_congr
      intro l _
      simp [TextLine.render_injective.eq_iff]
    · intro c' hc'
      obtain ⟨l, hl, hr⟩ := List.mem_map.mp hc'
      rw [TextLine.render_injective hr] at hl
      have := (edge_mem_described_lines g hw hi u v c').mp hl
      rw [hf] at this
      exact (Option.some.inj this).symm

/-- Witness of C23 on `sample_graph` and on `signed_graph`, with the texts. -/
theorem C23_text_of_graph_witness :
    Reachable signed_graph ∧
    write_graph_to_file sample_graph = .ok "3 4\n0 1 7\n1 1 3\n1 2 -4\n2 0 5\n".toList ∧
    text_of signed_graph.get_nr_vertices signed_graph.get_nr_edges
      (described_lines signed_graph) = "3 2\n-3 -3 -7\n0\n4 -3 12\n".toList ∧
    (write_graph_to_file signed_graph =
      .ok (text_of signed_graph.get_nr_vertices signed_graph.get_nr_edges
        (described_lines signed_graph)) ∧
    Cpp.getlines (text_of signed_graph.get_nr_vertices signed_graph.get_nr_edges
        (described_lines signed_graph)) =
      (Cpp.to_string signed_graph.get_nr_vertices ++ [' '] ++
        Cpp.to_string signed_graph.get_nr_edges) ::
        (described_lines signed_graph).map TextLine.render ∧
    (signed_graph.out_relations.map Prod.fst).Sorted (· < ·) ∧
    (∀ v, signed_graph.is_vertex_in_graph v = true ↔
      v ∈ signed_graph.out_relations.map Prod.fst) ∧
    (∀ it ∈ signed_graph.out_relations, it.2.Sorted (· < ·) ∧
      (signed_graph.get_out_degree it.1).1 = .ok (it.2.length : Int) ∧
      (signed_graph.get_outbound_neighbours it.1).1 = .ok it.2 ∧
      ∀ n ∈ it.2, (signed_graph.get_cost_of_edge it.1 n).1 =
        .ok ((StdMap.find? (edge_key it.1 n) signed_graph.costs).getD 0)) ∧
    ((described_lines signed_graph).length : Int) =
      (signed_graph.out_relations.countP
        (fun it => decide ((signed_graph.get_out_degree it.1).1 = .ok 0)) : Nat) +
        signed_graph.get_nr_edges ∧
    (∀ u v c, (signed_graph.get_cost_of_edge u v).1 = .ok c →
      ((described_lines signed_graph).map TextLine.render).countP
        (fun line => decide (line = (TextLine.edge u v c).render)) = 1 ∧
      ∀ c', (TextLine.edge u v c').render ∈
        (described_lines signed_graph).map TextLine.render → c' = c)) :=
  ⟨reachable_signed_graph, by decide, by decide,
    C23_text_of_graph signed_graph reachable_signed_graph⟩

/-- Whenever `read_graph_from_file` returns a graph, `get_nr_vertices()` and
`get_nr_edges()` of that graph are the values that the two statements `aa >> word` followed
by `stoi(word)` gave on the first line. -/
theorem counts_equal_read_header (text : List Char) (g : DirectedGraph)
    (h : read_graph_from_file text = .ok g) :
    (read_int ((Cpp.getlines text).headD []) []).1 = .ok g.get_nr_vertices ∧
    (read_int (read_int ((Cpp.getlines text).headD []) []).2.2
      (read_int ((Cpp.getlines text).headD []) []).2.1).1 = .ok g.get_nr_edges := by
  unfold read_graph_from_file at h
  simp only at h
  split at h
  · cases h
  · rename_i nr_vertices h₁
    split at h
    · cases h
    · rename_i nr_edges h₂
      split at h
      · cases h
      · rename_i graph h₃
        split_ifs at h with hv he
        cases h
        rw [h₁, h₂]
        exact ⟨by rw [not_not.mp hv], by rw [not_not.mp he]⟩

end DirectedGraph

/-! ## The failures of the loader -/

theorem Cpp.stoi_graph_exception (str : List Char) (e : GraphException) :
    Cpp.stoi str ≠ .error (.graph_exception e) := by
  unfold Cpp.stoi
  intro h
  split at h
  · cases h
  · split_ifs at h
    cases h

theorem read_int_graph_exception (stream word : List Char) (e : GraphException) :
    (read_int stream word).1 ≠ .error (.graph_exception e) :=
  Cpp.stoi_graph_exception _ e

namespace DirectedGraph

/-- The only `GraphException` of the loop body is that of an edge the graph has already. -/
theorem read_line_graph_exception (graph : DirectedGraph) (word current_line : List Char)
    (e : GraphException) (h : read_line graph word current_line = .error (.graph_exception e)) :
    e = .edge_already_in_graph := by
  unfold read_line at h
  simp only at h
  split_ifs at h with h0 h2
  · split at h
    · rename_i f hf
      cases h
      exact absurd hf (read_int_graph_exception _ _ e)
    · rename_i vertex _
      obtain ⟨g1, e1, -⟩ := add_vertex_if_absent_ok graph vertex
      rw [e1] at h
      cases h
  · split at h
    · rename_i f hf
      cases h
      exact absurd hf (read_int_graph_exception _ _ e)
    · rename_i _from _
      split at h
      · rename_i f hf
        cases h
        exact absurd hf (read_int_graph_exception _ _ e)
      · rename_i _to _
        split at h
        · rename_i f hf
          cases h
          exact absurd hf (read_int_graph_exception _ _ e)
        · rename_i _cost _
          obtain ⟨g1, e1, -, v1, -⟩ := add_vertex_if_absent_ok graph _from
          obtain ⟨g2, e2, -, v2, -⟩ := add_vertex_if_absent_ok g1 _to
          have hf2 : g2.is_vertex_in_graph _from = true :=
            (v2 _from).mpr (Or.inl ((v1 _from).mpr (Or.inr rfl)))
          have ht2 : g2.is_vertex_in_graph _to = true := (v2 _to).mpr (Or.inr rfl)
          rw [e1] at h
          simp only [e2] at h
          rcases add_edge_cases g2 _from _to _cost with ⟨hv, _⟩ | ⟨_, _, _, hx⟩ | ⟨_, _, _, hx⟩
          · rcases hv with hv | hv
            · rw [hf2] at hv; cases hv
            · rw [ht2] at hv; cases hv
          · rw [hx] at h
            cases h
            rfl
          · rw [hx] at h
            cases h

theorem read_lines_graph_exception (lines : List (List Char)) :
    ∀ (graph : DirectedGraph) (word : List Char) (e : GraphException),
      read_lines graph word lines = .error (.graph_exception e) →
      e = .edge_already_in_graph := by
  induction lines with
  | nil => intro graph word e h; cases h
  | cons current_line rest ih =>
    intro graph word e h
    rw [read_lines] at h
    split at h
    · rename_i f hf
      cases h
      exact read_line_graph_exception _ _ _ e hf
    · exact ih _ _ e h

theorem read_graph_from_file_graph_exception (text : List Char) (e : GraphException)
    (h : read_graph_from_file text = .error (.graph_exception e)) :
    e = .edge_already_in_graph := by
  unfold read_graph_from_file at h
  simp only at h
  split at h
  · rename_i f hf
    cases h
    exact absurd hf (read_int_graph_exception _ _ e)
  · split at h
    · rename_i f hf
      cases h
      exact absurd hf (read_int_graph_exception _ _ e)
    · split at h
      · rename_i f hf
        cases h
        exact read_lines_graph_exception _ _ _ e hf
      · split_ifs at h
        · cases h
        · cases h

/-- The loop of the loader on lines with numbers of type `int` of which two give the same
edge, or one gives an edge that the graph has already. -/
theorem read_lines_duplicate (ls : List TextLine) :
    ∀ (h : DirectedGraph) (word : List Char), Reachable h →
      (∀ l ∈ ls, ∀ n ∈ l.numbers, -2147483648 ≤ n ∧ n ≤ 2147483647) →
      (¬ ls.Pairwise (fun l₁ l₂ => ∀ f t c c', l₁ = .edge f t c → l₂ ≠ .edge f t c') ∨
        ∃ f t c, TextLine.edge f t c ∈ ls ∧ h.is_edge_in_graph f t = true) →
      read_lines h word (ls.map TextLine.render) =
        .error (.graph_exception .edge_already_in_graph) := by
  induction ls with
  | nil =>
    intro h word _ _ hdup
    rcases hdup with hdup | ⟨f, t, c, hm, _⟩
    · exact absurd List.Pairwise.nil hdup
    · cases hm
  | cons l ls ih =>
    intro h word hr hfit hdup
    have hfit' : ∀ l' ∈ ls, ∀ n ∈ l'.numbers, -2147483648 ≤ n ∧ n ≤ 2147483647 :=
      fun l' hl' => hfit l' (List.mem_cons_of_mem _ hl')
    cases l with
    | vertex v =>
      have hv := hfit (.vertex v) (List.mem_cons_self _ _) v (by simp [TextLine.numbers])
      obtain ⟨h1, e1, r1, v1, c1⟩ := add_vertex_if_absent_ok h v
      have hline : read_line h word (TextLine.vertex v).render = .ok (h1, Cpp.to_string v) := by
        rw [read_line_vertex h word v hv.1 hv.2, e1]
      rw [List.map_cons, read_lines, hline]
      apply ih h1 _ (r1 hr) hfit'
      rcases hdup with hdup | ⟨f, t, c, hm, he⟩
      · left
        intro hp
        apply hdup
        refine List.pairwise_cons.mpr ⟨?_, hp⟩
        intro l' _ f t c c' hl
        cases hl
      · right
        rcases List.mem_cons.mp hm with hm | hm
        · cases hm
        · refine ⟨f, t, c, hm, ?_⟩
          simp only [is_edge_in_graph, c1] at he ⊢
          exact he
    | edge f t c =>
      have hmem : TextLine.edge f t c ∈ TextLine.edge f t c :: ls := List.mem_cons_self _ _
      have hf := hfit _ hmem f (by simp [TextLine.numbers])
      have ht := hfit _ hmem t (by simp [TextLine.numbers])
      have hc := hfit _ hmem c (by simp [TextLine.numbers])
      obtain ⟨h1, e1, r1, v1, c1⟩ := add_vertex_if_absent_ok h f
      obtain ⟨h2, e2, r2, v2, c2⟩ := add_vertex_if_absent_ok h1 t
      have hf2 : h2.is_vertex_in_graph f = true := (v2 f).mpr (Or.inl ((v1 f).mpr (Or.inr rfl)))
      have ht2 : h2.is_vertex_in_graph t = true := (v2 t).mpr (Or.inr rfl)
      have hcosts2 : h2.costs = h.costs := c2.trans c1
      cases hedge : h.is_edge_in_graph f t with
      | true =>
        have he2 : h2.is_edge_in_graph f t = true := by
          simp only [is_edge_in_graph, hcosts2] at hedge ⊢
          exact hedge
        have hx : h2.add_edge f t c = (.error .edge_already_in_graph, h2) := by
          rcases add_edge_cases h2 f t c with ⟨hv, _⟩ | ⟨_, _, _, hx⟩ | ⟨_, _, h0, _⟩
          · rcases hv with hv | hv
            · rw [hf2] at hv; cases hv
            · rw [ht2] at hv; cases hv
          · exact hx
          · rw [he2] at h0; cases h0
        have hline : read_line h word (TextLine.edge f t c).render =
            .error (.graph_exception .edge_already_in_graph) := by
          rw [read_line_edge h word f t c hf ht hc, e1]
          simp only [e2, hx]
        rw [List.map_cons, read_lines, hline]
      | false =>
        have he2 : h2.is_edge_in_graph f t = false := by
          simp only [is_edge_in_graph, hcosts2] at hedge ⊢
          exact hedge
        obtain ⟨h3, e3, r3, v3, c3⟩ := add_edge_ok h2 f t c (r2 (r1 hr)) hf2 ht2 he2
        have hline : read_line h word (TextLine.edge f t c).render =
            .ok (h3, Cpp.to_string c) := by
          rw [read_line_edge h word f t c hf ht hc, e1]
          simp only [e2, e3]
        have hfind3 : ∀ k, StdMap.find? k h3.costs =
            if k = edge_key f t then some c else StdMap.find? k h.costs := by
          intro k
          rw [c3, StdMap.find?_assign, hcosts2]
        have hkeep : ∀ a b, h.is_edge_in_graph a b = true → h3.is_edge_in_graph a b = true := by
          intro a b hab
          simp only [is_edge_in_graph] at hab ⊢
          rw [hfind3]
          split_ifs
          · rfl
          · exact hab
        have hnow : h3.is_edge_in_graph f t = true := by
          simp only [is_edge_in_graph]
          rw [hfind3, if_pos rfl]
          rfl
        rw [List.map_cons, read_lines, hline]
        apply ih h3 _ r3 hfit'
        rcases hdup with hdup | ⟨f', t', c', hm, he⟩
        · by_cases hp : ls.Pairwise
              (fun l₁ l₂ => ∀ f t c c', l₁ = .edge f t c → l₂ ≠ .edge f t c')
          · right
            by_contra hno
            apply hdup
            refine List.pairwise_cons.mpr ⟨?_, hp⟩
            intro l' hl' f' t' c' c'' hl hl''
            cases hl
            apply hno
            rw [hl''] at hl'
            exact ⟨f, t, c'', hl', hnow⟩
          · exact Or.inl hp
        · right
          rcases List.mem_cons.mp hm with hm | hm
          · cases hm
            rw [hedge] at he
            cases he
          · exact ⟨f', t', c', hm, hkeep _ _ he⟩

end DirectedGraph

namespace DirectedGraph

/-- C25, the claim fails: a header that gives 3 vertices over a body with 2 makes the assert
on the number of vertices fail, and a header that starts with the word `x` makes `stoi`
throw `std::invalid_argument`; neither is a `GraphException`. -/
theorem C25_counterexample :
    read_graph_from_file "3 1\n5 6 1\n".toList = .error .assertion_failed ∧
    read_graph_from_file "x 1\n5 6 1\n".toList = .error .invalid_argument ∧
    read_graph_from_file "2 1\n5 x 1\n".toList = .error .invalid_argument ∧
    ¬ ∃ e, read_graph_from_file "3 1\n5 6 1\n".toList = .error (.graph_exception e) := by
  refine ⟨by decide, by decide, by decide, ?_⟩
  rintro ⟨e, he⟩
  have h : read_graph_from_file "3 1\n5 6 1\n".toList = .error .assertion_failed := by decide
  rw [h] at he
  cases he

/-- C25 as amended: `read_graph_from_file` reports a malformed text in three ways. The only
`GraphException` it lets out is "The edge is already in the graph", and a text of lines with
numbers of type `int` that gives the same edge on two lines ends with it. When no edge is
given twice the loop builds the graph of the lines, and the text is refused by a failing
assert, not by a `GraphException`, when a count of the header differs from the count of that
graph. A first word of the header, or a line of one word, that does not start with a number
makes `stoi` throw `std::invalid_argument`. -/
theorem C25_loader_failures :
    (∀ text e, read_graph_from_file text = .error (.graph_exception e) →
      e = .edge_already_in_graph) ∧
    (∀ (nr_vertices nr_edges : Int) (ls : List TextLine),
      (-2147483648 ≤ nr_vertices ∧ nr_vertices ≤ 2147483647) →
      (-2147483648 ≤ nr_edges ∧ nr_edges ≤ 2147483647) →
      (∀ l ∈ ls, ∀ n ∈ l.numbers, -2147483648 ≤ n ∧ n ≤ 2147483647) →
      ¬ ls.Pairwise (fun l₁ l₂ => ∀ f t c c', l₁ = .edge f t c → l₂ ≠ .edge f t c') →
      read_graph_from_file (text_of nr_vertices nr_edges ls) =
        .error (.graph_exception .edge_already_in_graph)) ∧
    (∀ (nr_vertices nr_edges : Int) (ls : List TextLine),
      (-2147483648 ≤ nr_vertices ∧ nr_vertices ≤ 2147483647) →
      (-2147483648 ≤ nr_edges ∧ nr_edges ≤ 2147483647) →
      (∀ l ∈ ls, ∀ n ∈ l.numbers, -2147483648 ≤ n ∧ n ≤ 2147483647) →
      ls.Pairwise (fun l₁ l₂ => ∀ f t c c', l₁ = .edge f t c → l₂ ≠ .edge f t c') →
      ∃ graph, Reachable graph ∧
        (∀ x, graph.is_vertex_in_graph x = true ↔ ∃ l ∈ ls, x ∈ l.ids) ∧
        (∀ a b c, (graph.get_cost_of_edge a b).1 = .ok c ↔ TextLine.edge a b c ∈ ls) ∧
        read_graph_from_file (text_of nr_vertices nr_edges ls) =
          if graph.get_nr_vertices = nr_vertices ∧ graph.get_nr_edges = nr_edges
          then .ok graph else .error .assertion_failed) ∧
    (∀ text, Cpp.parse_int ((Cpp.extract ((Cpp.getlines text).headD [])).1.getD []) = none →
      read_graph_from_file text = .error .invalid_argument) ∧
    (∀ (graph : DirectedGraph) (word current_line : List Char),
      (current_line.filter Cpp.isspace).length = 0 →
      Cpp.parse_int ((Cpp.extract current_line).1.getD word) = none →
      read_line graph word current_line = .error .invalid_argument) := by
  refine ⟨read_graph_from_file_graph_exception, ?_, ?_, ?_, ?_⟩
  · intro nr_vertices nr_edges ls hv he hfit hdup
    exact (read_graph_from_file_text_of _ _ _ hv he).1 _
      (read_lines_duplicate ls (new 0) _ (Reachable.new 0) hfit (Or.inl hdup))
  · intro nr_vertices nr_edges ls hv he hfit hpw
    obtain ⟨graph, hrl, hr, hvx, hcx⟩ := read_lines_rendered ls (new 0)
      (Cpp.to_string nr_edges) (Reachable.new 0) hfit hpw (fun f t c _ => rfl)
    refine ⟨graph, hr, ?_, ?_, ?_⟩
    · intro x
      rw [hvx x]
      have h0 : (new 0).is_vertex_in_graph x = false := rfl
      rw [h0]
      simp
    · intro a b c
      have h0 : StdMap.find? (edge_key a b) (new 0).costs = none := rfl
      have := hcx a b c
      rw [h0] at this
      rw [get_cost_of_edge_fst]
      cases hf : StdMap.find? (edge_key a b) graph.costs with
      | none =>
        rw [hf] at this
        simp only [false_iff, or_false, reduceCtorEq] at this ⊢
        exact this
      | some c' =>
        rw [hf] at this
        simp only [Option.some.injEq, or_false, reduceCtorEq] at this
        simp only [Except.ok.injEq]
        exact this
    · rw [(read_graph_from_file_text_of _ _ _ hv he).2 graph hrl]
      by_cases h1 : graph.get_nr_vertices = nr_vertices
      · by_cases h2 : graph.get_nr_edges = nr_edges
        · simp [h1, h2]
        · simp [h1, h2]
      · simp [h1]
  · intro text h
    unfold read_graph_from_file read_int
    simp only [Cpp.stoi, h]
  · intro graph word current_line h0 h
    unfold read_line read_int
    simp only [h0, if_true, Cpp.stoi, h]

/-- Witness of C25 as amended: an edge given twice, a header with a wrong count over
well-formed lines, and a word that is no number in the header and on a line. -/
theorem C25_loader_failures_witness :
    read_graph_from_file (text_of 2 2 [.edge 5 6 1, .edge 5 6 2]) =
      .error (.graph_exception .edge_already_in_graph) ∧
    text_of 2 2 [.edge 5 6 1, .edge 5 6 2] = "2 2\n5 6 1\n5 6 2\n".toList ∧
    read_graph_from_file "x 1\n5 6 1\n".toList = .error .invalid_argument ∧
    read_line (new 0) [] "abc".toList = .error .invalid_argument ∧
    read_graph_from_file "3 1\n5 6 1\n".toList = .error .assertion_failed :=
  ⟨C25_loader_failures.2.1 2 2 [.edge 5 6 1, .edge 5 6 2] (by decide) (by decide) (by decide)
      (fun hp => (List.pairwise_cons.mp hp).1 _ (List.mem_cons_self _ _) 5 6 1 2 rfl rfl),
    by decide,
    C25_loader_failures.2.2.2.1 "x 1\n5 6 1\n".toList (by decide),
    C25_loader_failures.2.2.2.2 (new 0) [] "abc".toList (by decide) (by decide),
    by decide⟩

end DirectedGraph

/-! ## The graph returned by `copy_graph` -/

namespace DirectedGraph

/-- C31, evaluated on `graph_5_6` (vertices 5 and 6, edge (5,6) of cost 1): the graph that
`copy_graph` returns has the cost map of the original, but vertex 6 of the original is not a
vertex of it, the ids 0 and 1 are, the edge (5,6) has an endpoint that is not a vertex, and 5
is a key of the outbound map only, so the invariants fail. On `sample_graph`, whose ids are
0, 1, 2, the copy is the graph. -/
theorem C31_copy_graph_loses_vertex :
    Reachable graph_5_6 ∧
    graph_5_6.copy_graph.costs = graph_5_6.costs ∧
    (graph_5_6.is_vertex_in_graph 6 = true ∧
      graph_5_6.copy_graph.is_vertex_in_graph 6 = false) ∧
    ((graph_5_6.get_inbound_neighbours 6).1 = .ok [5] ∧
      (graph_5_6.copy_graph.get_inbound_neighbours 6).1 = .error .vertex_not_in_graph) ∧
    (graph_5_6.is_vertex_in_graph 0 = false ∧
      graph_5_6.copy_graph.is_vertex_in_graph 0 = true) ∧
    (graph_5_6.get_nr_vertices = 2 ∧ graph_5_6.copy_graph.get_nr_vertices = 3) ∧
    graph_5_6.copy_graph.is_edge_in_graph 5 6 = true ∧
    ((5 : Int) ∈ StdMap.keys graph_5_6.copy_graph.dict_out ∧
      (5 : Int) ∉ StdMap.keys graph_5_6.copy_graph.dict_in) ∧
    Invariant graph_5_6 ∧ ¬ Invariant graph_5_6.copy_graph ∧
    (Reachable sample_graph ∧ sample_graph.copy_graph = sample_graph) := by
  refine ⟨reachable_graph_5_6, by decide, by decide, by decide, by decide, by decide,
    by decide, by decide, (reachable_inv _ reachable_graph_5_6).2, ?_,
    reachable_sample_graph, by decide⟩
  intro h
  have h6 := (h.endpoints 5 6 (by decide)).2
  revert h6
  decide

end DirectedGraph

/-! ## The queries on a reachable graph -/

namespace DirectedGraph

theorem is_vertex_of_query_ok (g : DirectedGraph) (v : Int)
    (h : (∃ d, (g.get_in_degree v).1 = .ok d) ∨ (∃ d, (g.get_out_degree v).1 = .ok d) ∨
      (∃ d, (g.get_nr_inbound_neighbours v).1 = .ok d) ∨
      (∃ d, (g.get_nr_outbound_neighbours v).1 = .ok d) ∨
      (∃ s, (g.get_inbound_neighbours v).1 = .ok s) ∨
      (∃ s, (g.get_outbound_neighbours v).1 = .ok s)) :
    g.is_vertex_in_graph v = true := by
  cases hv : g.is_vertex_in_graph v
  · obtain ⟨h1, h2, h3, h4, h5, h6⟩ := query_absent g v hv
    rw [h1, h2, h3, h4, h5, h6] at h
    rcases h with ⟨_, h⟩ | ⟨_, h⟩ | ⟨_, h⟩ | ⟨_, h⟩ | ⟨_, h⟩ | ⟨_, h⟩ <;> cases h
  · rfl

/-- C32: on every reachable graph, a successful `get_in_degree`, `get_out_degree`,
`get_nr_inbound_neighbours`, `get_nr_outbound_neighbours`, `get_inbound_neighbours`,
`get_outbound_neighbours` or `get_cost_of_edge` leaves the three maps as they were: the key
that the inserting `operator[]` is given is a key of the map it is applied to (the inbound
map for the inbound queries, the outbound map for the outbound ones, the cost map for
`get_cost_of_edge`), so nothing is inserted. -/
theorem C32_queries_leave_graph (g : DirectedGraph) (hg : Reachable g) (u v : Int) :
    (∀ d, (g.get_in_degree v).1 = .ok d →
      v ∈ StdMap.keys g.dict_in ∧ (StdMap.index [] v g.dict_in).2 = g.dict_in ∧
        (g.get_in_degree v).2 = g) ∧
    (∀ d, (g.get_out_degree v).1 = .ok d →
      v ∈ StdMap.keys g.dict_out ∧ (StdMap.index [] v g.dict_out).2 = g.dict_out ∧
        (g.get_out_degree v).2 = g) ∧
    (∀ d, (g.get_nr_inbound_neighbours v).1 = .ok d →
      v ∈ StdMap.keys g.dict_in ∧ (g.get_nr_inbound_neighbours v).2 = g) ∧
    (∀ d, (g.get_nr_outbound_neighbours v).1 = .ok d →
      v ∈ StdMap.keys g.dict_out ∧ (g.get_nr_outbound_neighbours v).2 = g) ∧
    (∀ s, (g.get_inbound_neighbours v).1 = .ok s →
      v ∈ StdMap.keys g.dict_in ∧ (g.get_inbound_neighbours v).2 = g) ∧
    (∀ s, (g.get_outbound_neighbours v).1 = .ok s →
      v ∈ StdMap.keys g.dict_out ∧ (g.get_outbound_neighbours v).2 = g) ∧
    (∀ c, (g.get_cost_of_edge u v).1 = .ok c →
      edge_key u v ∈ StdMap.keys g.costs ∧
        (StdMap.index 0 (edge_key u v) g.costs).2 = g.costs ∧
        (g.get_cost_of_edge u v).2 = g) := by
  obtain ⟨hw, hi⟩ := reachable_inv g hg
  have hout : ∀ (h : g.is_vertex_in_graph v = true), v ∈ StdMap.keys g.dict_out :=
    fun h => (is_vertex_iff g v).mp h
  have hin : ∀ (h : g.is_vertex_in_graph v = true), v ∈ StdMap.keys g.dict_in :=
    fun h => (hi.same_keys v).mp ((is_vertex_iff g v).mp h)
  refine ⟨?_, ?_, ?_, ?_, ?_, ?_, ?_⟩
  · intro d h
    have hv := is_vertex_of_query_ok g v (Or.inl ⟨d, h⟩)
    exact ⟨hin hv, StdMap.index_snd_of_mem [] _ _ (hin hv), get_in_degree_state g v hi⟩
  · intro d h
    have hv := is_vertex_of_query_ok g v (Or.inr (Or.inl ⟨d, h⟩))
    exact ⟨hout hv, StdMap.index_snd_of_mem [] _ _ (hout hv), get_out_degree_state g v⟩
  · intro d h
    have hv := is_vertex_of_query_ok g v (Or.inr (Or.inr (Or.inl ⟨d, h⟩)))
    exact ⟨hin hv, get_nr_inbound_neighbours_state g v hi⟩
  · intro d h
    have hv := is_vertex_of_query_ok g v (Or.inr (Or.inr (Or.inr (Or.inl ⟨d, h⟩))))
    exact ⟨hout hv, get_nr_outbound_neighbours_state g v⟩
  · intro s h
    have hv := is_vertex_of_query_ok g v (Or.inr (Or.inr (Or.inr (Or.inr (Or.inl ⟨s, h⟩)))))
    exact ⟨hin hv, get_inbound_neighbours_state g v hi⟩
  · intro s h
    have hv := is_vertex_of_query_ok g v (Or.inr (Or.inr (Or.inr (Or.inr (Or.inr ⟨s, h⟩)))))
    exact ⟨hout hv, get_outbound_neighbours_state g v⟩
  · intro c h
    have hk : edge_key u v ∈ StdMap.keys g.costs :=
      (StdMap.mem_keys_iff _ _).mpr ⟨c, find?_of_get_cost_of_edge g u v c h⟩
    exact ⟨hk, StdMap.index_snd_of_mem 0 _ _ hk, get_cost_of_edge_state g u v⟩

/-- Witness of C32 on `sample_graph`, vertex 1 and the edge (0, 1); on the graph that
`copy_graph` returns for `graph_5_6`, which is not built by the constructor and the
mutations, `get_in_degree(5)` does insert a key. -/
theorem C32_queries_leave_graph_witness :
    Reachable sample_graph ∧
    (sample_graph.get_in_degree 1).1 = .ok 2 ∧
    (sample_graph.get_cost_of_edge 0 1).1 = .ok 7 ∧
    (graph_5_6.copy_graph.get_in_degree 5).1 = .ok 0 ∧
    (graph_5_6.copy_graph.get_in_degree 5).2 ≠ graph_5_6.copy_graph ∧
    ((1 : Int) ∈ StdMap.keys sample_graph.dict_in ∧
      (StdMap.index [] 1 sample_graph.dict_in).2 = sample_graph.dict_in ∧
      (sample_graph.get_in_degree 1).2 = sample_graph) ∧
    (edge_key 0 1 ∈ StdMap.keys sample_graph.costs ∧
      (StdMap.index 0 (edge_key 0 1) sample_graph.costs).2 = sample_graph.costs ∧
      (sample_graph.get_cost_of_edge 0 1).2 = sample_graph) :=
  ⟨reachable_sample_graph, by decide, by decide, by decide, by decide,
    (C32_queries_leave_graph sample_graph reachable_sample_graph 0 1).1 2 (by decide),
    (C32_queries_leave_graph sample_graph reachable_sample_graph 0 1).2.2.2.2.2.2 7
      (by decide)⟩

end DirectedGraph

/-! ## Adding a vertex and removing it again -/

namespace DirectedGraph

/-- C33: for every reachable graph and every id `v` that is not a vertex of it,
`add_vertex(v)` succeeds, `remove_vertex(v)` on the result succeeds, and the graph after the
two calls is the graph before them, in all three maps. -/
theorem C33_add_then_remove_vertex (g : DirectedGraph) (hg : Reachable g) (v : Int)
    (hv : g.is_vertex_in_graph v = false) :
    (g.add_vertex v).1 = .ok () ∧
    ((g.add_vertex v).2.remove_vertex v).1 = .ok () ∧
    ((g.add_vertex v).2.remove_vertex v).2 = g ∧
    ((g.add_vertex v).2.remove_vertex v).2.dict_out = g.dict_out ∧
    ((g.add_vertex v).2.remove_vertex v).2.dict_in = g.dict_in ∧
    ((g.add_vertex v).2.remove_vertex v).2.costs = g.costs := by
  obtain ⟨hw, hi⟩ := reachable_inv g hg
  have hvk : v ∉ StdMap.keys g.dict_out := (is_vertex_false_iff g v).mp hv
  have h1 : (g.add_vertex v).1 = .ok () := by
    rcases add_vertex_cases g v with ⟨h0, _⟩ | ⟨_, h⟩
    · rw [hv] at h0; cases h0
    · rw [h]
  have hr1 := Reachable.add_vertex v hg h1
  have hd1 : (g.add_vertex v).2.dict_out = StdMap.assign v [] g.dict_out := by
    rcases add_vertex_cases g v with ⟨h0, _⟩ | ⟨_, h⟩
    · rw [hv] at h0; cases h0
    · rw [h]
  have hc1 : (g.add_vertex v).2.costs = g.costs := by
    rcases add_vertex_cases g v with ⟨h0, _⟩ | ⟨_, h⟩
    · rw [hv] at h0; cases h0
    · rw [h]
  have hv1 : (g.add_vertex v).2.is_vertex_in_graph v = true := by
    rw [is_vertex_iff, hd1, StdMap.mem_keys_assign]
    exact Or.inl rfl
  rcases remove_vertex_cases (g.add_vertex v).2 v with ⟨h0, _⟩ | ⟨_, h⟩
  · rw [hv1] at h0; cases h0
  have h2 : ((g.add_vertex v).2.remove_vertex v).1 = .ok () := by rw [h]
  have hr2 := Reachable.remove_vertex v hr1 h2
  obtain ⟨hw2, hi2⟩ := reachable_inv _ hr2
  have heq : ((g.add_vertex v).2.remove_vertex v).2 = g := by
    refine eq_of_same_vertices_of_same_costs _ g hw2 hi2 hw hi ?_ ?_
    · intro x
      rw [is_vertex_iff, is_vertex_iff, h]
      simp only
      rw [mem_keys_removed_dict, hd1, StdMap.mem_keys_assign]
      constructor
      · rintro ⟨hne, hx | hx⟩
        · exact absurd hx hne
        · exact hx
      · intro hx
        exact ⟨fun hxv => hvk (hxv ▸ hx), Or.inr hx⟩
    · intro a b
      rw [h]
      simp only
      rw [find?_erase_touching, hc1]
      split_ifs with hab
      · symm
        rw [StdMap.find?_eq_none_iff]
        intro hk
        have he := hi.endpoints a b hk
        rcases hab with rfl | rfl
        · exact hvk he.1
        · exact hvk he.2
      · rfl
  exact ⟨h1, h2, heq, by rw [heq], by rw [heq], by rw [heq]⟩

/-- Witness of C33 on `sample_graph` and the id 7, and on `signed_graph` and the id -1. -/
theorem C33_add_then_remove_vertex_witness :
    Reachable sample_graph ∧ sample_graph.is_vertex_in_graph 7 = false ∧
    (sample_graph.add_vertex 7).2.is_vertex_in_graph 7 = true ∧
    ((signed_graph.add_vertex (-1)).2.remove_vertex (-1)).2 = signed_graph ∧
    ((sample_graph.add_vertex 7).1 = .ok () ∧
      ((sample_graph.add_vertex 7).2.remove_vertex 7).1 = .ok () ∧
      ((sample_graph.add_vertex 7).2.remove_vertex 7).2 = sample_graph ∧
      ((sample_graph.add_vertex 7).2.remove_vertex 7).2.dict_out = sample_graph.dict_out ∧
      ((sample_graph.add_vertex 7).2.remove_vertex 7).2.dict_in = sample_graph.dict_in ∧
      ((sample_graph.add_vertex 7).2.remove_vertex 7).2.costs = sample_graph.costs) :=
  ⟨reachable_sample_graph, by decide, by decide, by decide,
    C33_add_then_remove_vertex sample_graph reachable_sample_graph 7 (by decide)⟩

end DirectedGraph

/-! ## The sampling loop of `generate_random_graph` -/

theorem wrap_int32_le (x : Int) (h : 0 ≤ x) : wrap_int32 x ≤ x := by
  unfold wrap_int32
  omega

theorem two_le_of_bound (n : Int) (h0 : 0 ≤ n) (h : 1 ≤ wrap_int32 (n * (n - 1))) : 2 ≤ n := by
  by_contra hc
  have hn : n = 0 ∨ n = 1 := by omega
  rcases hn with rfl | rfl <;> revert h <;> decide

namespace DirectedGraph

/-- A graph on the vertices `0 .. n-1` with fewer than `n * n` edges has an ordered pair of
vertices that is not an edge. -/
theorem exists_free_pair (g : DirectedGraph) (hg : Reachable g) (n : Int) (hn : 0 ≤ n)
    (hlt : g.get_nr_edges < n * n) :
    ∃ a b, (0 ≤ a ∧ a < n) ∧ (0 ≤ b ∧ b < n) ∧ g.is_edge_in_graph a b = false := by
  obtain ⟨hw, hi⟩ := reachable_inv g hg
  obtain ⟨E, hE, hEc⟩ := edge_finset g hw
  by_contra hall
  have hsub : Finset.Ico (0 : Int) n ×ˢ Finset.Ico (0 : Int) n ⊆ E := by
    rintro ⟨a, b⟩ hab
    rw [Finset.mem_product, Finset.mem_Ico, Finset.mem_Ico] at hab
    rw [hE]
    by_contra hne
    exact hall ⟨a, b, hab.1, hab.2, by simpa using hne⟩
  have hcard := Finset.card_le_card hsub
  rw [Finset.card_product, Int.card_Ico, sub_zero] at hcard
  have hcast : ((n.toNat : Nat) : Int) = n := Int.toNat_of_nonneg hn
  have : ((n.toNat * n.toNat : Nat) : Int) ≤ (E.card : Int) := by exact_mod_cast hcard
  rw [Nat.cast_mul, hcast, hEc] at this
  omega

/-- The sampling loop in terms of the runs of its body. -/
theorem sampling_loop_eq (rand : Nat → Nat) (nr_vertices : Int) :
    ∀ (runs : Nat) (state state' : Nat × Int × DirectedGraph),
      sampling_states rand nr_vertices runs state = .ok state' →
      sampling_loop rand nr_vertices runs state.1 state.2.1 state.2.2 =
        if state'.2.1 = 0 then some (.ok state'.2.2, state'.1) else none := by
  intro runs
  induction runs with
  | zero =>
    intro state state' h
    unfold sampling_states at h
    cases h
    unfold sampling_loop
    rfl
  | succ runs ih =>
    intro state state' h
    unfold sampling_states at h
    unfold sampling_loop
    by_cases h0 : state.2.1 = 0
    · rw [if_pos h0] at h
      cases h
      rw [if_pos h0, if_pos h0]
    · rw [if_neg h0] at h
      rw [if_neg h0]
      unfold sampling_body at h
      simp only at h ⊢
      cases hedge : state.2.2.is_edge_in_graph (Int.tmod (rand state.1) nr_vertices)
          (Int.tmod (rand (state.1 + 1)) nr_vertices)
      · simp only [hedge, Bool.not_false, if_true] at h ⊢
        rcases hadd : state.2.2.add_edge (Int.tmod (rand state.1) nr_vertices)
            (Int.tmod (rand (state.1 + 1)) nr_vertices)
            (Int.tmod (rand (state.1 + 2)) 200 - 100) with ⟨r, g'⟩
        rw [hadd] at h
        cases r with
        | error e => cases h
        | ok u => exact ih _ _ h
      · simp only [hedge, Bool.not_true, Bool.false_eq_true, if_false] at h ⊢
        exact ih _ _ h

/-- What holds at every test of the loop condition, and what it gives for a run of the
body. -/
theorem sampling_body_ok (rand : Nat → Nat) (nr_vertices nr_edges : Int)
    (hv : 0 ≤ nr_vertices) (hb : nr_edges ≤ wrap_int32 (nr_vertices * (nr_vertices - 1)))
    (next : Nat) (remaining : Int) (g : DirectedGraph)
    (hg : Reachable g)
    (hvert : ∀ x, g.is_vertex_in_graph x = true ↔ (0 ≤ x ∧ x < nr_vertices))
    (hrem : 0 ≤ remaining) (hsum : g.get_nr_edges + remaining = nr_edges)
    (h0 : remaining ≠ 0) :
    2 ≤ nr_vertices ∧
    (0 ≤ Int.tmod (rand next) nr_vertices ∧ Int.tmod (rand next) nr_vertices < nr_vertices) ∧
    (0 ≤ Int.tmod (rand (next + 1)) nr_vertices ∧
      Int.tmod (rand (next + 1)) nr_vertices < nr_vertices) ∧
    (∀ c, g.is_edge_in_graph (Int.tmod (rand next) nr_vertices)
        (Int.tmod (rand (next + 1)) nr_vertices) = false →
      (g.add_edge (Int.tmod (rand next) nr_vertices)
        (Int.tmod (rand (next + 1)) nr_vertices) c).1 = .ok ()) ∧
    (∃ a b, (0 ≤ a ∧ a < nr_vertices) ∧ (0 ≤ b ∧ b < nr_vertices) ∧
      g.is_edge_in_graph a b = false) ∧
    ∃ next' remaining' g',
      sampling_body rand nr_vertices next remaining g = .ok (next', remaining', g') ∧
      Reachable g' ∧
      (∀ x, g'.is_vertex_in_graph x = true ↔ (0 ≤ x ∧ x < nr_vertices)) ∧
      0 ≤ remaining' ∧ g'.get_nr_edges + remaining' = nr_edges := by
  obtain ⟨hw, hi⟩ := reachable_inv g hg
  have hne0 : 0 ≤ g.get_nr_edges := by
    unfold get_nr_edges
    omega
  have hprod := mul_pred_nonneg nr_vertices hv
  have hwle := wrap_int32_le _ hprod
  have h2 : 2 ≤ nr_vertices := two_le_of_bound nr_vertices hv (by omega)
  have hpos : 0 < nr_vertices := by omega
  have hfrom : 0 ≤ Int.tmod (rand next) nr_vertices ∧
      Int.tmod (rand next) nr_vertices < nr_vertices :=
    ⟨Int.tmod_nonneg _ (Int.ofNat_nonneg _), Int.tmod_lt_of_pos _ hpos⟩
  have hto : 0 ≤ Int.tmod (rand (next + 1)) nr_vertices ∧
      Int.tmod (rand (next + 1)) nr_vertices < nr_vertices :=
    ⟨Int.tmod_nonneg _ (Int.ofNat_nonneg _), Int.tmod_lt_of_pos _ hpos⟩
  have hvf := (hvert _).mpr hfrom
  have hvt := (hvert _).mpr hto
  have hfree : ∃ a b, (0 ≤ a ∧ a < nr_vertices) ∧ (0 ≤ b ∧ b < nr_vertices) ∧
      g.is_edge_in_graph a b = false := by
    apply exists_free_pair g hg nr_vertices hv
    nlinarith
  refine ⟨h2, hfrom, hto, ?_, hfree, ?_⟩
  · intro c he
    obtain ⟨g', hadd, -⟩ := add_edge_ok g _ _ c hg hvf hvt he
    rw [hadd]
  · unfold sampling_body
    simp only
    cases hedge : g.is_edge_in_graph (Int.tmod (rand next) nr_vertices)
        (Int.tmod (rand (next + 1)) nr_vertices)
    · obtain ⟨g', hadd, hr', hv', hc'⟩ :=
        add_edge_ok g _ _ (Int.tmod (rand (next + 2)) 200 - 100) hg hvf hvt hedge
      refine ⟨next + 3, remaining - 1, g', ?_, hr', ?_, by omega, ?_⟩
      · simp only [Bool.not_false, if_true, hadd]
      · intro x
        rw [hv', hvert]
      · have hk := (is_edge_false_iff g _ _).mp hedge
        simp only [get_nr_edges] at hsum ⊢
        rw [hc', StdMap.length_assign_of_not_mem _ _ g.costs hk]
        push_cast
        omega
    · refine ⟨next + 3, remaining, g, ?_, hg, hvert, hrem, hsum⟩
      simp only [Bool.not_true, Bool.false_eq_true, if_false]

theorem sampling_states_ok (rand : Nat → Nat) (nr_vertices nr_edges : Int)
    (hv : 0 ≤ nr_vertices) (hb : nr_edges ≤ wrap_int32 (nr_vertices * (nr_vertices - 1))) :
    ∀ (runs next : Nat) (remaining : Int) (g : DirectedGraph), Reachable g →
      (∀ x, g.is_vertex_in_graph x = true ↔ (0 ≤ x ∧ x < nr_vertices)) →
      0 ≤ remaining → g.get_nr_edges + remaining = nr_edges →
      ∃ next' remaining' g',
        sampling_states rand nr_vertices runs (next, remaining, g) =
          .ok (next', remaining', g') ∧
        Reachable g' ∧
        (∀ x, g'.is_vertex_in_graph x = true ↔ (0 ≤ x ∧ x < nr_vertices)) ∧
        0 ≤ remaining' ∧ g'.get_nr_edges + remaining' = nr_edges := by
  intro runs
  induction runs with
  | zero =>
    intro next remaining g hg hvert hrem hsum
    exact ⟨next, remaining, g, rfl, hg, hvert, hrem, hsum⟩
  | succ runs ih =>
    intro next remaining g hg hvert hrem hsum
    unfold sampling_states
    by_cases h0 : remaining = 0
    · exact ⟨next, remaining, g, by simp only [h0, if_true], hg, hvert, hrem, hsum⟩
    · obtain ⟨-, -, -, -, -, n1, r1, g1, hbody, hg1, hvert1, hrem1, hsum1⟩ :=
        sampling_body_ok rand nr_vertices nr_edges hv hb next remaining g hg hvert hrem hsum h0
      obtain ⟨n2, r2, g2, hst, hrest⟩ := ih n1 r1 g1 hg1 hvert1 hrem1 hsum1
      refine ⟨n2, r2, g2, ?_, hrest⟩
      simp only [h0, if_false, hbody]
      exact hst

end DirectedGraph

namespace DirectedGraph

/-- C34: in `generate_random_graph`, for arguments that pass the two checks and every
sequence of `rand()` values, the loop reaches its state after any number of runs of the body
without an exception, and whenever the body is about to run (`nr_edges` is not 0 yet):
`nr_vertices ≥ 2`, so the two remainders by `nr_vertices` are not remainders by zero; the
sampled `_from` and `_to` lie in `0 .. nr_vertices-1`; the call of `add_edge`, made when the
pair is not an edge, succeeds, so the body ends without an exception; and some ordered pair
of vertices is not an edge yet. The states are those of `generate_random_graph`: it returns
when the counter is 0 and is still running otherwise. -/
theorem C34_sampling_loop_safe (rand : Nat → Nat) (nr_vertices nr_edges : Int)
    (h₁ : ¬(nr_vertices < 0 ∨ nr_edges < 0))
    (h₂ : ¬(nr_edges > wrap_int32 (nr_vertices * (nr_vertices - 1)))) (runs : Nat) :
    ∃ next remaining random_graph,
      sampling_states rand nr_vertices runs (0, nr_edges, new nr_vertices) =
        .ok (next, remaining, random_graph) ∧
      generate_random_graph rand runs nr_vertices nr_edges =
        (if remaining = 0 then some (.ok random_graph, next) else none) ∧
      (remaining ≠ 0 →
        (2 ≤ nr_vertices ∧ nr_vertices ≠ 0) ∧
        (0 ≤ Int.tmod (rand next) nr_vertices ∧
          Int.tmod (rand next) nr_vertices < nr_vertices) ∧
        (0 ≤ Int.tmod (rand (next + 1)) nr_vertices ∧
          Int.tmod (rand (next + 1)) nr_vertices < nr_vertices) ∧
        (∀ c, random_graph.is_edge_in_graph (Int.tmod (rand next) nr_vertices)
            (Int.tmod (rand (next + 1)) nr_vertices) = false →
          (random_graph.add_edge (Int.tmod (rand next) nr_vertices)
            (Int.tmod (rand (next + 1)) nr_vertices) c).1 = .ok ()) ∧
        (∃ state, sampling_body rand nr_vertices next remaining random_graph = .ok state) ∧
        ∃ a b, (0 ≤ a ∧ a < nr_vertices) ∧ (0 ≤ b ∧ b < nr_vertices) ∧
          random_graph.is_edge_in_graph a b = false) := by
  have hv : 0 ≤ nr_vertices := by omega
  have he : 0 ≤ nr_edges := by omega
  have hb : nr_edges ≤ wrap_int32 (nr_vertices * (nr_vertices - 1)) := by omega
  have hcast : ((nr_vertices.toNat : Nat) : Int) = nr_vertices := Int.toNat_of_nonneg hv
  have hvert0 : ∀ x, (new nr_vertices).is_vertex_in_graph x = true ↔
      (0 ≤ x ∧ x < nr_vertices) := by
    intro x
    rw [is_vertex_iff, new_eq]
    simp only
    rw [mem_keys_new_dict, hcast]
  have hsum0 : (new nr_vertices).get_nr_edges + nr_edges = nr_edges := by
    rw [new_eq]
    simp [get_nr_edges]
  obtain ⟨next, remaining, g, hst, hg, hvert, hrem, hsum⟩ :=
    sampling_states_ok rand nr_vertices nr_edges hv hb runs 0 nr_edges _
      (Reachable.new nr_vertices) hvert0 he hsum0
  refine ⟨next, remaining, g, hst, ?_, ?_⟩
  · unfold generate_random_graph
    rw [if_neg h₁, if_neg h₂]
    exact sampling_loop_eq rand nr_vertices runs _ _ hst
  · intro h0
    obtain ⟨h2, hfrom, hto, hadd, hfree, n1, r1, g1, hbody, -⟩ :=
      sampling_body_ok rand nr_vertices nr_edges hv hb next remaining g hg hvert hrem hsum h0
    exact ⟨⟨h2, by omega⟩, hfrom, hto, hadd, ⟨_, hbody⟩, hfree⟩

/-- Witness of C34: the request `(3, 2)` with the values of `sample_rand`, after one run of
the body (the edge (0,1) is placed, one edge remains) and after three runs (the loop has
ended, 9 values of `rand()` used). -/
theorem C34_sampling_loop_safe_witness :
    sampling_states sample_rand 3 1 (0, 2, new 3) =
      .ok (3, 1, { dict_out := [(0, [1]), (1, []), (2, [])]
                   dict_in := [(0, []), (1, [0]), (2, [])]
                   costs := [(edge_key 0 1, -50)] }) ∧
    sampling_states sample_rand 3 3 (0, 2, new 3) =
      .ok (9, 0, { dict_out := [(0, [1]), (1, []), (2, [2])]
                   dict_in := [(0, []), (1, [0]), (2, [2])]
                   costs := [(edge_key 0 1, -50), (edge_key 2 2, 99)] }) ∧
    ∃ next remaining random_graph,
      sampling_states sample_rand 3 1 (0, 2, new 3) = .ok (next, remaining, random_graph) ∧
      generate_random_graph sample_rand 1 3 2 =
        (if remaining = 0 then some (.ok random_graph, next) else none) ∧
      (remaining ≠ 0 →
        (2 ≤ (3 : Int) ∧ (3 : Int) ≠ 0) ∧
        (0 ≤ Int.tmod (sample_rand next) 3 ∧ Int.tmod (sample_rand next) 3 < 3) ∧
        (0 ≤ Int.tmod (sample_rand (next + 1)) 3 ∧ Int.tmod (sample_rand (next + 1)) 3 < 3) ∧
        (∀ c, random_graph.is_edge_in_graph (Int.tmod (sample_rand next) 3)
            (Int.tmod (sample_rand (next + 1)) 3) = false →
          (random_graph.add_edge (Int.tmod (sample_rand next) 3)
            (Int.tmod (sample_rand (next + 1)) 3) c).1 = .ok ()) ∧
        (∃ state, sampling_body sample_rand 3 next remaining random_graph = .ok state) ∧
        ∃ a b, (0 ≤ a ∧ a < 3) ∧ (0 ≤ b ∧ b < 3) ∧
          random_graph.is_edge_in_graph a b = false) :=
  ⟨by decide, by decide,
    C34_sampling_loop_safe sample_rand 3 2 (by decide) (by decide) 1⟩

end DirectedGraph

/-! ## The header line of a text -/

namespace Cpp

theorem words_aux_of_not_space (a : List Char) :
    ∀ (b current : List Char), (∀ c ∈ a, isspace c = false) →
      words_aux (a ++ b) current = words_aux b (current ++ a) := by
  induction a with
  | nil => intro b current _; simp
  | cons c a ih =>
    intro b current h
    have hc := h c (List.mem_cons_self _ _)
    rw [List.cons_append, words_aux, hc]
    simp only [Bool.false_eq_true, if_false]
    rw [ih b _ (fun d hd => h d (List.mem_cons_of_mem _ hd))]
    simp

theorem words_aux_of_space (a : List Char) :
    ∀ (b : List Char), (∀ c ∈ a, isspace c = true) →
      words_aux (a ++ b) [] = words_aux b [] := by
  induction a with
  | nil => intro b _; rfl
  | cons c a ih =>
    intro b h
    have hc := h c (List.mem_cons_self _ _)
    rw [List.cons_append, words_aux, hc]
    simp only [if_true, List.isEmpty_nil]
    exact ih b (fun d hd => h d (List.mem_cons_of_mem _ hd))

/-- The extraction `stream >> word` reads the first word of the stream and leaves the other
words; it fails when the stream has no word. -/
theorem words_of_extract (stream : List Char) :
    ((extract stream).1 = none ∧ words stream = []) ∨
    ∃ w, (extract stream).1 = some w ∧ words stream = w :: words (extract stream).2 := by
  have hsplit : stream = stream.takeWhile isspace ++ stream.dropWhile isspace :=
    (List.takeWhile_append_dropWhile _ _).symm
  have hskip : words stream = words_aux (stream.dropWhile isspace) [] := by
    unfold words
    conv_lhs => rw [hsplit]
    exact words_aux_of_space _ _ (fun c hc => List.mem_takeWhile_imp hc)
  cases hd : stream.dropWhile isspace with
  | nil =>
    left
    rw [hskip, hd]
    unfold extract
    rw [hd]
    exact ⟨rfl, rfl⟩
  | cons c rest =>
    right
    have hc : isspace c = false := by
      have := List.head_dropWhile_not isspace stream
        (by rw [hd]; exact List.cons_ne_nil _ _)
      simpa [hd] using this
    have hex : extract stream =
        (some ((c :: rest).takeWhile (fun x => !isspace x)),
          (c :: rest).dropWhile (fun x => !isspace x)) := by
      unfold extract
      rw [hd]
    refine ⟨_, by rw [hex], ?_⟩
    rw [hskip, hd, hex]
    simp only
    have hw : (c :: rest).takeWhile (fun x => !isspace x) ≠ [] := by
      rw [List.takeWhile_cons, hc]
      simp
    have hsplit2 : c :: rest = (c :: rest).takeWhile (fun x => !isspace x) ++
        (c :: rest).dropWhile (fun x => !isspace x) :=
      (List.takeWhile_append_dropWhile _ _).symm
    have hwns : ∀ d ∈ (c :: rest).takeWhile (fun x => !isspace x), isspace d = false := by
      intro d hd'
      have := List.mem_takeWhile_imp hd'
      simpa using this
    have hrhead : ∀ d r', (c :: rest).dropWhile (fun x => !isspace x) = d :: r' →
        isspace d = true := by
      intro d r' hr
      have := List.head_dropWhile_not (fun x => !isspace x) (c :: rest)
        (by rw [hr]; exact List.cons_ne_nil _ _)
      simpa [hr] using this
    generalize (c :: rest).takeWhile (fun x => !isspace x) = w at hw hsplit2 hwns
    generalize (c :: rest).dropWhile (fun x => !isspace x) = r at hsplit2 hrhead
    have hwe : w.isEmpty = false := by
      cases w with
      | nil => exact absurd rfl hw
      | cons _ _ => rfl
    rw [hsplit2, words_aux_of_not_space w r [] hwns, List.nil_append]
    cases r with
    | nil =>
      unfold words
      simp only [words_aux, hwe, Bool.false_eq_true, if_false, List.isEmpty_nil, if_true]
    | cons d r' =>
      have hdsp := hrhead d r' rfl
      unfold words
      simp only [words_aux, hdsp, hwe, Bool.false_eq_true, if_false, List.isEmpty_nil, if_true]

end Cpp

namespace DirectedGraph

/-- C24, the claim fails: the header line of the text `1`, `0 0 5` has one number only. The
second `aa >> word` fails and leaves `word` as it was, so `nr_edges` is 1 as well; the body
gives a graph with one vertex and one edge, both asserts hold and the loader returns it.
Its `get_nr_edges()` is not the second number of the header line: there is none. -/
theorem C24_counterexample :
    read_graph_from_file "1\n0 0 5\n".toList =
      .ok { dict_out := [(0, [0])], dict_in := [(0, [0])], costs := [(edge_key 0 0, 5)] } ∧
    header_words "1\n0 0 5\n".toList = ["1".toList] ∧
    get_nr_edges
      { dict_out := [(0, [0])], dict_in := [(0, [0])], costs := [(edge_key 0 0, 5)] } = 1 ∧
    ¬ ∃ g first second rest,
      read_graph_from_file "1\n0 0 5\n".toList = .ok g ∧
      header_words "1\n0 0 5\n".toList = first :: second :: rest ∧
      Cpp.stoi second = .ok g.get_nr_edges := by
  refine ⟨by decide, by decide, by decide, ?_⟩
  rintro ⟨g, first, second, rest, -, hw, -⟩
  have h : header_words "1\n0 0 5\n".toList = ["1".toList] := by decide
  rw [h] at hw
  cases hw

/-- C24 as amended: whenever `read_graph_from_file` returns a graph, the header line has a
first word, `get_nr_vertices()` of the graph is the number that `stoi` reads from it, and
`get_nr_edges()` is the number that `stoi` reads from the second word of the header line
when there is one, and from the first word again when the header line has one word only
(the two asserts at the end of the loader are the check). -/
theorem C24_counts_equal_header_words (text : List Char) (g : DirectedGraph)
    (h : read_graph_from_file text = .ok g) :
    ∃ first rest, header_words text = first :: rest ∧
      Cpp.stoi first = .ok g.get_nr_vertices ∧
      (∀ second rest', rest = second :: rest' → Cpp.stoi second = .ok g.get_nr_edges) ∧
      (rest = [] → Cpp.stoi first = .ok g.get_nr_edges) := by
  obtain ⟨h₁, h₂⟩ := counts_equal_read_header text g h
  have e₁ : (read_int ((Cpp.getlines text).headD []) []).1 =
      Cpp.stoi ((Cpp.extract ((Cpp.getlines text).headD [])).1.getD []) := rfl
  have e₂ : (read_int (read_int ((Cpp.getlines text).headD []) []).2.2
      (read_int ((Cpp.getlines text).headD []) []).2.1).1 =
      Cpp.stoi ((Cpp.extract (Cpp.extract ((Cpp.getlines text).headD [])).2).1.getD
        ((Cpp.extract ((Cpp.getlines text).headD [])).1.getD [])) := rfl
  rw [e₁] at h₁
  rw [e₂] at h₂
  unfold header_words
  rcases Cpp.words_of_extract ((Cpp.getlines text).headD []) with ⟨hn, -⟩ | ⟨first, hf, hw⟩
  · rw [hn] at h₁
    have : Cpp.stoi [] = .error .invalid_argument := by decide
    simp only [Option.getD_none] at h₁
    rw [this] at h₁
    cases h₁
  · rw [hf] at h₁ h₂
    simp only [Option.getD_some] at h₁ h₂
    refine ⟨first, _, hw, h₁, ?_, ?_⟩
    · intro second rest' hrest
      rcases Cpp.words_of_extract (Cpp.extract ((Cpp.getlines text).headD [])).2 with
        ⟨-, hnil⟩ | ⟨w, hs, hw2⟩
      · rw [hnil] at hrest
        cases hrest
      · rw [hw2] at hrest
        cases hrest
        rw [hs] at h₂
        exact h₂
    · intro hrest
      rcases Cpp.words_of_extract (Cpp.extract ((Cpp.getlines text).headD [])).2 with
        ⟨hn, -⟩ | ⟨w, hs, hw2⟩
      · rw [hn] at h₂
        exact h₂
      · rw [hw2] at hrest
        cases hrest

/-- Witness of C24 as amended: the text of `graph_5_6`, with the header words `2` and `1`, and
a text with the one header word `1`. -/
theorem C24_counts_equal_header_words_witness :
    read_graph_from_file "2 1\n5 6 1\n6\n".toList = .ok graph_5_6 ∧
    header_words "2 1\n5 6 1\n6\n".toList = ["2".toList, "1".toList] ∧
    graph_5_6.get_nr_vertices = 2 ∧ graph_5_6.get_nr_edges = 1 ∧
    (∃ first rest, header_words "2 1\n5 6 1\n6\n".toList = first :: rest ∧
      Cpp.stoi first = .ok graph_5_6.get_nr_vertices ∧
      (∀ second rest', rest = second :: rest' →
        Cpp.stoi second = .ok graph_5_6.get_nr_edges) ∧
      (rest = [] → Cpp.stoi first = .ok graph_5_6.get_nr_edges)) ∧
    (∃ first rest, header_words "1\n0 0 5\n".toList = first :: rest ∧
      Cpp.stoi first = .ok (1 : Int) ∧ rest = []) :=
  ⟨by decide, by decide, by decide, by decide,
    C24_counts_equal_header_words "2 1\n5 6 1\n6\n".toList graph_5_6 (by decide),
    ⟨"1".toList, [], by decide, by decide, rfl⟩⟩

end DirectedGraph
